import Mathlib

/-!
# gnr-taskcollector: image-chunk accumulation

A shallow embedding of `src/taskcollector/TaskCollector.cpp`.

* A bitmap (`FIBITMAP`) is its image type, its width and height, and its
  scanlines; a scanline is the raw array of `float`s the C++ code reaches
  through `FreeImage_GetScanLine`. The code casts that pointer to `FIRGBF *`
  (three consecutive floats per pixel: red, green, blue) or to `FIRGBAF *`
  (four: red, green, blue, alpha), so a field access is an index into the
  float array of the line.
* The channel type `α` stands for `float`. The definitions only use `+`
  (and `0` for a freshly allocated image); a statement that needs the laws
  of exact arithmetic says so by asking for `AddCommMonoid α`. `Binary32`
  is a model of the rounded addition of `float` itself, on the multiples of a
  unit.
* An access outside the float array of a scanline is a memory fault: the
  embedded functions return `Except Fault _`.
* `unsigned int` arithmetic that can wrap is written with an explicit
  `% 2 ^ 32`.
* The calls of the codec library made by `GenericLoader` depend on the files
  on disk: they are the fields of a parameter `Codec`. A dereference of the
  null pointer and a `free` of a pointer that no allocation returned are
  faults as well.
* A run of `main` is the record of how it ends (an exit code or a fault),
  of the collectors after the input loop and of the calls of `GenericWriter`
  made until then.
-/

namespace GnrTaskCollector

/-! ## FreeImage data model -/

/-- The two pixel layouts the collectors distinguish (`FREE_IMAGE_TYPE`). -/
inductive FREE_IMAGE_TYPE where
  | FIT_RGBF
  | FIT_RGBAF
  deriving DecidableEq, Repr

open FREE_IMAGE_TYPE

/-- Number of floats one pixel occupies in a scanline: `sizeof(FIRGBF) / sizeof(float)`
and `sizeof(FIRGBAF) / sizeof(float)`. -/
def channels : FREE_IMAGE_TYPE → Nat
  | FIT_RGBF => 3
  | FIT_RGBAF => 4

/-- An in-memory bitmap: `bits` lists the scanlines (scanline `0` first), each
scanline being its array of floats. -/
structure FIBITMAP (α : Type) where
  type : FREE_IMAGE_TYPE
  width : Nat
  height : Nat
  bits : List (List α)
  deriving DecidableEq, Repr

/-- Representation invariant of a bitmap: `height` scanlines, each holding
`channels type * width` floats. -/
def FIBITMAP.WF {α : Type} (dib : FIBITMAP α) : Prop :=
  dib.bits.length = dib.height ∧
    ∀ scan ∈ dib.bits, scan.length = channels dib.type * dib.width

instance {α : Type} (dib : FIBITMAP α) : Decidable dib.WF := by
  unfold FIBITMAP.WF
  exact inferInstance

/-- A fault that ends the process: an access outside the float array of a
scanline, a dereference of the null pointer, a `free` of a pointer that no
allocation returned. -/
inductive Fault where
  | outOfBounds
  | nullDereference
  | invalidFree
  deriving DecidableEq, Repr

deriving instance DecidableEq for Except

/-! ### Field offsets of `FIRGBF` and `FIRGBAF` inside a scanline -/

/-- Float index of `((FIRGBF *)line)[x].red`. -/
def FIRGBF.red (x : Nat) : Nat := 3 * x
/-- Float index of `((FIRGBF *)line)[x].green`. -/
def FIRGBF.green (x : Nat) : Nat := 3 * x + 1
/-- Float index of `((FIRGBF *)line)[x].blue`. -/
def FIRGBF.blue (x : Nat) : Nat := 3 * x + 2

/-- Float index of `((FIRGBAF *)line)[x].red`. -/
def FIRGBAF.red (x : Nat) : Nat := 4 * x
/-- Float index of `((FIRGBAF *)line)[x].green`. -/
def FIRGBAF.green (x : Nat) : Nat := 4 * x + 1
/-- Float index of `((FIRGBAF *)line)[x].blue`. -/
def FIRGBAF.blue (x : Nat) : Nat := 4 * x + 2
/-- Float index of `((FIRGBAF *)line)[x].alpha`. -/
def FIRGBAF.alpha (x : Nat) : Nat := 4 * x + 3

/-! ### Memory accesses -/

/-- Read of the float at index `i` of a scanline. -/
def load {α : Type} (scan : List α) (i : Nat) : Except Fault α :=
  match scan[i]? with
  | some v => .ok v
  | none => .error .outOfBounds

/-- Write of `v` to the float at index `i` of a scanline. -/
def store {α : Type} (scan : List α) (i : Nat) (v : α) : Except Fault (List α) :=
  if i < scan.length then .ok (scan.set i v) else .error .outOfBounds

/-- The compound assignment `line[i] += v`. -/
def addAssign {α : Type} [Add α] (scan : List α) (i : Nat) (v : α) :
    Except Fault (List α) := do
  let d ← load scan i
  store scan i (d + v)

/-- The loop `for (unsigned int i = 0; i < n; ++i) body`, threading the state. -/
def forLoop {σ : Type} (n : Nat) (body : Nat → σ → Except Fault σ) (s : σ) :
    Except Fault σ :=
  (List.range n).foldlM (fun st i => body i st) s

/-! ### `unsigned int` arithmetic -/

/-- Product of two `unsigned int`s (also: of an `unsigned int` and a `size_t`,
converted back to `unsigned int`). -/
def u32mul (a b : Nat) : Nat := (a * b) % 2 ^ 32

/-- Sum of two `unsigned int`s. -/
def u32add (a b : Nat) : Nat := (a + b) % 2 ^ 32

/-- Difference of two `unsigned int`s, wrapping below zero. -/
def u32sub (a b : Nat) : Nat := (a % 2 ^ 32 + (2 ^ 32 - b % 2 ^ 32)) % 2 ^ 32

/-! ### FreeImage primitives

Modelled from the spec: the FreeImage library itself is not part of the
sources; its calls are embedded after the data model of the specification
(section 3) and the library's documented contract. -/

/-- Modelled from the spec: `FreeImage_GetWidth`, the stored width. -/
def FreeImage_GetWidth {α : Type} (dib : FIBITMAP α) : Nat := dib.width

/-- Modelled from the spec: `FreeImage_GetHeight`, the stored height. -/
def FreeImage_GetHeight {α : Type} (dib : FIBITMAP α) : Nat := dib.height

/-- Modelled from the spec: `FreeImage_GetImageType`, the stored layout. -/
def FreeImage_GetImageType {α : Type} (dib : FIBITMAP α) : FREE_IMAGE_TYPE := dib.type

/-- Modelled from the spec: `FreeImage_GetBPP`, the bit depth of the layout
(32-bit floats). -/
def FreeImage_GetBPP {α : Type} (dib : FIBITMAP α) : Nat := 32 * channels dib.type

/-- Modelled from the spec: `FreeImage_GetScanLine(dib, y)`. The call only
computes a pointer; a scanline index past the last line gives a pointer with
no accessible float behind it. -/
def FreeImage_GetScanLine {α : Type} (dib : FIBITMAP α) (y : Nat) : List α :=
  dib.bits.getD y []

/-- The effect, on the bitmap, of the writes made through the pointer
returned by `FreeImage_GetScanLine(dib, y)`. -/
def FIBITMAP.setScanLine {α : Type} (dib : FIBITMAP α) (y : Nat) (scan : List α) :
    FIBITMAP α :=
  { dib with bits := dib.bits.set y scan }

/-- Modelled from the spec: `FreeImage_Copy(dib, left, top, right, bottom)` as
the collector calls it, with the rectangle `(0, height, width, 0)` that spans
the whole image ("Output is initialized as a copy of the first chunk"). -/
def FreeImage_Copy {α : Type} (dib : FIBITMAP α) (_left _top _right _bottom : Nat) :
    FIBITMAP α :=
  dib

/-- Modelled from the spec: `FreeImage_AllocateT(type, width, height, bpp)`,
"a fresh buffer is allocated (zero-initialized) at full target size". For the
float layouts the bit depth follows from the type. -/
def FreeImage_AllocateT {α : Type} [Zero α] (type : FREE_IMAGE_TYPE) (width height : Nat)
    (_bpp : Nat) : FIBITMAP α :=
  { type := type, width := width, height := height,
    bits := List.replicate height (List.replicate (channels type * width) 0) }

/-! ## `AddTaskCollector` -/

/-- Body of the pixel loop of `chunksWorker`, `FIT_RGBF` branch:
`dstbits[x].red += srcbits[x].red; dstbits[x].blue += srcbits[x].blue;
dstbits[x].green += srcbits[x].green;` with both pointers of type `FIRGBF *`. -/
def AddTaskCollector.addPixelRGBF {α : Type} [Add α] (srcbits : List α) (x : Nat)
    (dstbits : List α) : Except Fault (List α) := do
  let r ← load srcbits (FIRGBF.red x)
  let dstbits ← addAssign dstbits (FIRGBF.red x) r
  let b ← load srcbits (FIRGBF.blue x)
  let dstbits ← addAssign dstbits (FIRGBF.blue x) b
  let g ← load srcbits (FIRGBF.green x)
  addAssign dstbits (FIRGBF.green x) g

/-- Body of the pixel loop of `chunksWorker`, `FIT_RGBAF` branch: red, blue,
green and alpha are added, both pointers of type `FIRGBAF *`. -/
def AddTaskCollector.addPixelRGBAF {α : Type} [Add α] (srcbits : List α) (x : Nat)
    (dstbits : List α) : Except Fault (List α) := do
  let r ← load srcbits (FIRGBAF.red x)
  let dstbits ← addAssign dstbits (FIRGBAF.red x) r
  let b ← load srcbits (FIRGBAF.blue x)
  let dstbits ← addAssign dstbits (FIRGBAF.blue x) b
  let g ← load srcbits (FIRGBAF.green x)
  let dstbits ← addAssign dstbits (FIRGBAF.green x) g
  let a ← load srcbits (FIRGBAF.alpha x)
  addAssign dstbits (FIRGBAF.alpha x) a

/-- Body of the pixel loop of `alphaChunksWorker`:
`dstbits[x].alpha += srcbits[x].red + srcbits[x].blue + srcbits[x].green;`
with both pointers cast to `FIRGBAF *`, whatever the layouts are. -/
def AddTaskCollector.alphaPixel {α : Type} [Add α] (srcbits : List α) (x : Nat)
    (dstbits : List α) : Except Fault (List α) := do
  let r ← load srcbits (FIRGBAF.red x)
  let b ← load srcbits (FIRGBAF.blue x)
  let g ← load srcbits (FIRGBAF.green x)
  addAssign dstbits (FIRGBAF.alpha x) (r + b + g)

/-- The lambda `chunksWorker` of `AddTaskCollector::finalize`: adds the chunk
`el` into `finalImage`, scanline by scanline, by the layout of the first
chunk. -/
def AddTaskCollector.chunksWorker {α : Type} [Add α] (type : FREE_IMAGE_TYPE)
    (height width : Nat) (finalImage el : FIBITMAP α) : Except Fault (FIBITMAP α) :=
  if type = FIT_RGBF then
    forLoop height (fun y img => do
      let srcbits := FreeImage_GetScanLine el y
      let dstbits := FreeImage_GetScanLine img y
      let dstbits ← forLoop width (AddTaskCollector.addPixelRGBF srcbits) dstbits
      pure (img.setScanLine y dstbits)) finalImage
  else if type = FIT_RGBAF then
    forLoop height (fun y img => do
      let srcbits := FreeImage_GetScanLine el y
      let dstbits := FreeImage_GetScanLine img y
      let dstbits ← forLoop width (AddTaskCollector.addPixelRGBAF srcbits) dstbits
      pure (img.setScanLine y dstbits)) finalImage
  else
    pure finalImage

/-- The lambda `alphaChunksWorker` of `AddTaskCollector::finalize`: no test on
the layout, every scanline of `el` is folded into the alpha of `finalImage`. -/
def AddTaskCollector.alphaChunksWorker {α : Type} [Add α] (height width : Nat)
    (finalImage el : FIBITMAP α) : Except Fault (FIBITMAP α) :=
  forLoop height (fun y img => do
    let srcbits := FreeImage_GetScanLine el y
    let dstbits := FreeImage_GetScanLine img y
    let dstbits ← forLoop width (AddTaskCollector.alphaPixel srcbits) dstbits
    pure (img.setScanLine y dstbits)) finalImage

/-- `AddTaskCollector::finalize` on the collector's `chunks` and `alphaChunks`.
`.ok none` is the `NULL` return. (`showProgress` only prints.) -/
def AddTaskCollector.finalize {α : Type} [Add α] (chunks alphaChunks : List (FIBITMAP α)) :
    Except Fault (Option (FIBITMAP α)) :=
  match chunks with
  | [] => pure none
  | it :: rest => do
    let width := FreeImage_GetWidth it
    let height := FreeImage_GetHeight it
    let type := FreeImage_GetImageType it
    let finalImage := FreeImage_Copy it 0 height width 0
    let finalImage ← rest.foldlM (AddTaskCollector.chunksWorker type height width) finalImage
    let finalImage ← alphaChunks.foldlM (AddTaskCollector.alphaChunksWorker height width)
      finalImage
    pure (some finalImage)

/-! ## `PasteTaskCollector` -/

/-- Body of the pixel loop of `chunkWorker`, `FIT_RGBF` branch:
`dstbits[x].red = srcbits[x].red; dstbits[x].blue = srcbits[x].blue;
dstbits[x].green = srcbits[x].green;` with both pointers of type `FIRGBF *`. -/
def PasteTaskCollector.copyPixelRGBF {α : Type} (srcbits : List α) (x : Nat)
    (dstbits : List α) : Except Fault (List α) := do
  let r ← load srcbits (FIRGBF.red x)
  let dstbits ← store dstbits (FIRGBF.red x) r
  let b ← load srcbits (FIRGBF.blue x)
  let dstbits ← store dstbits (FIRGBF.blue x) b
  let g ← load srcbits (FIRGBF.green x)
  store dstbits (FIRGBF.green x) g

/-- Body of the pixel loop of `chunkWorker`, `FIT_RGBAF` branch: red, blue,
green and alpha are copied, both pointers of type `FIRGBAF *`. -/
def PasteTaskCollector.copyPixelRGBAF {α : Type} (srcbits : List α) (x : Nat)
    (dstbits : List α) : Except Fault (List α) := do
  let r ← load srcbits (FIRGBAF.red x)
  let dstbits ← store dstbits (FIRGBAF.red x) r
  let b ← load srcbits (FIRGBAF.blue x)
  let dstbits ← store dstbits (FIRGBAF.blue x) b
  let g ← load srcbits (FIRGBAF.green x)
  let dstbits ← store dstbits (FIRGBAF.green x) g
  let a ← load srcbits (FIRGBAF.alpha x)
  store dstbits (FIRGBAF.alpha x) a

/-- The lambda `chunkWorker` of `PasteTaskCollector::finalize`. The state is
the image under construction together with `currentHeight`, which the lambda
captures by reference: scanline `y` of `el` is copied to scanline
`y + currentHeight` of the image, then `currentHeight -= chunkHeight`. -/
def PasteTaskCollector.chunkWorker {α : Type} (type : FREE_IMAGE_TYPE)
    (chunkHeight width : Nat) (st : FIBITMAP α × Nat) (el : FIBITMAP α) :
    Except Fault (FIBITMAP α × Nat) := do
  let finalImage := st.1
  let currentHeight := st.2
  let finalImage ←
    if type = FIT_RGBF then
      forLoop chunkHeight (fun y img => do
        let srcbits := FreeImage_GetScanLine el y
        let dstbits := FreeImage_GetScanLine img (u32add y currentHeight)
        let dstbits ← forLoop width (PasteTaskCollector.copyPixelRGBF srcbits) dstbits
        pure (img.setScanLine (u32add y currentHeight) dstbits)) finalImage
    else if type = FIT_RGBAF then
      forLoop chunkHeight (fun y img => do
        let srcbits := FreeImage_GetScanLine el y
        let dstbits := FreeImage_GetScanLine img (u32add y currentHeight)
        let dstbits ← forLoop width (PasteTaskCollector.copyPixelRGBAF srcbits) dstbits
        pure (img.setScanLine (u32add y currentHeight) dstbits)) finalImage
    else
      pure finalImage
  pure (finalImage, u32sub currentHeight chunkHeight)

/-- `PasteTaskCollector::finalize` on the collector's `chunks` and
`alphaChunks`. `.ok none` is the `NULL` return. (`showProgress` only prints.) -/
def PasteTaskCollector.finalize {α : Type} [Zero α] (chunks _alphaChunks : List (FIBITMAP α)) :
    Except Fault (Option (FIBITMAP α)) :=
  match chunks with
  | [] => pure none
  | it :: _ => do
    let width := FreeImage_GetWidth it
    let chunkHeight := FreeImage_GetHeight it
    let height := u32mul chunkHeight chunks.length
    let currentHeight := u32sub height chunkHeight
    let type := FreeImage_GetImageType it
    let bpp := FreeImage_GetBPP it
    let finalImage : FIBITMAP α := FreeImage_AllocateT type width height bpp
    let st ← chunks.foldlM (PasteTaskCollector.chunkWorker type chunkHeight width)
      (finalImage, currentHeight)
    pure (some st.1)

/-! ## The collector object and the batch driver -/

/-- The concrete class of a collector object, which fixes the `finalize` that
the virtual call dispatches to. -/
inductive CollectorClass where
  | AddTaskCollector
  | PasteTaskCollector
  deriving DecidableEq, Repr

/-- State of a `TaskCollector` object: the two chunk vectors, and the concrete
class of the object. -/
structure TaskCollector (α : Type) where
  cls : CollectorClass
  chunks : List (FIBITMAP α)
  alphaChunks : List (FIBITMAP α)
  deriving DecidableEq, Repr

/-- A file format of the codec library (`FREE_IMAGE_FORMAT`). `FIF_UNKNOWN` is
the `none` of `Option FREE_IMAGE_FORMAT`. -/
abbrev FREE_IMAGE_FORMAT := Nat

/-- The calls of the codec library that `GenericLoader` makes. Their answers
depend on the files on disk and on the plugins of the library, so they are
parameters of the embedding. `none` stands for `FIF_UNKNOWN` and for the
`NULL` bitmap that `FreeImage_Load` returns when it cannot load the file. -/
structure Codec (α : Type) where
  FreeImage_GetFileType : String → Option FREE_IMAGE_FORMAT
  FreeImage_GetFIFFromFilename : String → Option FREE_IMAGE_FORMAT
  FreeImage_FIFSupportsReading : FREE_IMAGE_FORMAT → Bool
  FreeImage_Load : FREE_IMAGE_FORMAT → String → Option (FIBITMAP α)

/-- `GenericLoader(lpszPathName, flag)`, lines 18-37; `.ok none` is the `NULL`
return. Line 32 copies `*FreeImage_Load(fif, lpszPathName, flag)` into the
shared pointer without a test of the returned pointer: when the load fails,
the null pointer is dereferenced. (The load flag, always 0, is left out.) -/
def GenericLoader {α : Type} (lib : Codec α) (lpszPathName : String) :
    Except Fault (Option (FIBITMAP α)) :=
  let fif := lib.FreeImage_GetFileType lpszPathName
  let fif := if fif = none then lib.FreeImage_GetFIFFromFilename lpszPathName else fif
  match fif with
  | some fif =>
    if lib.FreeImage_FIFSupportsReading fif then
      match lib.FreeImage_Load fif lpszPathName with
      | some dib => .ok (some dib)
      | none => .error .nullDereference
    else
      .ok none
  | none => .ok none

/-- `TaskCollector::addImgFile`: the returned `bool` and the collector after
the call. -/
def TaskCollector.addImgFile {α : Type} (lib : Codec α) (tc : TaskCollector α)
    (pathName : String) : Except Fault (Bool × TaskCollector α) := do
  let img ← GenericLoader lib pathName
  match img with
  | none => pure (false, tc)
  | some img => pure (true, { tc with chunks := tc.chunks ++ [img] })

/-- `TaskCollector::addAlphaFile`: the returned `bool` and the collector after
the call. -/
def TaskCollector.addAlphaFile {α : Type} (lib : Codec α) (tc : TaskCollector α)
    (pathName : String) : Except Fault (Bool × TaskCollector α) := do
  let img ← GenericLoader lib pathName
  match img with
  | none => pure (false, tc)
  | some img => pure (true, { tc with alphaChunks := tc.alphaChunks ++ [img] })

/-- The buffer that `GenericLoader` returns for a path, if it returns one. -/
def loaded {α : Type} (lib : Codec α) (pathName : String) : Option (FIBITMAP α) :=
  match GenericLoader lib pathName with
  | .ok img => img
  | .error _ => none

/-- `FreeImage_Unload(el.get())` as the destructor of the collector calls it.
The library releases the pixels and then frees the `FIBITMAP` block at the
address it is given. Every handle a collector holds was made at line 32 by
`std::make_shared<FIBITMAP>(*FreeImage_Load(...))`: `el.get()` is the address
of a copy of the header that lives inside the control block of the shared
pointer, not the address of a block that an allocation returned. -/
def FreeImage_Unload {α : Type} (_dib : FIBITMAP α) : Except Fault Unit :=
  .error .invalidFree

/-- The destructor of `TaskCollector`, lines 94-98: `FreeImage_Unload` on
every element of `chunks`, then on every element of `alphaChunks`. -/
def TaskCollector.destructor {α : Type} (tc : TaskCollector α) : Except Fault Unit := do
  tc.chunks.forM FreeImage_Unload
  tc.alphaChunks.forM FreeImage_Unload

/-- The virtual call `finalize()`, dispatched on the class of the object. -/
def TaskCollector.finalize {α : Type} [Add α] [Zero α] (tc : TaskCollector α) :
    Except Fault (Option (FIBITMAP α)) :=
  match tc.cls with
  | .AddTaskCollector => AddTaskCollector.finalize tc.chunks tc.alphaChunks
  | .PasteTaskCollector => PasteTaskCollector.finalize tc.chunks tc.alphaChunks

/-- `TaskCollector::finalizeAndSave(outputPath)`: the path and the image that
are handed to `GenericWriter`. -/
def TaskCollector.finalizeAndSave {α : Type} [Add α] [Zero α] (tc : TaskCollector α)
    (outputPath : String) : Except Fault (String × Option (FIBITMAP α)) := do
  let img ← tc.finalize
  pure (outputPath, img)

/-- `std::string::find_last_of(c)`: the index of the last occurrence of `c`,
`none` for `npos`. -/
def find_last_of : List Char → Char → Option Nat
  | [], _ => none
  | a :: rest, c =>
    match find_last_of rest c with
    | some i => some (i + 1)
    | none => if a = c then some 0 else none

/-- Lines 304-306 of `main`: the path of the second output, computed from the
requested output path `argv[2]`. -/
def main.alphaName (outputPath : String) : String :=
  match find_last_of outputPath.toList '.' with
  | none => outputPath ++ ".exr"
  | some it => String.mk (outputPath.toList.take it) ++ ".Alpha.exr"

/-- Lines 275-286 of `main`: the two collectors created for the mode `argv[1]`,
`none` when the mode is refused. -/
def main.makeCollectors {α : Type} (mode : String) :
    Option (TaskCollector α × TaskCollector α) :=
  if mode = "add" then
    some (⟨.AddTaskCollector, [], []⟩, ⟨.AddTaskCollector, [], []⟩)
  else if mode = "paste" then
    some (⟨.AddTaskCollector, [], []⟩, ⟨.AddTaskCollector, [], []⟩)
  else
    none

/-- One turn of the input loop of `main` (lines 289-301) on the path `argv[i]`:
the state is the pair `(taskCollector, alphaTaskCollector)`. -/
def main.inputStep {α : Type} (lib : Codec α) (st : TaskCollector α × TaskCollector α)
    (arg : String) : Except Fault (TaskCollector α × TaskCollector α) :=
  if ¬ ("Alpha".toList <:+: arg.toList) then do
    let r ← st.1.addImgFile lib arg
    pure (r.2, st.2)
  else do
    let r1 ← st.1.addAlphaFile lib arg
    let r2 ← st.2.addImgFile lib arg
    pure (r1.2, r2.2)

/-- What a run of `main` leaves behind: how it ends (the exit code, or the
fault that ends the process), the two collectors after the input loop (when
the run gets there) and the calls made to `GenericWriter` until the run ends,
in order. -/
structure MainResult (α : Type) where
  exit : Except Fault Int
  taskCollector : Option (TaskCollector α)
  alphaTaskCollector : Option (TaskCollector α)
  written : List (String × Option (FIBITMAP α))
  deriving DecidableEq, Repr

/-- The function `main` on the argument vector `argv` (`argc` is its length).
At `return 0` the two `std::unique_ptr<TaskCollector>` are destroyed, in the
reverse order of their declarations, which runs the destructor of each
collector. -/
def main {α : Type} [Add α] [Zero α] (lib : Codec α) (argv : List String) : MainResult α :=
  if argv.length < 4 then
    ⟨.ok (-1), none, none, []⟩
  else
    match main.makeCollectors (argv.getD 1 "") with
    | none => ⟨.ok (-1), none, none, []⟩
    | some start =>
      match (argv.drop 3).foldlM (main.inputStep lib) start with
      | .error fault => ⟨.error fault, none, none, []⟩
      | .ok st =>
        let name := main.alphaName (argv.getD 2 "")
        match st.1.finalizeAndSave (argv.getD 2 "") with
        | .error fault => ⟨.error fault, some st.1, some st.2, []⟩
        | .ok first =>
          match st.2.finalizeAndSave name with
          | .error fault => ⟨.error fault, some st.1, some st.2, [first]⟩
          | .ok second =>
            match st.2.destructor >>= fun _ => st.1.destructor with
            | .error fault => ⟨.error fault, some st.1, some st.2, [first, second]⟩
            | .ok _ => ⟨.ok 0, some st.1, some st.2, [first, second]⟩

/-! ## Observations on bitmaps -/

/-- The float of channel `k` (0 red, 1 green, 2 blue, 3 alpha) of pixel
`(x, y)`, by the layout of the bitmap; `0` where the bitmap holds no such
float. -/
def FIBITMAP.px {α : Type} [Zero α] (dib : FIBITMAP α) (x y k : Nat) : α :=
  (dib.bits.getD y []).getD (channels dib.type * x + k) 0

/-- Red of pixel `(x, y)`. -/
def FIBITMAP.red {α : Type} [Zero α] (dib : FIBITMAP α) (x y : Nat) : α := dib.px x y 0
/-- Green of pixel `(x, y)`. -/
def FIBITMAP.green {α : Type} [Zero α] (dib : FIBITMAP α) (x y : Nat) : α := dib.px x y 1
/-- Blue of pixel `(x, y)`. -/
def FIBITMAP.blue {α : Type} [Zero α] (dib : FIBITMAP α) (x y : Nat) : α := dib.px x y 2
/-- Alpha of pixel `(x, y)` of an `FIT_RGBAF` bitmap. -/
def FIBITMAP.alpha {α : Type} [Zero α] (dib : FIBITMAP α) (x y : Nat) : α := dib.px x y 3

/-- The chunks of a list are well formed and share a layout, a width and a height. -/
def Uniform {α : Type} (type : FREE_IMAGE_TYPE) (width height : Nat)
    (chunks : List (FIBITMAP α)) : Prop :=
  ∀ el ∈ chunks, el.WF ∧ el.type = type ∧ el.width = width ∧ el.height = height

instance {α : Type} (type : FREE_IMAGE_TYPE) (width height : Nat)
    (chunks : List (FIBITMAP α)) : Decidable (Uniform type width height chunks) := by
  unfold Uniform
  exact inferInstance

/-- Float-by-float sum of the scanlines of two images. -/
def addBits {α : Type} [Add α] (dst src : List (List α)) : List (List α) :=
  List.zipWith (List.zipWith (· + ·)) dst src

/-- Scanlines of the additive merge of a list of primary chunks, in insertion
order: the first chunk, to which every later chunk is added. -/
def mergedBits {α : Type} [Add α] : List (FIBITMAP α) → Option (List (List α))
  | [] => none
  | c :: cs => some (cs.foldl (fun acc el => addBits acc el.bits) c.bits)

/-- Two images have the same header and the same number of scanlines. -/
def sameFrame {α : Type} (a b : FIBITMAP α) : Prop :=
  a.type = b.type ∧ a.width = b.width ∧ a.height = b.height ∧ a.bits.length = b.bits.length

/-! ## Sample chunks and a sample codec library -/

/-- A 1x1 `FIT_RGBF` chunk. -/
def sampleRGB1 : FIBITMAP Int := ⟨FIT_RGBF, 1, 1, [[1, 2, 3]]⟩

/-- Another 1x1 `FIT_RGBF` chunk. -/
def sampleRGB2 : FIBITMAP Int := ⟨FIT_RGBF, 1, 1, [[10, 20, 30]]⟩

/-- A 2x1 `FIT_RGBF` chunk. -/
def sampleRGBwide : FIBITMAP Int := ⟨FIT_RGBF, 2, 1, [[1, 2, 3, 4, 5, 6]]⟩

/-- A 2x1 `FIT_RGBAF` chunk. -/
def sampleRGBAwide : FIBITMAP Int := ⟨FIT_RGBAF, 2, 1, [[1, 2, 3, 4, 5, 6, 7, 8]]⟩

/-- A 1x2 `FIT_RGBAF` chunk. -/
def sampleRGBA1 : FIBITMAP Int := ⟨FIT_RGBAF, 1, 2, [[1, 2, 3, 4], [5, 6, 7, 8]]⟩

/-- Another 1x2 `FIT_RGBAF` chunk. -/
def sampleRGBA2 : FIBITMAP Int := ⟨FIT_RGBAF, 1, 2, [[10, 20, 30, 40], [50, 60, 70, 80]]⟩

/-- A 1x1 `FIT_RGBAF` primary chunk over the rationals. -/
def samplePrimaryQ : FIBITMAP ℚ := ⟨FIT_RGBAF, 1, 1, [[1 / 2, 1 / 4, 1 / 8, 1]]⟩

/-- The 1x1 alpha-source chunk with red 0.2, green 0.3, blue 0.1. -/
def sampleAlphaQ : FIBITMAP ℚ := ⟨FIT_RGBAF, 1, 1, [[1 / 5, 3 / 10, 1 / 10, 0]]⟩

/-- A well-formed 1-pixel-wide `FIT_RGBF` chunk of 2^16 scanlines. -/
def sampleTall : FIBITMAP Int :=
  ⟨FIT_RGBF, 1, 65536, List.replicate 65536 [0, 0, 0]⟩

/-- A list of 2^16 chunks `sampleTall`. -/
def sampleMany : List (FIBITMAP Int) := sampleTall :: List.replicate 65535 sampleTall

/-- A 1x1 `FIT_RGBAF` chunk. -/
def sampleRGBA11 : FIBITMAP Int := ⟨FIT_RGBAF, 1, 1, [[1, 2, 3, 4]]⟩

/-- A 2x2 `FIT_RGBF` chunk. -/
def samplePaste1 : FIBITMAP Int :=
  ⟨FIT_RGBF, 2, 2, [[1, 2, 3, 4, 5, 6], [7, 8, 9, 10, 11, 12]]⟩

/-- A second 2x2 `FIT_RGBF` chunk. -/
def samplePaste2 : FIBITMAP Int :=
  ⟨FIT_RGBF, 2, 2, [[21, 22, 23, 24, 25, 26], [27, 28, 29, 30, 31, 32]]⟩

/-- A third 2x2 `FIT_RGBF` chunk. -/
def samplePaste3 : FIBITMAP Int :=
  ⟨FIT_RGBF, 2, 2, [[41, 42, 43, 44, 45, 46], [47, 48, 49, 50, 51, 52]]⟩

/-- A table of three files: `a.exr` and `b.exr` hold the chunks
`sampleRGB1` and `sampleRGB2`, `a.Alpha.exr` holds `sampleRGB2`. -/
def sampleLoader (pathName : String) : Option (FIBITMAP Int) :=
  if pathName = "a.exr" then some sampleRGB1
  else if pathName = "b.exr" then some sampleRGB2
  else if pathName = "a.Alpha.exr" then some sampleRGB2
  else none

/-- A table of three files, each holding the 1x1 `FIT_RGBAF` chunk
`sampleRGBA11`: `t0.exr`, `t1.exr` and `t0.Alpha.exr`. -/
def sampleLoaderRGBA (pathName : String) : Option (FIBITMAP Int) :=
  if pathName = "t0.exr" then some sampleRGBA11
  else if pathName = "t1.exr" then some sampleRGBA11
  else if pathName = "t0.Alpha.exr" then some sampleRGBA11
  else none

/-- The format identifier of the EXR plugin (`FIF_EXR`). -/
def FIF_EXR : FREE_IMAGE_FORMAT := 29

/-- A codec library over a table of files. A file of the table carries the
EXR signature and loads as its buffer; a path that is no file of the table has
no signature and does not load; a name ending in ".exr" is taken for EXR by
its extension; EXR is the only format known, and it can be read. -/
def sampleCodec (files : String → Option (FIBITMAP Int)) : Codec Int where
  FreeImage_GetFileType := fun p => if (files p).isSome then some FIF_EXR else none
  FreeImage_GetFIFFromFilename := fun p =>
    if ".exr".toList <:+ p.toList then some FIF_EXR else none
  FreeImage_FIFSupportsReading := fun fif => decide (fif = FIF_EXR)
  FreeImage_Load := fun _ p => files p

/-! ## A model of `float` addition

The additions of the collectors are IEEE binary32 additions: the exact sum,
rounded to the nearest value with a 24-bit significand, ties to the even
significand. On values that are natural multiples of one fixed power of two
(the unit) the exact sum is again such a multiple, and so is its rounding. -/

/-- The natural number `n` rounded to a multiple of `2 ^ e`: to the nearest
one, and in a tie to the one with the even quotient. -/
def roundToEven (n e : Nat) : Nat :=
  let q := n / 2 ^ e
  let r := n % 2 ^ e
  if 2 * r < 2 ^ e then q * 2 ^ e
  else if 2 ^ e < 2 * r then (q + 1) * 2 ^ e
  else if q % 2 = 0 then q * 2 ^ e
  else (q + 1) * 2 ^ e

/-- The number of low bits of `n` that a 24-bit significand cannot hold: the
least `e` with `n / 2 ^ e < 2 ^ 24` (searched up to `fuel`). -/
def excessBits : Nat → Nat → Nat
  | 0, _ => 0
  | fuel + 1, n => if n < 2 ^ 24 then 0 else excessBits fuel (n / 2) + 1

/-- A `float` whose value is `val` units, the unit being a fixed power of two
(values below 2^128 units, no overflow to infinity). -/
structure Binary32 where
  val : Nat
  deriving DecidableEq, Repr

/-- Addition of `float`s: the exact sum rounded to a 24-bit significand. -/
instance : Add Binary32 :=
  ⟨fun a b => ⟨roundToEven (a.val + b.val) (excessBits 128 (a.val + b.val))⟩⟩

instance : Zero Binary32 := ⟨⟨0⟩⟩

/-- A 1x1 `FIT_RGBAF` primary chunk of `float`s with alpha 0. -/
def sampleFloatPrimary : FIBITMAP Binary32 := ⟨FIT_RGBAF, 1, 1, [[⟨3⟩, ⟨5⟩, ⟨7⟩, ⟨0⟩]]⟩

/-- A 1x1 alpha-source chunk of `float`s with red 1, green 1 and blue 2^24. -/
def sampleFloatAlpha : FIBITMAP Binary32 :=
  ⟨FIT_RGBAF, 1, 1, [[⟨1⟩, ⟨1⟩, ⟨16777216⟩, ⟨0⟩]]⟩

/-- The 1x1 alpha-source chunk whose red, green and blue are the `float`s
nearest to 0.2, 0.3 and 0.1, in units of 2^-30: 13421773 * 2^-26,
10066330 * 2^-25 and 13421773 * 2^-27. -/
def sampleFloatTenths : FIBITMAP Binary32 :=
  ⟨FIT_RGBAF, 1, 1, [[⟨214748368⟩, ⟨322122560⟩, ⟨107374184⟩, ⟨0⟩]]⟩

/-! ## Loops and memory accesses -/

section Loops

variable {α : Type}

theorem forLoop_succ {σ : Type} (n : Nat) (body : Nat → σ → Except Fault σ) (s : σ) :
    forLoop (n + 1) body s = (forLoop n body s >>= body n) := by
  simp [forLoop, List.range_succ, List.foldlM_append]

/-- Invariant rule for `forLoop`: an invariant that every turn re-establishes
without fault holds of the final state, and the loop ends without fault. -/
theorem forLoop_inv {σ : Type} (P : Nat → σ → Prop) (n : Nat)
    (body : Nat → σ → Except Fault σ) (s : σ) (h0 : P 0 s)
    (hstep : ∀ i, i < n → ∀ st, P i st → ∃ st', body i st = .ok st' ∧ P (i + 1) st') :
    ∃ st', forLoop n body s = .ok st' ∧ P n st' := by
  induction n with
  | zero => exact ⟨s, rfl, h0⟩
  | succ n ih =>
    obtain ⟨st, hst, hP⟩ := ih (fun i hi => hstep i (Nat.lt_succ_of_lt hi))
    obtain ⟨st', hst', hP'⟩ := hstep n (Nat.lt_succ_self n) st hP
    refine ⟨st', ?_, hP'⟩
    rw [forLoop_succ, hst]
    exact hst'

theorem load_of_getElem? {scan : List α} {i : Nat} {v : α} (h : scan[i]? = some v) :
    load scan i = .ok v := by
  simp [load, h]

theorem store_of_lt (scan : List α) (i : Nat) (v : α) (h : i < scan.length) :
    store scan i v = .ok (scan.set i v) := by
  simp [store, h]

theorem addAssign_of_getElem? [Add α] (scan : List α) (i : Nat) (d : α) (v : α)
    (h : scan[i]? = some d) : addAssign scan i v = .ok (scan.set i (d + v)) := by
  have hlt : i < scan.length := by
    by_contra hge
    rw [List.getElem?_eq_none (Nat.le_of_not_lt hge)] at h
    cases h
  simp [addAssign, load, h, store, hlt, bind, Except.bind]

theorem exists_getElem?_of_lt (scan : List α) (i : Nat) (h : i < scan.length) :
    ∃ v, scan[i]? = some v := ⟨scan[i], List.getElem?_eq_getElem h⟩

/-- A pixel loop over a scanline of `c * w` floats that, at turn `x`, brings
the floats `c * x .. c * x + c - 1` to their target value and leaves the
others alone, ends without fault on the target scanline. -/
theorem pixelLoop_spec (c w : Nat) (pix : Nat → List α → Except Fault (List α))
    (dst : List α) (tgt : Nat → Option α) (hd : dst.length = c * w)
    (hstep : ∀ x, x < w → ∀ r : List α, r.length = c * w →
      (∀ i, r[i]? = if i < c * x then tgt i else dst[i]?) →
      ∃ r', pix x r = .ok r' ∧ r'.length = c * w ∧
        ∀ i, r'[i]? = if i < c * (x + 1) then tgt i else dst[i]?) :
    ∃ r, forLoop w pix dst = .ok r ∧ r.length = c * w ∧ ∀ i, i < c * w → r[i]? = tgt i := by
  obtain ⟨r, hr, hlen, hP⟩ := forLoop_inv
    (fun x (r : List α) => r.length = c * w ∧
      ∀ i, r[i]? = if i < c * x then tgt i else dst[i]?)
    w pix dst ⟨hd, by intro i; simp⟩ (by
      rintro x hx r ⟨hlen, hP⟩
      exact hstep x hx r hlen hP)
  exact ⟨r, hr, hlen, fun i hi => by rw [hP, if_pos hi]⟩

end Loops

/-! ## Pixel loops of `AddTaskCollector` -/

section AddRows

variable {α : Type} [Add α]

/-- The pixel loop of the `FIT_RGBF` branch of `chunksWorker` adds the source
scanline to the destination scanline, float by float. -/
theorem addRow_RGBF (src dst : List α) (w : Nat) (hs : src.length = 3 * w)
    (hd : dst.length = 3 * w) :
    forLoop w (AddTaskCollector.addPixelRGBF src) dst
      = .ok (List.zipWith (· + ·) dst src) := by
  obtain ⟨r, hr, hlen, hP⟩ := pixelLoop_spec 3 w (AddTaskCollector.addPixelRGBF src) dst
    (fun i => (List.zipWith (· + ·) dst src)[i]?) hd (by
      intro x hx r hlen hP
      obtain ⟨s0, hs0⟩ := exists_getElem?_of_lt src (3 * x) (by omega)
      obtain ⟨s1, hs1⟩ := exists_getElem?_of_lt src (3 * x + 1) (by omega)
      obtain ⟨s2, hs2⟩ := exists_getElem?_of_lt src (3 * x + 2) (by omega)
      obtain ⟨d0, hd0⟩ := exists_getElem?_of_lt dst (3 * x) (by omega)
      obtain ⟨d1, hd1⟩ := exists_getElem?_of_lt dst (3 * x + 1) (by omega)
      obtain ⟨d2, hd2⟩ := exists_getElem?_of_lt dst (3 * x + 2) (by omega)
      have h0 : r[3 * x]? = some d0 := by rw [hP, if_neg (by omega), hd0]
      have h1 : r[3 * x + 1]? = some d1 := by rw [hP, if_neg (by omega), hd1]
      have h2 : r[3 * x + 2]? = some d2 := by rw [hP, if_neg (by omega), hd2]
      refine ⟨((r.set (3 * x) (d0 + s0)).set (3 * x + 2) (d2 + s2)).set (3 * x + 1) (d1 + s1),
        ?_, by simp [hlen], ?_⟩
      · simp only [AddTaskCollector.addPixelRGBF, FIRGBF.red, FIRGBF.green, FIRGBF.blue]
        have a0 := addAssign_of_getElem? r _ d0 s0 h0
        have a2 := addAssign_of_getElem? (r.set (3 * x) (d0 + s0))
          (3 * x + 2) d2 s2
          (by rw [List.getElem?_set_ne (by omega)]; exact h2)
        have a1 := addAssign_of_getElem?
          ((r.set (3 * x) (d0 + s0)).set (3 * x + 2) (d2 + s2))
          (3 * x + 1) d1 s1
          (by rw [List.getElem?_set_ne (by omega), List.getElem?_set_ne (by omega)]; exact h1)
        simp only [bind, Except.bind, load_of_getElem? hs0, load_of_getElem? hs1,
          load_of_getElem? hs2, a0, a1, a2]
      · intro i
        simp only [List.getElem?_set, List.length_set, hlen, List.getElem?_zipWith]
        by_cases e1 : 3 * x + 1 = i
        · subst e1
          simp only [hd1, hs1, if_true]
          rw [if_pos (by omega), if_pos (by omega)]
        by_cases e2 : 3 * x + 2 = i
        · subst e2
          simp only [hd2, hs2, if_true, if_neg e1]
          rw [if_pos (by omega), if_pos (by omega)]
        by_cases e0 : 3 * x = i
        · subst e0
          simp only [hd0, hs0, if_true, if_neg e1, if_neg e2]
          rw [if_pos (by omega), if_pos (by omega)]
        simp only [if_neg e0, if_neg e1, if_neg e2, hP, List.getElem?_zipWith]
        by_cases hi : i < 3 * x
        · rw [if_pos hi, if_pos (by omega)]
        · rw [if_neg hi, if_neg (by omega)])
  rw [hr]
  congr 1
  apply List.ext_getElem?
  intro i
  by_cases hi : i < 3 * w
  · exact hP i hi
  · rw [List.getElem?_eq_none (by omega), List.getElem?_eq_none (by simp; omega)]

/-- The pixel loop of the `FIT_RGBAF` branch of `chunksWorker` adds the source
scanline to the destination scanline, float by float. -/
theorem addRow_RGBAF (src dst : List α) (w : Nat) (hs : src.length = 4 * w)
    (hd : dst.length = 4 * w) :
    forLoop w (AddTaskCollector.addPixelRGBAF src) dst
      = .ok (List.zipWith (· + ·) dst src) := by
  obtain ⟨r, hr, hlen, hP⟩ := pixelLoop_spec 4 w (AddTaskCollector.addPixelRGBAF src) dst
    (fun i => (List.zipWith (· + ·) dst src)[i]?) hd (by
      intro x hx r hlen hP
      obtain ⟨s0, hs0⟩ := exists_getElem?_of_lt src (4 * x) (by omega)
      obtain ⟨s1, hs1⟩ := exists_getElem?_of_lt src (4 * x + 1) (by omega)
      obtain ⟨s2, hs2⟩ := exists_getElem?_of_lt src (4 * x + 2) (by omega)
      obtain ⟨s3, hs3⟩ := exists_getElem?_of_lt src (4 * x + 3) (by omega)
      obtain ⟨d0, hd0⟩ := exists_getElem?_of_lt dst (4 * x) (by omega)
      obtain ⟨d1, hd1⟩ := exists_getElem?_of_lt dst (4 * x + 1) (by omega)
      obtain ⟨d2, hd2⟩ := exists_getElem?_of_lt dst (4 * x + 2) (by omega)
      obtain ⟨d3, hd3⟩ := exists_getElem?_of_lt dst (4 * x + 3) (by omega)
      have h0 : r[4 * x]? = some d0 := by rw [hP, if_neg (by omega), hd0]
      have h1 : r[4 * x + 1]? = some d1 := by rw [hP, if_neg (by omega), hd1]
      have h2 : r[4 * x + 2]? = some d2 := by rw [hP, if_neg (by omega), hd2]
      have h3 : r[4 * x + 3]? = some d3 := by rw [hP, if_neg (by omega), hd3]
      refine ⟨(((r.set (4 * x) (d0 + s0)).set (4 * x + 2) (d2 + s2)).set (4 * x + 1)
        (d1 + s1)).set (4 * x + 3) (d3 + s3), ?_, by simp [hlen], ?_⟩
      · simp only [AddTaskCollector.addPixelRGBAF, FIRGBAF.red, FIRGBAF.green, FIRGBAF.blue,
          FIRGBAF.alpha]
        have a0 := addAssign_of_getElem? r _ d0 s0 h0
        have a2 := addAssign_of_getElem? (r.set (4 * x) (d0 + s0))
          (4 * x + 2) d2 s2
          (by rw [List.getElem?_set_ne (by omega)]; exact h2)
        have a1 := addAssign_of_getElem?
          ((r.set (4 * x) (d0 + s0)).set (4 * x + 2) (d2 + s2))
          (4 * x + 1) d1 s1
          (by rw [List.getElem?_set_ne (by omega), List.getElem?_set_ne (by omega)]; exact h1)
        have a3 := addAssign_of_getElem?
          (((r.set (4 * x) (d0 + s0)).set (4 * x + 2) (d2 + s2)).set (4 * x + 1) (d1 + s1))
          (4 * x + 3) d3 s3
          (by rw [List.getElem?_set_ne (by omega), List.getElem?_set_ne (by omega),
            List.getElem?_set_ne (by omega)]; exact h3)
        simp only [bind, Except.bind, load_of_getElem? hs0, load_of_getElem? hs1,
          load_of_getElem? hs2, load_of_getElem? hs3, a0, a1, a2, a3]
      · intro i
        simp only [List.getElem?_set, List.length_set, hlen, List.getElem?_zipWith]
        by_cases e3 : 4 * x + 3 = i
        · subst e3
          simp only [hd3, hs3, if_true]
          rw [if_pos (by omega), if_pos (by omega)]
        by_cases e1 : 4 * x + 1 = i
        · subst e1
          simp only [hd1, hs1, if_true, if_neg e3]
          rw [if_pos (by omega), if_pos (by omega)]
        by_cases e2 : 4 * x + 2 = i
        · subst e2
          simp only [hd2, hs2, if_true, if_neg e1, if_neg e3]
          rw [if_pos (by omega), if_pos (by omega)]
        by_cases e0 : 4 * x = i
        · subst e0
          simp only [hd0, hs0, if_true, if_neg e1, if_neg e2, if_neg e3]
          rw [if_pos (by omega), if_pos (by omega)]
        simp only [if_neg e0, if_neg e1, if_neg e2, if_neg e3, hP, List.getElem?_zipWith]
        by_cases hi : i < 4 * x
        · rw [if_pos hi, if_pos (by omega)]
        · rw [if_neg hi, if_neg (by omega)])
  rw [hr]
  congr 1
  apply List.ext_getElem?
  intro i
  by_cases hi : i < 4 * w
  · exact hP i hi
  · rw [List.getElem?_eq_none (by omega), List.getElem?_eq_none (by simp; omega)]

end AddRows

/-! ## Scanline loops -/

section ScanLoops

variable {α : Type}

theorem getScanLine_of_bits_eq {a b : FIBITMAP α} {i j : Nat} (h : a.bits[i]? = b.bits[j]?) :
    FreeImage_GetScanLine a i = FreeImage_GetScanLine b j := by
  simp [FreeImage_GetScanLine, List.getD_eq_getElem?_getD, h]

/-- The scanline loop shared by the workers: scanline `y` of `el` is combined
by the pixel loop `pix` into scanline `off y` of the image. When the
destination scanlines are distinct and inside the image, and every pixel loop
ends without fault on a scanline satisfying `R y`, the loop ends without
fault, the destination scanlines satisfy `R`, and nothing else changes. -/
theorem scanLoop_spec (h w : Nat) (pix : List α → Nat → List α → Except Fault (List α))
    (el img : FIBITMAP α) (off : Nat → Nat) (R : Nat → List α → Prop)
    (hin : ∀ y, y < h → off y < img.bits.length)
    (hinj : ∀ y, y < h → ∀ y', y' < h → off y = off y' → y = y')
    (hrow : ∀ y, y < h → ∃ r, forLoop w (pix (FreeImage_GetScanLine el y))
      (FreeImage_GetScanLine img (off y)) = .ok r ∧ R y r) :
    ∃ img', forLoop h (fun y im => do
        let srcbits := FreeImage_GetScanLine el y
        let dstbits := FreeImage_GetScanLine im (off y)
        let dstbits ← forLoop w (pix srcbits) dstbits
        pure (im.setScanLine (off y) dstbits)) img = .ok img' ∧
      img'.type = img.type ∧ img'.width = img.width ∧ img'.height = img.height ∧
      img'.bits.length = img.bits.length ∧
      (∀ y, y < h → ∃ r, img'.bits[off y]? = some r ∧ R y r) ∧
      (∀ j, (∀ y, y < h → off y ≠ j) → img'.bits[j]? = img.bits[j]?) := by
  obtain ⟨img', hrun, ht, hw, hh, hl, hR, hF⟩ := forLoop_inv
    (fun y (im : FIBITMAP α) => im.type = img.type ∧ im.width = img.width ∧
      im.height = img.height ∧ im.bits.length = img.bits.length ∧
      (∀ y', y' < y → ∃ r, im.bits[off y']? = some r ∧ R y' r) ∧
      (∀ j, (∀ y', y' < y → off y' ≠ j) → im.bits[j]? = img.bits[j]?))
    h (fun y im => do
        let srcbits := FreeImage_GetScanLine el y
        let dstbits := FreeImage_GetScanLine im (off y)
        let dstbits ← forLoop w (pix srcbits) dstbits
        pure (im.setScanLine (off y) dstbits)) img ⟨rfl, rfl, rfl, rfl, by intro y' hy'; omega, by intro j _; rfl⟩ (by
      rintro y hy im ⟨ht, hw, hh, hl, hR, hF⟩
      have hsame : im.bits[off y]? = img.bits[off y]? :=
        hF (off y) (fun y' hy' e => by
          have := hinj y' (by omega) y hy e
          omega)
      obtain ⟨r, hr, hRr⟩ := hrow y hy
      refine ⟨im.setScanLine (off y) r, ?_, ht, hw, hh, ?_, ?_, ?_⟩
      · simp only [getScanLine_of_bits_eq hsame, hr, bind, Except.bind, pure, Except.pure]
      · simp [FIBITMAP.setScanLine, hl]
      · intro y' hy'
        by_cases e : y' = y
        · subst e
          refine ⟨r, ?_, hRr⟩
          simp only [FIBITMAP.setScanLine]
          rw [List.getElem?_set_self (by rw [hl]; exact hin y' hy)]
        · obtain ⟨r', hr', hRr'⟩ := hR y' (by omega)
          refine ⟨r', ?_, hRr'⟩
          simp only [FIBITMAP.setScanLine]
          rw [List.getElem?_set_ne (fun e' => e (hinj y' (by omega) y hy e'.symm))]
          exact hr'
      · intro j hj
        simp only [FIBITMAP.setScanLine]
        rw [List.getElem?_set_ne (hj y (Nat.lt_succ_self y))]
        exact hF j (fun y' hy' => hj y' (by omega)))
  exact ⟨img', hrun, ht, hw, hh, hl, hR, hF⟩

end ScanLoops

/-! ## `chunksWorker` adds a chunk float by float -/

section AddChunks

variable {α : Type}

theorem FIBITMAP.WF.getElem?_length {dib : FIBITMAP α} (hwf : dib.WF) {y : Nat} {r : List α}
    (h : dib.bits[y]? = some r) : r.length = channels dib.type * dib.width :=
  hwf.2 r (List.getElem?_mem h)

theorem FIBITMAP.WF.scanLine_length {dib : FIBITMAP α} (hwf : dib.WF) {y : Nat}
    (hy : y < dib.height) :
    (FreeImage_GetScanLine dib y).length = channels dib.type * dib.width := by
  have hy' : y < dib.bits.length := by rw [hwf.1]; exact hy
  have h := List.getElem?_eq_getElem hy'
  simp only [FreeImage_GetScanLine, List.getD_eq_getElem?_getD, h, Option.getD_some]
  exact hwf.getElem?_length h

theorem FIBITMAP.WF.getElem?_scanLine {dib : FIBITMAP α} (hwf : dib.WF) {y : Nat}
    (hy : y < dib.height) : dib.bits[y]? = some (FreeImage_GetScanLine dib y) := by
  have hy' : y < dib.bits.length := by rw [hwf.1]; exact hy
  simp [FreeImage_GetScanLine, List.getD_eq_getElem?_getD, List.getElem?_eq_getElem hy']

variable [Add α]

/-- On two well-formed bitmaps of the same layout, width and height,
`chunksWorker` ends without fault and leaves the float-by-float sum. -/
theorem chunksWorker_eq (img el : FIBITMAP α) (himg : img.WF) (hel : el.WF)
    (ht : el.type = img.type) (hw : el.width = img.width) (hh : el.height = img.height) :
    AddTaskCollector.chunksWorker img.type img.height img.width img el
      = .ok { img with bits := addBits img.bits el.bits } := by
  have key : ∀ (pix : List α → Nat → List α → Except Fault (List α)),
      (∀ src dst : List α, src.length = channels img.type * img.width →
        dst.length = channels img.type * img.width →
        forLoop img.width (pix src) dst = .ok (List.zipWith (· + ·) dst src)) →
      forLoop img.height (fun y im => do
        let srcbits := FreeImage_GetScanLine el y
        let dstbits := FreeImage_GetScanLine im y
        let dstbits ← forLoop img.width (pix srcbits) dstbits
        pure (im.setScanLine y dstbits)) img
        = .ok { img with bits := addBits img.bits el.bits } := by
    intro pix hpix
    obtain ⟨img', hrun, e1, e2, e3, e4, hR, -⟩ := scanLoop_spec img.height img.width pix el img
      (fun y => y)
      (fun y r => r = List.zipWith (· + ·) (FreeImage_GetScanLine img y)
        (FreeImage_GetScanLine el y))
      (fun y hy => by rw [himg.1]; exact hy) (fun y _ y' _ e => e)
      (fun y hy => ⟨_, hpix _ _ (by rw [hel.scanLine_length (by omega), ht, hw])
        (himg.scanLine_length hy), rfl⟩)
    refine hrun.trans ?_
    congr 1
    obtain ⟨t', w', h', bits'⟩ := img'
    simp only at e1 e2 e3 e4 hR
    subst e1 e2 e3
    congr 1
    apply List.ext_getElem?
    intro y
    by_cases hy : y < img.height
    · obtain ⟨r, hr, hr'⟩ := hR y hy
      rw [hr, hr']
      simp only [addBits, List.getElem?_zipWith, himg.getElem?_scanLine hy,
        hel.getElem?_scanLine (show y < el.height by omega)]
    · have hl := himg.1
      rw [List.getElem?_eq_none (by omega), List.getElem?_eq_none]
      simp only [addBits, List.length_zipWith, himg.1]
      omega
  cases htype : img.type with
  | FIT_RGBF =>
    rw [htype] at key
    simp only [AddTaskCollector.chunksWorker, if_true]
    exact key AddTaskCollector.addPixelRGBF (fun src dst hs hd => addRow_RGBF src dst _ hs hd)
  | FIT_RGBAF =>
    rw [htype] at key
    simp only [AddTaskCollector.chunksWorker, if_true, if_false]
    exact key AddTaskCollector.addPixelRGBAF (fun src dst hs hd => addRow_RGBAF src dst _ hs hd)

end AddChunks

/-! ## The additive merge in closed form -/

section AddFold

variable {α : Type}

theorem index_lt {c w x k : Nat} (hx : x < w) (hk : k < c) : c * x + k < c * w :=
  calc c * x + k < c * x + c := Nat.add_lt_add_left hk _
    _ = c * (x + 1) := (Nat.mul_succ c x).symm
    _ ≤ c * w := Nat.mul_le_mul_left c hx

variable [Add α]

theorem addBits_WF (img el : FIBITMAP α) (himg : img.WF) (hel : el.WF)
    (ht : el.type = img.type) (hw : el.width = img.width) (hh : el.height = img.height) :
    FIBITMAP.WF { img with bits := addBits img.bits el.bits } := by
  constructor
  · simp only [addBits, List.length_zipWith, himg.1, hel.1, hh, Nat.min_self]
  · intro scan hscan
    obtain ⟨y, hy, e⟩ := List.getElem_of_mem hscan
    have hy' := hy
    simp only [addBits, List.length_zipWith] at hy'
    have h := List.getElem?_eq_getElem hy
    rw [e] at h
    simp only [addBits, List.getElem?_zipWith] at h
    rw [List.getElem?_eq_getElem (show y < img.bits.length by omega),
      List.getElem?_eq_getElem (show y < el.bits.length by omega)] at h
    simp only [Option.some.injEq] at h
    rw [← h, List.length_zipWith,
      himg.getElem?_length (List.getElem?_eq_getElem (show y < img.bits.length by omega)),
      hel.getElem?_length (List.getElem?_eq_getElem (show y < el.bits.length by omega)),
      ht, hw, Nat.min_self]

/-- Folding `chunksWorker` over well-formed chunks of the layout, width and
height of the image ends without fault on the fold of `addBits`. -/
theorem foldlM_chunksWorker (cs : List (FIBITMAP α)) :
    ∀ img : FIBITMAP α, img.WF → Uniform img.type img.width img.height cs →
      cs.foldlM (AddTaskCollector.chunksWorker img.type img.height img.width) img
        = .ok { img with bits := cs.foldl (fun acc el => addBits acc el.bits) img.bits } := by
  induction cs with
  | nil => intro img _ _; rfl
  | cons el cs ih =>
    intro img himg huni
    obtain ⟨hel, ht, hw, hh⟩ := huni el (List.mem_cons_self _ _)
    rw [List.foldlM_cons, chunksWorker_eq img el himg hel ht hw hh]
    exact ih { img with bits := addBits img.bits el.bits }
      (addBits_WF img el himg hel ht hw hh)
      (fun e he => huni e (List.mem_cons_of_mem _ he))

/-- The result of `AddTaskCollector::finalize` without alpha-source chunks, on
well-formed chunks that share the layout, width and height of the first. -/
theorem add_finalize_eq (c : FIBITMAP α) (cs : List (FIBITMAP α))
    (huni : Uniform c.type c.width c.height (c :: cs)) :
    AddTaskCollector.finalize (c :: cs) []
      = .ok (some { c with bits := cs.foldl (fun acc el => addBits acc el.bits) c.bits }) := by
  have hc := (huni c (List.mem_cons_self _ _)).1
  have h := foldlM_chunksWorker cs c hc (fun e he => huni e (List.mem_cons_of_mem _ he))
  simp only [AddTaskCollector.finalize, FreeImage_GetWidth, FreeImage_GetHeight,
    FreeImage_GetImageType, FreeImage_Copy, h, bind, Except.bind, List.foldlM_nil, pure,
    Except.pure]

theorem px_addBits [Zero α] (img el : FIBITMAP α) (himg : img.WF) (hel : el.WF)
    (ht : el.type = img.type) (hw : el.width = img.width) (hh : el.height = img.height)
    {x y k : Nat} (hx : x < img.width) (hy : y < img.height) (hk : k < channels img.type) :
    FIBITMAP.px { img with bits := addBits img.bits el.bits } x y k
      = img.px x y k + el.px x y k := by
  have hi := index_lt hx hk
  have h1 := himg.getElem?_scanLine hy
  have h2 := hel.getElem?_scanLine (show y < el.height by omega)
  have l1 := himg.scanLine_length hy
  have l2 := hel.scanLine_length (show y < el.height by omega)
  rw [ht, hw] at l2
  simp only [FIBITMAP.px, addBits, List.getD_eq_getElem?_getD, List.getElem?_zipWith, h1, h2,
    Option.getD_some, ht]
  rw [List.getElem?_eq_getElem (show channels img.type * x + k <
      (FreeImage_GetScanLine img y).length by omega),
    List.getElem?_eq_getElem (show channels img.type * x + k <
      (FreeImage_GetScanLine el y).length by omega)]
  rfl

/-- Pixel by pixel and channel by channel, the fold of `addBits` is the sum in
insertion order. -/
theorem px_foldl_addBits [Zero α] (cs : List (FIBITMAP α)) :
    ∀ img : FIBITMAP α, img.WF → Uniform img.type img.width img.height cs →
      ∀ x y k, x < img.width → y < img.height → k < channels img.type →
      FIBITMAP.px { img with bits := cs.foldl (fun acc el => addBits acc el.bits) img.bits }
          x y k
        = cs.foldl (fun acc el => acc + el.px x y k) (img.px x y k) := by
  induction cs with
  | nil => intro img _ _ x y k _ _ _; rfl
  | cons el cs ih =>
    intro img himg huni x y k hx hy hk
    obtain ⟨hel, ht, hw, hh⟩ := huni el (List.mem_cons_self _ _)
    have := ih { img with bits := addBits img.bits el.bits }
      (addBits_WF img el himg hel ht hw hh)
      (fun e he => huni e (List.mem_cons_of_mem _ he)) x y k hx hy hk
    simp only [List.foldl_cons]
    rw [← px_addBits img el himg hel ht hw hh hx hy hk]
    exact this

theorem foldl_addBits_WF (cs : List (FIBITMAP α)) :
    ∀ img : FIBITMAP α, img.WF → Uniform img.type img.width img.height cs →
      FIBITMAP.WF { img with bits := cs.foldl (fun acc el => addBits acc el.bits) img.bits } := by
  induction cs with
  | nil => intro img himg _; exact himg
  | cons el cs ih =>
    intro img himg huni
    obtain ⟨hel, ht, hw, hh⟩ := huni el (List.mem_cons_self _ _)
    exact ih { img with bits := addBits img.bits el.bits }
      (addBits_WF img el himg hel ht hw hh)
      (fun e he => huni e (List.mem_cons_of_mem _ he))

end AddFold

/-! ## Pixel loops of `PasteTaskCollector` -/

section CopyRows

variable {α : Type}

/-- The pixel loop of the `FIT_RGBF` branch of `chunkWorker` overwrites the
destination scanline with the source scanline. -/
theorem copyRow_RGBF (src dst : List α) (w : Nat) (hs : src.length = 3 * w)
    (hd : dst.length = 3 * w) :
    forLoop w (PasteTaskCollector.copyPixelRGBF src) dst = .ok src := by
  obtain ⟨r, hr, hlen, hP⟩ := pixelLoop_spec 3 w (PasteTaskCollector.copyPixelRGBF src) dst
    (fun i => src[i]?) hd (by
      intro x hx r hlen hP
      obtain ⟨s0, hs0⟩ := exists_getElem?_of_lt src (3 * x) (by omega)
      obtain ⟨s1, hs1⟩ := exists_getElem?_of_lt src (3 * x + 1) (by omega)
      obtain ⟨s2, hs2⟩ := exists_getElem?_of_lt src (3 * x + 2) (by omega)
      refine ⟨((r.set (3 * x) s0).set (3 * x + 2) s2).set (3 * x + 1) s1,
        ?_, by simp [hlen], ?_⟩
      · have a0 := store_of_lt r (3 * x) s0 (by omega)
        have a2 := store_of_lt (r.set (3 * x) s0) (3 * x + 2) s2
          (by rw [List.length_set]; omega)
        have a1 := store_of_lt ((r.set (3 * x) s0).set (3 * x + 2) s2)
          (3 * x + 1) s1 (by rw [List.length_set, List.length_set]; omega)
        simp only [PasteTaskCollector.copyPixelRGBF, FIRGBF.red, FIRGBF.green, FIRGBF.blue,
          bind, Except.bind, load_of_getElem? hs0, load_of_getElem? hs1,
          load_of_getElem? hs2, a0, a1, a2]
      · intro i
        simp only [List.getElem?_set, List.length_set, hlen]
        by_cases e1 : 3 * x + 1 = i
        · subst e1
          simp only [hs1, if_true]
          rw [if_pos (by omega), if_pos (by omega)]
        by_cases e2 : 3 * x + 2 = i
        · subst e2
          simp only [hs2, if_true, if_neg e1]
          rw [if_pos (by omega), if_pos (by omega)]
        by_cases e0 : 3 * x = i
        · subst e0
          simp only [hs0, if_true, if_neg e1, if_neg e2]
          rw [if_pos (by omega), if_pos (by omega)]
        simp only [if_neg e0, if_neg e1, if_neg e2, hP]
        by_cases hi : i < 3 * x
        · rw [if_pos hi, if_pos (by omega)]
        · rw [if_neg hi, if_neg (by omega)])
  rw [hr]
  congr 1
  apply List.ext_getElem?
  intro i
  by_cases hi : i < 3 * w
  · exact hP i hi
  · rw [List.getElem?_eq_none (by omega), List.getElem?_eq_none (by omega)]

/-- The pixel loop of the `FIT_RGBAF` branch of `chunkWorker` overwrites the
destination scanline with the source scanline. -/
theorem copyRow_RGBAF (src dst : List α) (w : Nat) (hs : src.length = 4 * w)
    (hd : dst.length = 4 * w) :
    forLoop w (PasteTaskCollector.copyPixelRGBAF src) dst = .ok src := by
  obtain ⟨r, hr, hlen, hP⟩ := pixelLoop_spec 4 w (PasteTaskCollector.copyPixelRGBAF src) dst
    (fun i => src[i]?) hd (by
      intro x hx r hlen hP
      obtain ⟨s0, hs0⟩ := exists_getElem?_of_lt src (4 * x) (by omega)
      obtain ⟨s1, hs1⟩ := exists_getElem?_of_lt src (4 * x + 1) (by omega)
      obtain ⟨s2, hs2⟩ := exists_getElem?_of_lt src (4 * x + 2) (by omega)
      obtain ⟨s3, hs3⟩ := exists_getElem?_of_lt src (4 * x + 3) (by omega)
      refine ⟨(((r.set (4 * x) s0).set (4 * x + 2) s2).set (4 * x + 1) s1).set (4 * x + 3) s3,
        ?_, by simp [hlen], ?_⟩
      · have a0 := store_of_lt r (4 * x) s0 (by omega)
        have a2 := store_of_lt (r.set (4 * x) s0) (4 * x + 2) s2
          (by rw [List.length_set]; omega)
        have a1 := store_of_lt ((r.set (4 * x) s0).set (4 * x + 2) s2)
          (4 * x + 1) s1 (by rw [List.length_set, List.length_set]; omega)
        have a3 := store_of_lt
          (((r.set (4 * x) s0).set (4 * x + 2) s2).set (4 * x + 1) s1)
          (4 * x + 3) s3
          (by rw [List.length_set, List.length_set, List.length_set]; omega)
        simp only [PasteTaskCollector.copyPixelRGBAF, FIRGBAF.red, FIRGBAF.green,
          FIRGBAF.blue, FIRGBAF.alpha, bind, Except.bind, load_of_getElem? hs0,
          load_of_getElem? hs1, load_of_getElem? hs2, load_of_getElem? hs3, a0, a1, a2, a3]
      · intro i
        simp only [List.getElem?_set, List.length_set, hlen]
        by_cases e3 : 4 * x + 3 = i
        · subst e3
          simp only [hs3, if_true]
          rw [if_pos (by omega), if_pos (by omega)]
        by_cases e1 : 4 * x + 1 = i
        · subst e1
          simp only [hs1, if_true, if_neg e3]
          rw [if_pos (by omega), if_pos (by omega)]
        by_cases e2 : 4 * x + 2 = i
        · subst e2
          simp only [hs2, if_true, if_neg e1, if_neg e3]
          rw [if_pos (by omega), if_pos (by omega)]
        by_cases e0 : 4 * x = i
        · subst e0
          simp only [hs0, if_true, if_neg e1, if_neg e2, if_neg e3]
          rw [if_pos (by omega), if_pos (by omega)]
        simp only [if_neg e0, if_neg e1, if_neg e2, if_neg e3, hP]
        by_cases hi : i < 4 * x
        · rw [if_pos hi, if_pos (by omega)]
        · rw [if_neg hi, if_neg (by omega)])
  rw [hr]
  congr 1
  apply List.ext_getElem?
  intro i
  by_cases hi : i < 4 * w
  · exact hP i hi
  · rw [List.getElem?_eq_none (by omega), List.getElem?_eq_none (by omega)]

end CopyRows

/-! ## `chunkWorker` copies a chunk into its band -/

section PasteChunks

variable {α : Type}

theorem u32add_of_lt {a b : Nat} (h : a + b < 2 ^ 32) : u32add a b = a + b :=
  Nat.mod_eq_of_lt h

theorem u32mul_of_lt {a b : Nat} (h : a * b < 2 ^ 32) : u32mul a b = a * b :=
  Nat.mod_eq_of_lt h

theorem u32sub_of_le {a b : Nat} (hb : b ≤ a) (ha : a < 2 ^ 32) : u32sub a b = a - b := by
  unfold u32sub
  rw [Nat.mod_eq_of_lt ha, Nat.mod_eq_of_lt (by omega : b < 2 ^ 32)]
  have e : a + (2 ^ 32 - b) = (a - b) + 2 ^ 32 := by omega
  rw [e, Nat.add_mod_right, Nat.mod_eq_of_lt (by omega)]

/-- On a well-formed image of layout `t` and width `w` whose scanlines
`cur .. cur + h - 1` exist, and a well-formed chunk of layout `t`, width `w`
and height `h`, `chunkWorker` ends without fault: the band holds the
scanlines of the chunk, the rest of the image is as before, and
`currentHeight` has been decremented. -/
theorem chunkWorker_spec (t : FREE_IMAGE_TYPE) (h w : Nat) (img el : FIBITMAP α) (cur : Nat)
    (himg : img.WF) (hit : img.type = t) (hiw : img.width = w)
    (hel : el.WF) (het : el.type = t) (hew : el.width = w) (heh : el.height = h)
    (hfit : cur + h ≤ img.height) (h32 : cur + h ≤ 2 ^ 32) :
    ∃ img', PasteTaskCollector.chunkWorker t h w (img, cur) el = .ok (img', u32sub cur h) ∧
      img'.WF ∧ img'.type = t ∧ img'.width = w ∧ img'.height = img.height ∧
      (∀ y, y < h → img'.bits[cur + y]? = el.bits[y]?) ∧
      (∀ j, (j < cur ∨ cur + h ≤ j) → img'.bits[j]? = img.bits[j]?) := by
  have hoff : ∀ y, y < h → u32add y cur = cur + y := fun y hy => by
    rw [u32add_of_lt (by omega)]; omega
  have key : ∀ (pix : List α → Nat → List α → Except Fault (List α)),
      (∀ src dst : List α, src.length = channels t * w → dst.length = channels t * w →
        forLoop w (pix src) dst = .ok src) →
      ∃ img', forLoop h (fun y im => do
        let srcbits := FreeImage_GetScanLine el y
        let dstbits := FreeImage_GetScanLine im (u32add y cur)
        let dstbits ← forLoop w (pix srcbits) dstbits
        pure (im.setScanLine (u32add y cur) dstbits)) img = .ok img' ∧
      img'.WF ∧ img'.type = t ∧ img'.width = w ∧ img'.height = img.height ∧
      (∀ y, y < h → img'.bits[cur + y]? = el.bits[y]?) ∧
      (∀ j, (j < cur ∨ cur + h ≤ j) → img'.bits[j]? = img.bits[j]?) := by
    intro pix hpix
    obtain ⟨img', hrun, e1, e2, e3, e4, hR, hF⟩ := scanLoop_spec h w pix el img
      (fun y => u32add y cur) (fun y r => r = FreeImage_GetScanLine el y)
      (fun y hy => by show u32add y cur < img.bits.length; rw [hoff y hy, himg.1]; omega)
      (fun y hy y' hy' e => by
        simp only [hoff y hy, hoff y' hy'] at e
        omega)
      (fun y hy => ⟨_, hpix _ _ (by rw [hel.scanLine_length (by omega), het, hew])
        (by rw [himg.scanLine_length (by show u32add y cur < img.height; rw [hoff y hy]; omega),
          hit, hiw]), rfl⟩)
    have hband : ∀ y, y < h → img'.bits[cur + y]? = el.bits[y]? := by
      intro y hy
      obtain ⟨r, hr, hr'⟩ := hR y hy
      simp only [hoff y hy] at hr
      rw [hr, hr', hel.getElem?_scanLine (by omega)]
    have hrest : ∀ j, (j < cur ∨ cur + h ≤ j) → img'.bits[j]? = img.bits[j]? := by
      intro j hj
      apply hF
      intro y hy e
      simp only [hoff y hy] at e
      omega
    refine ⟨img', hrun, ⟨by rw [e4, e3]; exact himg.1, ?_⟩, e1.trans hit, e2.trans hiw, e3,
      hband, hrest⟩
    intro scan hscan
    obtain ⟨j, hj, e⟩ := List.getElem_of_mem hscan
    have hget : img'.bits[j]? = some scan := by rw [List.getElem?_eq_getElem hj, e]
    rw [e1, e2, hit, hiw]
    by_cases hb : cur ≤ j ∧ j < cur + h
    · have := hband (j - cur) (by omega)
      rw [show cur + (j - cur) = j by omega, hget] at this
      rw [hel.getElem?_length this.symm, het, hew]
    · rw [hrest j (by omega)] at hget
      rw [himg.getElem?_length hget, hit, hiw]
  cases t with
  | FIT_RGBF =>
    obtain ⟨img', hrun, rest⟩ := key PasteTaskCollector.copyPixelRGBF
      (fun src dst hs hd => copyRow_RGBF src dst _ hs hd)
    refine ⟨img', ?_, rest⟩
    unfold PasteTaskCollector.chunkWorker
    rw [if_pos rfl, hrun]
    rfl
  | FIT_RGBAF =>
    obtain ⟨img', hrun, rest⟩ := key PasteTaskCollector.copyPixelRGBAF
      (fun src dst hs hd => copyRow_RGBAF src dst _ hs hd)
    refine ⟨img', ?_, rest⟩
    unfold PasteTaskCollector.chunkWorker
    rw [if_neg (by decide), if_pos rfl, hrun]
    rfl

end PasteChunks

/-! ## The concatenating merge -/

section PasteFold

variable {α : Type}

theorem allocateT_WF [Zero α] (t : FREE_IMAGE_TYPE) (w h bpp : Nat) :
    (FreeImage_AllocateT t w h bpp : FIBITMAP α).WF := by
  constructor
  · simp [FreeImage_AllocateT]
  · intro scan hscan
    simp only [FreeImage_AllocateT] at hscan
    rw [List.eq_of_mem_replicate hscan]
    simp [FreeImage_AllocateT]

/-- Folding `chunkWorker` over well-formed chunks of layout `t`, width `w` and
height `h`, from an image tall enough and from the offset of the band of the
first of them: no fault, chunk `i` fills the band `cs.length - 1 - i`, and
the scanlines above the bands are left alone. -/
theorem foldlM_chunkWorker (t : FREE_IMAGE_TYPE) (h w : Nat) (cs : List (FIBITMAP α)) :
    ∀ (img : FIBITMAP α) (cur : Nat), Uniform t w h cs → img.WF → img.type = t →
      img.width = w → h * cs.length ≤ img.height → img.height < 2 ^ 32 →
      (cs = [] ∨ cur + h = h * cs.length) →
      ∃ img' cur', cs.foldlM (PasteTaskCollector.chunkWorker t h w) (img, cur)
          = .ok (img', cur') ∧
        img'.WF ∧ img'.type = t ∧ img'.width = w ∧ img'.height = img.height ∧
        (∀ i el, cs[i]? = some el → ∀ y, y < h →
          img'.bits[(cs.length - 1 - i) * h + y]? = el.bits[y]?) ∧
        (∀ j, h * cs.length ≤ j → img'.bits[j]? = img.bits[j]?) := by
  induction cs with
  | nil =>
    intro img cur _ himg hit hiw _ _ _
    exact ⟨img, cur, rfl, himg, hit, hiw, rfl, fun i el e => by simp at e, fun j _ => rfl⟩
  | cons el rest ih =>
    intro img cur huni himg hit hiw hfit h32 hcur
    obtain ⟨hel, het, hew, heh⟩ := huni el (List.mem_cons_self _ _)
    have hlen : h * (el :: rest).length = h * rest.length + h := by
      rw [List.length_cons, Nat.mul_succ]
    rw [hlen] at hfit
    have hcur' : cur = h * rest.length := by
      rcases hcur with hnil | hc
      · cases hnil
      · rw [hlen] at hc; omega
    obtain ⟨img1, hrun1, hwf1, ht1, hw1, hh1, hband1, hrest1⟩ :=
      chunkWorker_spec t h w img el cur himg hit hiw hel het hew heh (by omega) (by omega)
    obtain ⟨img', cur', hrun, hwf, ht', hw', hh', hbands, hrest⟩ :=
      ih img1 (u32sub cur h) (fun e he => huni e (List.mem_cons_of_mem _ he)) hwf1 ht1 hw1
        (by omega) (by omega) (by
          cases rest with
          | nil => exact Or.inl rfl
          | cons e2 r2 =>
            right
            have hge : h ≤ cur := by
              rw [hcur', List.length_cons, Nat.mul_succ]; omega
            rw [u32sub_of_le hge (by omega)]
            omega)
    refine ⟨img', cur', ?_, hwf, ht', hw', hh'.trans hh1, ?_, ?_⟩
    · rw [List.foldlM_cons, hrun1]
      exact hrun
    · intro i e hi y hy
      cases i with
      | zero =>
        simp only [List.getElem?_cons_zero, Option.some.injEq] at hi
        subst hi
        have e1 : ((el :: rest).length - 1 - 0) * h + y = cur + y := by
          rw [hcur', List.length_cons, Nat.mul_comm]
          rfl
        rw [e1, hrest (cur + y) (by omega), hband1 y hy]
      | succ i' =>
        simp only [List.getElem?_cons_succ] at hi
        have e1 : (el :: rest).length - 1 - (i' + 1) = rest.length - 1 - i' := by
          rw [List.length_cons]; omega
        rw [e1]
        exact hbands i' e hi y hy
    · intro j hj
      rw [hlen] at hj
      rw [hrest j (by omega), hrest1 j (by omega)]

end PasteFold

/-! ## Claims on `AddTaskCollector::finalize` without alpha-source chunks -/

section AddClaims

variable {α : Type}

theorem zipWith_right_comm {β : Type} (f : β → β → β)
    (hf : ∀ a b c, f (f a b) c = f (f a c) b) :
    ∀ l1 l2 l3 : List β,
      List.zipWith f (List.zipWith f l1 l2) l3 = List.zipWith f (List.zipWith f l1 l3) l2 := by
  intro l1
  induction l1 with
  | nil => intro l2 l3; simp
  | cons a l1 ih =>
    intro l2 l3
    cases l2 with
    | nil => cases l3 <;> simp
    | cons b l2 =>
      cases l3 with
      | nil => simp
      | cons c l3 => simp [hf a b c, ih l2 l3]

theorem zipWith_comm_of_comm {β : Type} (f : β → β → β) (hf : ∀ a b, f a b = f b a) :
    ∀ l1 l2 : List β, List.zipWith f l1 l2 = List.zipWith f l2 l1 := by
  intro l1
  induction l1 with
  | nil => intro l2; simp
  | cons a l1 ih =>
    intro l2
    cases l2 with
    | nil => simp
    | cons b l2 => simp [hf a b, ih l2]

theorem addBits_right_comm [AddCommSemigroup α] (a b c : List (List α)) :
    addBits (addBits a b) c = addBits (addBits a c) b :=
  zipWith_right_comm _ (zipWith_right_comm _ (fun x y z => add_right_comm x y z)) a b c

theorem addBits_comm [AddCommSemigroup α] (a b : List (List α)) : addBits a b = addBits b a :=
  zipWith_comm_of_comm _ (zipWith_comm_of_comm _ (fun x y => add_comm x y)) a b

/-- Over exact arithmetic the scanlines of the additive merge do not depend
on the insertion order. -/
theorem mergedBits_perm [AddCommSemigroup α] {ps qs : List (FIBITMAP α)} (hperm : ps.Perm qs) :
    mergedBits ps = mergedBits qs := by
  induction hperm with
  | nil => rfl
  | cons x hp _ =>
    simp only [mergedBits]
    rw [hp.foldl_eq' (fun a _ b _ z => addBits_right_comm z a.bits b.bits)]
  | swap x y l =>
    simp only [mergedBits, List.foldl_cons]
    rw [addBits_comm y.bits x.bits]
  | trans _ _ ih1 ih2 => exact ih1.trans ih2

/-- The result of `AddTaskCollector::finalize` on well-formed primary chunks
that share the layout, width and height of the first: the alpha-source chunks
are folded into the additive merge of the primary chunks. -/
theorem add_finalize_cons [Add α] (c : FIBITMAP α) (cs alphas : List (FIBITMAP α))
    (huni : Uniform c.type c.width c.height (c :: cs)) :
    AddTaskCollector.finalize (c :: cs) alphas
      = (alphas.foldlM (AddTaskCollector.alphaChunksWorker c.height c.width)
          { c with bits := cs.foldl (fun acc el => addBits acc el.bits) c.bits }) >>=
        fun img => pure (some img) := by
  have hc := (huni c (List.mem_cons_self _ _)).1
  have h := foldlM_chunksWorker cs c hc (fun e he => huni e (List.mem_cons_of_mem _ he))
  simp only [AddTaskCollector.finalize, FreeImage_GetWidth, FreeImage_GetHeight,
    FreeImage_GetImageType, FreeImage_Copy, h, bind, Except.bind]

/-- C1: for every non-empty list of well-formed primary chunks sharing the
first chunk's width, height and layout, and no alpha-source chunk,
`AddTaskCollector::finalize` returns a buffer of that width, height and layout
in which every channel of every pixel is the sum, in insertion order, of that
channel over the primary chunks: no clamping, no division by the count. -/
theorem C1_add_finalize_sum [Add α] [Zero α] (c : FIBITMAP α) (cs : List (FIBITMAP α))
    (huni : Uniform c.type c.width c.height (c :: cs)) :
    ∃ out, AddTaskCollector.finalize (c :: cs) [] = .ok (some out) ∧
      out.width = c.width ∧ out.height = c.height ∧ out.type = c.type ∧ out.WF ∧
      ∀ x y k, x < c.width → y < c.height → k < channels c.type →
        out.px x y k = cs.foldl (fun acc el => acc + el.px x y k) (c.px x y k) := by
  have hc := (huni c (List.mem_cons_self _ _)).1
  have hcs : Uniform c.type c.width c.height cs := fun e he => huni e (List.mem_cons_of_mem _ he)
  exact ⟨_, add_finalize_eq c cs huni, rfl, rfl, rfl, foldl_addBits_WF cs c hc hcs,
    fun x y k hx hy hk => px_foldl_addBits cs c hc hcs x y k hx hy hk⟩

/-- Witness of C1: two 1x1 `FIT_RGBF` chunks. -/
theorem C1_add_finalize_sum_witness :
    Uniform sampleRGB1.type sampleRGB1.width sampleRGB1.height [sampleRGB1, sampleRGB2] ∧
    ∃ out, AddTaskCollector.finalize [sampleRGB1, sampleRGB2] [] = .ok (some out) ∧
      out.width = sampleRGB1.width ∧ out.height = sampleRGB1.height ∧
      out.type = sampleRGB1.type ∧ out.WF ∧
      ∀ x y k, x < sampleRGB1.width → y < sampleRGB1.height → k < channels sampleRGB1.type →
        out.px x y k
          = [sampleRGB2].foldl (fun acc el => acc + el.px x y k) (sampleRGB1.px x y k) :=
  ⟨by decide, C1_add_finalize_sum sampleRGB1 [sampleRGB2] (by decide)⟩

/-- C9: over exact arithmetic the additive merge does not depend on the
insertion order of the primary chunks: for well-formed primary chunks sharing
width, height and layout, every permutation of the list gives the same
result of `AddTaskCollector::finalize` (same width, height, layout and channel
values), the alpha-chunk list being held fixed. -/
theorem C9_add_finalize_perm [AddCommSemigroup α] (t : FREE_IMAGE_TYPE) (w h : Nat)
    (ps qs alphas : List (FIBITMAP α)) (huni : Uniform t w h ps) (hperm : ps.Perm qs) :
    AddTaskCollector.finalize ps alphas = AddTaskCollector.finalize qs alphas := by
  have huni' : Uniform t w h qs := fun e he => huni e (hperm.mem_iff.mpr he)
  have hm := mergedBits_perm hperm
  cases ps with
  | nil =>
    rw [List.nil_perm.mp hperm]
  | cons c cs =>
    cases qs with
    | nil => exact absurd (List.perm_nil.mp hperm) (by simp)
    | cons d ds =>
      obtain ⟨_, ct, cw, ch⟩ := huni c (List.mem_cons_self _ _)
      obtain ⟨_, dt, dw, dh⟩ := huni' d (List.mem_cons_self _ _)
      rw [add_finalize_cons c cs alphas (by rw [ct, cw, ch]; exact huni),
        add_finalize_cons d ds alphas (by rw [dt, dw, dh]; exact huni')]
      simp only [mergedBits, Option.some.injEq] at hm
      obtain ⟨t1, w1, h1, b1⟩ := c
      obtain ⟨t2, w2, h2, b2⟩ := d
      simp only at ct cw ch dt dw dh hm
      subst ct cw ch dt dw dh
      simp only [hm]

/-- Witness of C9: two 1x2 `FIT_RGBAF` chunks, swapped. -/
theorem C9_add_finalize_perm_witness :
    Uniform FIT_RGBAF 1 2 [sampleRGBA1, sampleRGBA2] ∧
    [sampleRGBA1, sampleRGBA2].Perm [sampleRGBA2, sampleRGBA1] ∧
    AddTaskCollector.finalize [sampleRGBA1, sampleRGBA2] [sampleRGBA1]
      = AddTaskCollector.finalize [sampleRGBA2, sampleRGBA1] [sampleRGBA1] :=
  ⟨by decide, List.Perm.swap _ _ _,
    C9_add_finalize_perm FIT_RGBAF 1 2 _ _ _ (by decide) (List.Perm.swap _ _ _)⟩

/-- C10: the additive merge of a single chunk, without alpha-source chunks,
returns that chunk unchanged: same width, height, layout and channel values. -/
theorem C10_add_finalize_single [Add α] (c : FIBITMAP α) :
    AddTaskCollector.finalize [c] [] = .ok (some c) := rfl

end AddClaims

/-! ## The alpha-source step on `FIT_RGBAF` scanlines -/

section AlphaRows

variable {α : Type} [Add α]

/-- The pixel loop of `alphaChunksWorker` on two scanlines of `4 * w` floats:
no fault, the alpha of every pixel is increased by red + blue + green of the
source pixel at the same position, red, green and blue are left alone. -/
theorem alphaRow_RGBAF (src dst : List α) (w : Nat) (hs : src.length = 4 * w)
    (hd : dst.length = 4 * w) :
    ∃ r, forLoop w (AddTaskCollector.alphaPixel src) dst = .ok r ∧ r.length = 4 * w ∧
      ∀ x, x < w →
        (∃ d s0 s1 s2, dst[4 * x + 3]? = some d ∧ src[4 * x]? = some s0 ∧
          src[4 * x + 1]? = some s1 ∧ src[4 * x + 2]? = some s2 ∧
          r[4 * x + 3]? = some (d + (s0 + s2 + s1))) ∧
        r[4 * x]? = dst[4 * x]? ∧ r[4 * x + 1]? = dst[4 * x + 1]? ∧
        r[4 * x + 2]? = dst[4 * x + 2]? := by
  obtain ⟨r, hr, hlen, hP⟩ := pixelLoop_spec 4 w (AddTaskCollector.alphaPixel src) dst
    (fun i => if i % 4 = 3 then
        (match dst[i]?, src[i - 3]?, src[i - 1]?, src[i - 2]? with
          | some d, some s0, some s2, some s1 => some (d + (s0 + s2 + s1))
          | _, _, _, _ => none)
      else dst[i]?) hd (by
      intro x hx r hlen hP
      obtain ⟨s0, hs0⟩ := exists_getElem?_of_lt src (4 * x) (by omega)
      obtain ⟨s1, hs1⟩ := exists_getElem?_of_lt src (4 * x + 1) (by omega)
      obtain ⟨s2, hs2⟩ := exists_getElem?_of_lt src (4 * x + 2) (by omega)
      obtain ⟨d3, hd3⟩ := exists_getElem?_of_lt dst (4 * x + 3) (by omega)
      have h3 : r[4 * x + 3]? = some d3 := by rw [hP, if_neg (by omega), hd3]
      refine ⟨r.set (4 * x + 3) (d3 + (s0 + s2 + s1)), ?_, by simp [hlen], ?_⟩
      · have a3 := addAssign_of_getElem? r (4 * x + 3) d3 (s0 + s2 + s1) h3
        simp only [AddTaskCollector.alphaPixel, FIRGBAF.red, FIRGBAF.green, FIRGBAF.blue,
          FIRGBAF.alpha, bind, Except.bind, load_of_getElem? hs0, load_of_getElem? hs1,
          load_of_getElem? hs2, a3]
      · intro i
        simp only [List.getElem?_set, List.length_set, hlen]
        by_cases e3 : 4 * x + 3 = i
        · subst e3
          have m3 : (4 * x + 3) % 4 = 3 := by omega
          have i0 : 4 * x + 3 - 3 = 4 * x := by omega
          have i1 : 4 * x + 3 - 2 = 4 * x + 1 := by omega
          have i2 : 4 * x + 3 - 1 = 4 * x + 2 := by omega
          simp only [if_true, m3, i0, i1, i2, hd3, hs0, hs1, hs2]
          rw [if_pos (by omega), if_pos (by omega)]
        simp only [if_neg e3, hP]
        by_cases hi : i < 4 * x
        · rw [if_pos hi, if_pos (show i < 4 * (x + 1) by omega)]
        · rw [if_neg hi]
          by_cases hi' : i < 4 * (x + 1)
          · rw [if_pos hi', if_neg (show ¬ i % 4 = 3 by omega)]
          · rw [if_neg hi'])
  refine ⟨r, hr, hlen, fun x hx => ?_⟩
  obtain ⟨s0, hs0⟩ := exists_getElem?_of_lt src (4 * x) (by omega)
  obtain ⟨s1, hs1⟩ := exists_getElem?_of_lt src (4 * x + 1) (by omega)
  obtain ⟨s2, hs2⟩ := exists_getElem?_of_lt src (4 * x + 2) (by omega)
  obtain ⟨d3, hd3⟩ := exists_getElem?_of_lt dst (4 * x + 3) (by omega)
  refine ⟨⟨d3, s0, s1, s2, hd3, hs0, hs1, hs2, ?_⟩, ?_, ?_, ?_⟩
  · have m3 : (4 * x + 3) % 4 = 3 := by omega
    have i0 : 4 * x + 3 - 3 = 4 * x := by omega
    have i1 : 4 * x + 3 - 2 = 4 * x + 1 := by omega
    have i2 : 4 * x + 3 - 1 = 4 * x + 2 := by omega
    rw [hP (4 * x + 3) (by omega)]
    simp only [if_true, m3, i0, i1, i2, hd3, hs0, hs1, hs2]
  · rw [hP (4 * x) (by omega), if_neg (show ¬ (4 * x) % 4 = 3 by omega)]
  · rw [hP (4 * x + 1) (by omega), if_neg (show ¬ (4 * x + 1) % 4 = 3 by omega)]
  · rw [hP (4 * x + 2) (by omega), if_neg (show ¬ (4 * x + 2) % 4 = 3 by omega)]

end AlphaRows

/-! ## The alpha-source step on `FIT_RGBAF` images -/

section AlphaChunks

variable {α : Type} [Zero α]

theorem px_of_getElem? {dib : FIBITMAP α} {x y k : Nat} {r : List α} {v : α}
    (hr : dib.bits[y]? = some r) (hv : r[channels dib.type * x + k]? = some v) :
    dib.px x y k = v := by
  simp [FIBITMAP.px, List.getD_eq_getElem?_getD, hr, hv]

variable [Add α]

/-- On two well-formed `FIT_RGBAF` bitmaps of the same width and height,
`alphaChunksWorker` ends without fault: the alpha of every pixel is increased by
red + blue + green of the chunk's pixel at the same position, and red, green
and blue are left alone. -/
theorem alphaChunksWorker_spec (img el : FIBITMAP α) (himg : img.WF) (hel : el.WF)
    (hit : img.type = FIT_RGBAF) (het : el.type = FIT_RGBAF) (hw : el.width = img.width)
    (hh : el.height = img.height) :
    ∃ img', AddTaskCollector.alphaChunksWorker img.height img.width img el = .ok img' ∧
      img'.WF ∧ img'.type = img.type ∧ img'.width = img.width ∧ img'.height = img.height ∧
      ∀ x y, x < img.width → y < img.height →
        img'.px x y 3 = img.px x y 3 + (el.px x y 0 + el.px x y 2 + el.px x y 1) ∧
        img'.px x y 0 = img.px x y 0 ∧ img'.px x y 1 = img.px x y 1 ∧
        img'.px x y 2 = img.px x y 2 := by
  have cimg : channels img.type = 4 := by rw [hit]; rfl
  have cel : channels el.type = 4 := by rw [het]; rfl
  obtain ⟨img', hrun, e1, e2, e3, e4, hR, -⟩ := scanLoop_spec img.height img.width
    AddTaskCollector.alphaPixel el img (fun y => y)
    (fun y r => r.length = 4 * img.width ∧ ∀ x, x < img.width →
        (∃ d s0 s1 s2, (FreeImage_GetScanLine img y)[4 * x + 3]? = some d ∧
          (FreeImage_GetScanLine el y)[4 * x]? = some s0 ∧
          (FreeImage_GetScanLine el y)[4 * x + 1]? = some s1 ∧
          (FreeImage_GetScanLine el y)[4 * x + 2]? = some s2 ∧
          r[4 * x + 3]? = some (d + (s0 + s2 + s1))) ∧
        r[4 * x]? = (FreeImage_GetScanLine img y)[4 * x]? ∧
        r[4 * x + 1]? = (FreeImage_GetScanLine img y)[4 * x + 1]? ∧
        r[4 * x + 2]? = (FreeImage_GetScanLine img y)[4 * x + 2]?)
    (fun y hy => by rw [himg.1]; exact hy) (fun y _ y' _ e => e)
    (fun y hy => alphaRow_RGBAF _ _ img.width
      (by rw [hel.scanLine_length (by omega), cel, hw])
      (by rw [himg.scanLine_length hy, cimg]))
  have hwf : img'.WF := by
    refine ⟨by rw [e4, e3]; exact himg.1, ?_⟩
    intro scan hscan
    obtain ⟨j, hj, e⟩ := List.getElem_of_mem hscan
    have hget : img'.bits[j]? = some scan := by rw [List.getElem?_eq_getElem hj, e]
    have hjh : j < img.height := by rw [← himg.1, ← e4]; exact hj
    obtain ⟨r, hr, hlen, -⟩ := hR j hjh
    rw [hget] at hr
    cases hr
    rw [hlen, e1, e2, cimg]
  refine ⟨img', hrun, hwf, e1, e2, e3, fun x y hx hy => ?_⟩
  obtain ⟨r, hr, hlen, hpix⟩ := hR y hy
  obtain ⟨⟨d, s0, s1, s2, hd, hs0, hs1, hs2, h3⟩, h0, h1, h2⟩ := hpix x hx
  have hi := himg.getElem?_scanLine hy
  have he := hel.getElem?_scanLine (show y < el.height by omega)
  have c' : channels img'.type = 4 := by rw [e1, cimg]
  have p3 : img'.px x y 3 = d + (s0 + s2 + s1) := px_of_getElem? hr (by rw [c']; exact h3)
  have q3 : img.px x y 3 = d := px_of_getElem? hi (by rw [cimg]; exact hd)
  have q0 : el.px x y 0 = s0 := px_of_getElem? he (by rw [cel]; exact hs0)
  have q1 : el.px x y 1 = s1 := px_of_getElem? he (by rw [cel]; exact hs1)
  have q2 : el.px x y 2 = s2 := px_of_getElem? he (by rw [cel]; exact hs2)
  refine ⟨by rw [p3, q3, q0, q1, q2], ?_, ?_, ?_⟩
  · simp only [FIBITMAP.px, List.getD_eq_getElem?_getD, hr, hi, c', cimg, Option.getD_some]
    rw [show 4 * x + 0 = 4 * x from rfl, h0]
  · simp only [FIBITMAP.px, List.getD_eq_getElem?_getD, hr, hi, c', cimg, Option.getD_some, h1]
  · simp only [FIBITMAP.px, List.getD_eq_getElem?_getD, hr, hi, c', cimg, Option.getD_some, h2]

/-- Folding `alphaChunksWorker` over well-formed `FIT_RGBAF` alpha-source
chunks of the width and height of a well-formed `FIT_RGBAF` image: no fault,
every alpha has received red + blue + green of every chunk, in order, and
red, green and blue are left alone. -/
theorem foldlM_alphaChunksWorker (alphas : List (FIBITMAP α)) :
    ∀ img : FIBITMAP α, img.WF → img.type = FIT_RGBAF →
      Uniform FIT_RGBAF img.width img.height alphas →
      ∃ out, alphas.foldlM (AddTaskCollector.alphaChunksWorker img.height img.width) img
          = .ok out ∧
        out.WF ∧ out.type = img.type ∧ out.width = img.width ∧ out.height = img.height ∧
        ∀ x y, x < img.width → y < img.height →
          out.px x y 3 = alphas.foldl
            (fun acc a => acc + (a.px x y 0 + a.px x y 2 + a.px x y 1)) (img.px x y 3) ∧
          out.px x y 0 = img.px x y 0 ∧ out.px x y 1 = img.px x y 1 ∧
          out.px x y 2 = img.px x y 2 := by
  induction alphas with
  | nil =>
    intro img himg _ _
    exact ⟨img, rfl, himg, rfl, rfl, rfl, fun x y _ _ => ⟨rfl, rfl, rfl, rfl⟩⟩
  | cons el rest ih =>
    intro img himg hit huni
    obtain ⟨hel, het, hw, hh⟩ := huni el (List.mem_cons_self _ _)
    obtain ⟨img1, hrun1, hwf1, t1, w1, h1, hpx1⟩ :=
      alphaChunksWorker_spec img el himg hel hit het hw hh
    obtain ⟨out, hrun, hwf, t2, w2, h2, hpx⟩ := ih img1 hwf1 (t1.trans hit)
      (by rw [w1, h1]; exact fun e he => huni e (List.mem_cons_of_mem _ he))
    rw [w1, h1] at hrun
    refine ⟨out, ?_, hwf, t2.trans t1, w2.trans w1, h2.trans h1, fun x y hx hy => ?_⟩
    · rw [List.foldlM_cons, hrun1]
      exact hrun
    · obtain ⟨a3, a0, a1, a2⟩ := hpx x y (by rw [w1]; exact hx) (by rw [h1]; exact hy)
      obtain ⟨b3, b0, b1, b2⟩ := hpx1 x y hx hy
      refine ⟨?_, a0.trans b0, a1.trans b1, a2.trans b2⟩
      rw [a3, b3]
      rfl

end AlphaChunks

/-! ## Claim on the alpha-source chunks -/

section AlphaClaims

theorem foldl_add_eq_sum {α β : Type} [AddMonoid α] (f : β → α) (l : List β) :
    ∀ init : α, l.foldl (fun acc a => acc + f a) init = init + (l.map f).sum := by
  induction l with
  | nil => intro init; simp
  | cons a l ih => intro init; simp [ih, add_assoc]

/-- C3, on the code: with `FIT_RGBAF` primary chunks and `FIT_RGBAF`
alpha-source chunks of the same width and height (all well formed),
`AddTaskCollector::finalize` returns a buffer in which, for every pixel, red,
green and blue are the sums over the primary chunks alone, taken in insertion
order, and alpha is the sum of the primary alphas in insertion order to which
(red + blue) + green of every alpha-source chunk at the same position is
added, chunk after chunk, every `+` being the addition of the channel type in
this order (first part, for any addition). In exact arithmetic this is the sum
of the primary alphas plus red + green + blue of every alpha-source chunk
(second part). A 1x1 alpha-source chunk with red r, green g and blue b raises
the alpha a of a 1x1 primary chunk to a + ((r + b) + g) and changes nothing
else (third part); for red 0.2, green 0.3, blue 0.1 that is a + 0.6 over the
rationals (fourth part), and from alpha 0 it is the `float` nearest to 0.6,
10066330 * 2^-24, in binary32 (fifth part). -/
theorem C3_alpha_chunks_fold_into_alpha :
    (∀ (α : Type) [Add α] [Zero α] (w h : Nat) (c : FIBITMAP α)
        (cs alphas : List (FIBITMAP α)),
      Uniform FIT_RGBAF w h (c :: cs) → Uniform FIT_RGBAF w h alphas →
      ∃ out, AddTaskCollector.finalize (c :: cs) alphas = .ok (some out) ∧
        out.type = FIT_RGBAF ∧ out.width = w ∧ out.height = h ∧
        ∀ x y, x < w → y < h →
          out.red x y = cs.foldl (fun acc p => acc + p.red x y) (c.red x y) ∧
          out.green x y = cs.foldl (fun acc p => acc + p.green x y) (c.green x y) ∧
          out.blue x y = cs.foldl (fun acc p => acc + p.blue x y) (c.blue x y) ∧
          out.alpha x y = alphas.foldl
            (fun acc a => acc + (a.red x y + a.blue x y + a.green x y))
            (cs.foldl (fun acc p => acc + p.alpha x y) (c.alpha x y))) ∧
    (∀ (α : Type) [AddCommMonoid α] (w h : Nat) (c : FIBITMAP α)
        (cs alphas : List (FIBITMAP α)),
      Uniform FIT_RGBAF w h (c :: cs) → Uniform FIT_RGBAF w h alphas →
      ∃ out, AddTaskCollector.finalize (c :: cs) alphas = .ok (some out) ∧
        out.type = FIT_RGBAF ∧ out.width = w ∧ out.height = h ∧
        ∀ x y, x < w → y < h →
          out.red x y = ((c :: cs).map (fun p => p.red x y)).sum ∧
          out.green x y = ((c :: cs).map (fun p => p.green x y)).sum ∧
          out.blue x y = ((c :: cs).map (fun p => p.blue x y)).sum ∧
          out.alpha x y = ((c :: cs).map (fun p => p.alpha x y)).sum
            + (alphas.map (fun a => a.red x y + a.green x y + a.blue x y)).sum) ∧
    (∀ (α : Type) [Add α] (r g b a r' g' b' z : α),
      AddTaskCollector.finalize [(⟨FIT_RGBAF, 1, 1, [[r, g, b, a]]⟩ : FIBITMAP α)]
          [⟨FIT_RGBAF, 1, 1, [[r', g', b', z]]⟩]
        = .ok (some ⟨FIT_RGBAF, 1, 1, [[r, g, b, a + (r' + b' + g')]]⟩)) ∧
    (∀ r g b a z : ℚ,
      AddTaskCollector.finalize [(⟨FIT_RGBAF, 1, 1, [[r, g, b, a]]⟩ : FIBITMAP ℚ)]
          [⟨FIT_RGBAF, 1, 1, [[1 / 5, 3 / 10, 1 / 10, z]]⟩]
        = .ok (some ⟨FIT_RGBAF, 1, 1, [[r, g, b, a + 3 / 5]]⟩)) ∧
    AddTaskCollector.finalize [sampleFloatPrimary] [sampleFloatTenths]
      = .ok (some ⟨FIT_RGBAF, 1, 1, [[⟨3⟩, ⟨5⟩, ⟨7⟩, ⟨644245120⟩]]⟩) := by
  have hA : ∀ (α : Type) [Add α] [Zero α] (w h : Nat) (c : FIBITMAP α)
      (cs alphas : List (FIBITMAP α)),
      Uniform FIT_RGBAF w h (c :: cs) → Uniform FIT_RGBAF w h alphas →
      ∃ out, AddTaskCollector.finalize (c :: cs) alphas = .ok (some out) ∧
        out.type = FIT_RGBAF ∧ out.width = w ∧ out.height = h ∧
        ∀ x y, x < w → y < h →
          out.red x y = cs.foldl (fun acc p => acc + p.red x y) (c.red x y) ∧
          out.green x y = cs.foldl (fun acc p => acc + p.green x y) (c.green x y) ∧
          out.blue x y = cs.foldl (fun acc p => acc + p.blue x y) (c.blue x y) ∧
          out.alpha x y = alphas.foldl
            (fun acc a => acc + (a.red x y + a.blue x y + a.green x y))
            (cs.foldl (fun acc p => acc + p.alpha x y) (c.alpha x y)) := by
    intro α _ _ w h c cs alphas hprim halpha
    obtain ⟨hc, ct, cw, ch⟩ := hprim c (List.mem_cons_self _ _)
    have hprim' : Uniform c.type c.width c.height (c :: cs) := by
      rw [ct, cw, ch]; exact hprim
    have hcs : Uniform c.type c.width c.height cs :=
      fun e he => hprim' e (List.mem_cons_of_mem _ he)
    have hwf := foldl_addBits_WF cs c hc hcs
    obtain ⟨out, hrun, -, t2, w2, h2, hpx⟩ := foldlM_alphaChunksWorker alphas
      { c with bits := cs.foldl (fun acc el => addBits acc el.bits) c.bits } hwf ct
      (by rw [cw, ch]; exact halpha)
    refine ⟨out, ?_, t2.trans ct, w2.trans cw, h2.trans ch, fun x y hx hy => ?_⟩
    · rw [add_finalize_cons c cs alphas hprim', hrun]
      rfl
    · obtain ⟨a3, a0, a1, a2⟩ := hpx x y (by rw [cw]; exact hx) (by rw [ch]; exact hy)
      have hsum : ∀ k, k < 4 →
          FIBITMAP.px { c with bits := cs.foldl (fun acc el => addBits acc el.bits) c.bits }
            x y k = cs.foldl (fun acc el => acc + el.px x y k) (c.px x y k) := by
        intro k hk
        exact px_foldl_addBits cs c hc hcs x y k (by rw [cw]; exact hx) (by rw [ch]; exact hy)
          (by rw [ct]; exact hk)
      refine ⟨?_, ?_, ?_, ?_⟩
      · exact a0.trans (hsum 0 (by decide))
      · exact a1.trans (hsum 1 (by decide))
      · exact a2.trans (hsum 2 (by decide))
      · simp only [FIBITMAP.alpha, FIBITMAP.red, FIBITMAP.green, FIBITMAP.blue]
        rw [a3, hsum 3 (by decide)]
  refine ⟨hA, ?_, ?_, ?_, by decide⟩
  · intro α _ w h c cs alphas hprim halpha
    obtain ⟨out, hrun, ht, hw, hh, hpx⟩ := hA α w h c cs alphas hprim halpha
    refine ⟨out, hrun, ht, hw, hh, fun x y hx hy => ?_⟩
    obtain ⟨e0, e1, e2, e3⟩ := hpx x y hx hy
    refine ⟨?_, ?_, ?_, ?_⟩
    · rw [e0, foldl_add_eq_sum, List.map_cons, List.sum_cons]
    · rw [e1, foldl_add_eq_sum, List.map_cons, List.sum_cons]
    · rw [e2, foldl_add_eq_sum, List.map_cons, List.sum_cons]
    · rw [e3, foldl_add_eq_sum, foldl_add_eq_sum, List.map_cons, List.sum_cons]
      congr 1
      apply congrArg
      apply List.map_congr_left
      intro a _
      exact add_right_comm _ _ _
  · intro α _ r g b a r' g' b' z
    simp [AddTaskCollector.finalize, AddTaskCollector.alphaChunksWorker,
      AddTaskCollector.alphaPixel, forLoop, FreeImage_GetWidth, FreeImage_GetHeight,
      FreeImage_GetImageType, FreeImage_Copy, FreeImage_GetScanLine, load, addAssign, store,
      FIBITMAP.setScanLine, FIRGBAF.red, FIRGBAF.green, FIRGBAF.blue, FIRGBAF.alpha,
      List.range, List.range.loop, bind, Except.bind, pure, Except.pure]
  · intro r g b a z
    simp [AddTaskCollector.finalize, AddTaskCollector.alphaChunksWorker,
      AddTaskCollector.alphaPixel, forLoop, FreeImage_GetWidth, FreeImage_GetHeight,
      FreeImage_GetImageType, FreeImage_Copy, FreeImage_GetScanLine, load, addAssign, store,
      FIBITMAP.setScanLine, FIRGBAF.red, FIRGBAF.green, FIRGBAF.blue, FIRGBAF.alpha,
      List.range, List.range.loop, bind, Except.bind, pure, Except.pure]
    norm_num

/-- Witness of C3: the 1x1 `float` chunks `sampleFloatPrimary` and
`sampleFloatAlpha`. -/
theorem C3_alpha_chunks_fold_into_alpha_witness :
    Uniform FIT_RGBAF 1 1 [sampleFloatPrimary] ∧ Uniform FIT_RGBAF 1 1 [sampleFloatAlpha] ∧
    ∃ out, AddTaskCollector.finalize [sampleFloatPrimary] [sampleFloatAlpha]
        = .ok (some out) ∧
      out.type = FIT_RGBAF ∧ out.width = 1 ∧ out.height = 1 ∧
      ∀ x y, x < 1 → y < 1 →
        out.red x y
          = ([] : List (FIBITMAP Binary32)).foldl (fun acc p => acc + p.red x y)
              (sampleFloatPrimary.red x y) ∧
        out.green x y
          = ([] : List (FIBITMAP Binary32)).foldl (fun acc p => acc + p.green x y)
              (sampleFloatPrimary.green x y) ∧
        out.blue x y
          = ([] : List (FIBITMAP Binary32)).foldl (fun acc p => acc + p.blue x y)
              (sampleFloatPrimary.blue x y) ∧
        out.alpha x y = [sampleFloatAlpha].foldl
          (fun acc a => acc + (a.red x y + a.blue x y + a.green x y))
          (([] : List (FIBITMAP Binary32)).foldl (fun acc p => acc + p.alpha x y)
            (sampleFloatPrimary.alpha x y)) :=
  ⟨by decide, by decide,
    C3_alpha_chunks_fold_into_alpha.1 Binary32 1 1 sampleFloatPrimary [] [sampleFloatAlpha]
      (by decide) (by decide)⟩

/-- Counterexample to C3 as stated: in `float` arithmetic, the 1x1 alpha-source
chunk with red 1, green 1, blue 2^24 raises the alpha 0 of a 1x1 primary chunk
to 2^24, the value of (red + blue) + green, where the alpha of the primary
chunk plus red + green + blue of the alpha-source chunk is 2^24 + 2. -/
theorem C3_alpha_sum_order_counterexample :
    Uniform FIT_RGBAF 1 1 [sampleFloatPrimary] ∧ Uniform FIT_RGBAF 1 1 [sampleFloatAlpha] ∧
    AddTaskCollector.finalize [sampleFloatPrimary] [sampleFloatAlpha]
      = .ok (some ⟨FIT_RGBAF, 1, 1, [[⟨3⟩, ⟨5⟩, ⟨7⟩, ⟨16777216⟩]]⟩) ∧
    sampleFloatPrimary.alpha 0 0
        + (sampleFloatAlpha.red 0 0 + sampleFloatAlpha.green 0 0 + sampleFloatAlpha.blue 0 0)
      = ⟨16777218⟩ ∧
    ¬ ∃ out, AddTaskCollector.finalize [sampleFloatPrimary] [sampleFloatAlpha]
        = .ok (some out) ∧
      out.alpha 0 0 = sampleFloatPrimary.alpha 0 0
        + (sampleFloatAlpha.red 0 0 + sampleFloatAlpha.green 0 0
          + sampleFloatAlpha.blue 0 0) := by
  have hrun : AddTaskCollector.finalize [sampleFloatPrimary] [sampleFloatAlpha]
      = .ok (some ⟨FIT_RGBAF, 1, 1, [[⟨3⟩, ⟨5⟩, ⟨7⟩, ⟨16777216⟩]]⟩) := by decide
  refine ⟨by decide, by decide, hrun, by decide, ?_⟩
  rintro ⟨out, h1, h2⟩
  rw [hrun] at h1
  cases h1
  revert h2
  decide

end AlphaClaims

/-! ## What every return of `PasteTaskCollector::finalize` satisfies -/

section PasteDims

variable {α : Type}

theorem forLoop_preserves {σ : Type} (P : σ → Prop) (body : Nat → σ → Except Fault σ)
    (hbody : ∀ i s s', body i s = .ok s' → P s → P s') (n : Nat) :
    ∀ s s', forLoop n body s = .ok s' → P s → P s' := by
  induction n with
  | zero =>
    intro s s' h hP
    cases h
    exact hP
  | succ n ih =>
    intro s s' h hP
    rw [forLoop_succ] at h
    cases h1 : forLoop n body s with
    | error e => rw [h1] at h; cases h
    | ok s1 =>
      rw [h1] at h
      exact hbody n s1 s' h (ih s s1 h1 hP)

theorem foldlM_preserves {σ β : Type} (P : σ → Prop) (f : σ → β → Except Fault σ)
    (hf : ∀ s b s', f s b = .ok s' → P s → P s') (l : List β) :
    ∀ s s', l.foldlM f s = .ok s' → P s → P s' := by
  induction l with
  | nil =>
    intro s s' h hP
    cases h
    exact hP
  | cons b l ih =>
    intro s s' h hP
    rw [List.foldlM_cons] at h
    cases h1 : f s b with
    | error e => rw [h1] at h; cases h
    | ok s1 =>
      rw [h1] at h
      exact ih s1 s' h (hf s b s1 h1 hP)

theorem scanLoop_sameFrame (h w : Nat) (pix : List α → Nat → List α → Except Fault (List α))
    (el : FIBITMAP α) (off : Nat → Nat) (img0 : FIBITMAP α) :
    ∀ img img', forLoop h (fun y im => do
        let srcbits := FreeImage_GetScanLine el y
        let dstbits := FreeImage_GetScanLine im (off y)
        let dstbits ← forLoop w (pix srcbits) dstbits
        pure (im.setScanLine (off y) dstbits)) img = .ok img' →
      sameFrame img img0 → sameFrame img' img0 := by
  apply forLoop_preserves
  intro y s s' hs hP
  cases hrow : forLoop w (pix (FreeImage_GetScanLine el y)) (FreeImage_GetScanLine s (off y)) with
  | error e => simp [hrow, bind, Except.bind] at hs
  | ok r =>
    simp only [hrow, bind, Except.bind, pure, Except.pure, Except.ok.injEq] at hs
    subst hs
    obtain ⟨h1, h2, h3, h4⟩ := hP
    exact ⟨h1, h2, h3, by simp [FIBITMAP.setScanLine, h4]⟩

theorem chunkWorker_sameFrame (t : FREE_IMAGE_TYPE) (h w : Nat) (img0 : FIBITMAP α)
    (st : FIBITMAP α × Nat) (el : FIBITMAP α) (st' : FIBITMAP α × Nat)
    (hrun : PasteTaskCollector.chunkWorker t h w st el = .ok st')
    (hP : sameFrame st.1 img0) : sameFrame st'.1 img0 := by
  unfold PasteTaskCollector.chunkWorker at hrun
  cases t with
  | FIT_RGBF =>
    rw [if_pos rfl] at hrun
    cases h1 : forLoop h (fun y img => do
        let srcbits := FreeImage_GetScanLine el y
        let dstbits := FreeImage_GetScanLine img (u32add y st.2)
        let dstbits ← forLoop w (PasteTaskCollector.copyPixelRGBF srcbits) dstbits
        pure (img.setScanLine (u32add y st.2) dstbits)) st.1 with
    | error e => rw [h1] at hrun; cases hrun
    | ok img' =>
      rw [h1] at hrun
      cases hrun
      exact scanLoop_sameFrame h w PasteTaskCollector.copyPixelRGBF el
        (fun y => u32add y st.2) img0 st.1 img' h1 hP
  | FIT_RGBAF =>
    rw [if_neg (by decide), if_pos rfl] at hrun
    cases h1 : forLoop h (fun y img => do
        let srcbits := FreeImage_GetScanLine el y
        let dstbits := FreeImage_GetScanLine img (u32add y st.2)
        let dstbits ← forLoop w (PasteTaskCollector.copyPixelRGBAF srcbits) dstbits
        pure (img.setScanLine (u32add y st.2) dstbits)) st.1 with
    | error e => rw [h1] at hrun; cases hrun
    | ok img' =>
      rw [h1] at hrun
      cases hrun
      exact scanLoop_sameFrame h w PasteTaskCollector.copyPixelRGBAF el
        (fun y => u32add y st.2) img0 st.1 img' h1 hP

/-- Whatever the chunks are, a buffer returned by `PasteTaskCollector::finalize`
has the width and the layout of the first chunk, and its height is the
`unsigned int` product of the height of the first chunk by the number of
chunks. -/
theorem paste_finalize_frame [Zero α] (c : FIBITMAP α)
    (cs alphas : List (FIBITMAP α)) (out : FIBITMAP α)
    (hrun : PasteTaskCollector.finalize (c :: cs) alphas = .ok (some out)) :
    out.type = c.type ∧ out.width = c.width ∧
      out.height = u32mul c.height (cs.length + 1) ∧
      out.bits.length = u32mul c.height (cs.length + 1) := by
  simp only [PasteTaskCollector.finalize, FreeImage_GetWidth, FreeImage_GetHeight,
    FreeImage_GetImageType, FreeImage_GetBPP, List.length_cons] at hrun
  cases h1 : (c :: cs).foldlM (PasteTaskCollector.chunkWorker c.type c.height c.width)
      ((FreeImage_AllocateT c.type c.width (u32mul c.height (cs.length + 1))
        (32 * channels c.type) : FIBITMAP α),
        u32sub (u32mul c.height (cs.length + 1)) c.height) with
  | error e => rw [h1] at hrun; cases hrun
  | ok st =>
    rw [h1] at hrun
    cases hrun
    have := foldlM_preserves
      (fun st : FIBITMAP α × Nat => sameFrame st.1
        (FreeImage_AllocateT c.type c.width (u32mul c.height (cs.length + 1))
          (32 * channels c.type)))
      (PasteTaskCollector.chunkWorker c.type c.height c.width)
      (fun s b s' hs hP => chunkWorker_sameFrame _ _ _ _ s b s' hs hP) (c :: cs) _ st h1
      ⟨rfl, rfl, rfl, rfl⟩
    obtain ⟨e1, e2, e3, e4⟩ := this
    refine ⟨e1, e2, e3, ?_⟩
    rw [e4]
    simp [FreeImage_AllocateT]

end PasteDims

/-! ## Claims on `PasteTaskCollector::finalize` -/

section PasteClaims

variable {α : Type} [Zero α]

/-- The result of `PasteTaskCollector::finalize` on well-formed chunks that
share the layout, width and height of the first, when the height of the
output fits an `unsigned int`: chunk `i` fills the band `cs.length - i`. -/
theorem paste_finalize_spec (c : FIBITMAP α) (cs alphas : List (FIBITMAP α))
    (huni : Uniform c.type c.width c.height (c :: cs))
    (hfit : c.height * (cs.length + 1) < 2 ^ 32) :
    ∃ out, PasteTaskCollector.finalize (c :: cs) alphas = .ok (some out) ∧ out.WF ∧
      out.type = c.type ∧ out.width = c.width ∧ out.height = c.height * (cs.length + 1) ∧
      ∀ i el, (c :: cs)[i]? = some el → ∀ y, y < c.height →
        out.bits[(cs.length - i) * c.height + y]? = el.bits[y]? := by
  have hmul : u32mul c.height (cs.length + 1) = c.height * (cs.length + 1) :=
    u32mul_of_lt hfit
  have hge : c.height ≤ c.height * (cs.length + 1) := Nat.le_mul_of_pos_right _ (by omega)
  obtain ⟨img', cur', hrun, hwf, ht, hw, hh, hbands, -⟩ :=
    foldlM_chunkWorker c.type c.height c.width (c :: cs)
      (FreeImage_AllocateT c.type c.width (c.height * (cs.length + 1)) (32 * channels c.type))
      (u32sub (c.height * (cs.length + 1)) c.height) huni (allocateT_WF _ _ _ _) rfl rfl
      (by simp [FreeImage_AllocateT]) (by simpa [FreeImage_AllocateT] using hfit)
      (by
        right
        rw [u32sub_of_le hge hfit, List.length_cons]
        omega)
  refine ⟨img', ?_, hwf, ht, hw, hh, ?_⟩
  · simp only [PasteTaskCollector.finalize, FreeImage_GetWidth, FreeImage_GetHeight,
      FreeImage_GetImageType, FreeImage_GetBPP, List.length_cons, hmul, hrun, bind,
      Except.bind, pure, Except.pure]
  · intro i el hi y hy
    have := hbands i el hi y hy
    simp only [List.length_cons, Nat.add_sub_cancel] at this
    exact this

end PasteClaims

section PasteClaims2

variable {α : Type} [Zero α]

theorem px_of_scanLine_eq {a b : FIBITMAP α} {i j : Nat} (ht : a.type = b.type)
    (h : FreeImage_GetScanLine a i = FreeImage_GetScanLine b j) (x k : Nat) :
    a.px x i k = b.px x j k := by
  simp only [FreeImage_GetScanLine] at h
  simp only [FIBITMAP.px, h, ht]

/-- C2 (amended): for N >= 1 well-formed primary chunks sharing width w,
height h and layout, with h * N below 2^32, `PasteTaskCollector::finalize`
returns a buffer in which the chunk inserted at position i occupies the
scanlines (N-1-i)*h .. (N-i)*h - 1: output scanline r is scanline r mod h of
the chunk at position N-1-(r div h), copied. In particular scanline 0 is
scanline 0 of the last-inserted chunk and scanline N*h - 1 is scanline h-1 of
the first-inserted chunk, and so are their pixels. -/
theorem C2_paste_reverse_bands (c : FIBITMAP α) (cs alphas : List (FIBITMAP α))
    (huni : Uniform c.type c.width c.height (c :: cs))
    (hfit : c.height * (cs.length + 1) < 2 ^ 32) :
    ∃ out, PasteTaskCollector.finalize (c :: cs) alphas = .ok (some out) ∧
      (∀ i el, (c :: cs)[i]? = some el → ∀ y, y < c.height →
        FreeImage_GetScanLine out ((cs.length + 1 - 1 - i) * c.height + y)
          = FreeImage_GetScanLine el y) ∧
      (∀ r, r < (cs.length + 1) * c.height →
        ∃ el, (c :: cs)[cs.length + 1 - 1 - r / c.height]? = some el ∧
          FreeImage_GetScanLine out r = FreeImage_GetScanLine el (r % c.height)) ∧
      (∀ last, (c :: cs).getLast? = some last → 0 < c.height →
        FreeImage_GetScanLine out 0 = FreeImage_GetScanLine last 0 ∧
        ∀ x k, out.px x 0 k = last.px x 0 k) ∧
      (0 < c.height →
        FreeImage_GetScanLine out ((cs.length + 1) * c.height - 1)
          = FreeImage_GetScanLine c (c.height - 1) ∧
        ∀ x k, out.px x ((cs.length + 1) * c.height - 1) k = c.px x (c.height - 1) k) := by
  obtain ⟨out, hrun, -, ht, -, -, hbands⟩ :=
    paste_finalize_spec c cs alphas huni hfit
  have hA : ∀ i el, (c :: cs)[i]? = some el → ∀ y, y < c.height →
      FreeImage_GetScanLine out ((cs.length + 1 - 1 - i) * c.height + y)
        = FreeImage_GetScanLine el y := by
    intro i el hi y hy
    rw [Nat.add_sub_cancel]
    exact getScanLine_of_bits_eq (hbands i el hi y hy)
  refine ⟨out, hrun, hA, ?_, ?_, ?_⟩
  · intro r hr
    have hpos : 0 < c.height := by
      rcases Nat.eq_zero_or_pos c.height with h0 | hp
      · rw [h0] at hr; simp at hr
      · exact hp
    have hdiv : r / c.height < cs.length + 1 :=
      Nat.div_lt_of_lt_mul (by rw [Nat.mul_comm]; exact hr)
    have hsplit : c.height * (r / c.height) + r % c.height = r := Nat.div_add_mod r c.height
    generalize r / c.height = q at hdiv hsplit ⊢
    obtain ⟨el, hel⟩ := exists_getElem?_of_lt (c :: cs) (cs.length + 1 - 1 - q)
      (by rw [List.length_cons]; omega)
    refine ⟨el, hel, ?_⟩
    have := hA _ el hel (r % c.height) (Nat.mod_lt _ hpos)
    have e : cs.length + 1 - 1 - (cs.length + 1 - 1 - q) = q := by omega
    rw [e, Nat.mul_comm, hsplit] at this
    exact this
  · intro last hlast hpos
    rw [List.getLast?_eq_getElem?, List.length_cons, Nat.add_sub_cancel] at hlast
    have := hA cs.length last hlast 0 hpos
    have e : (cs.length + 1 - 1 - cs.length) * c.height + 0 = 0 := by
      rw [Nat.add_sub_cancel, Nat.sub_self, Nat.zero_mul]
    rw [e] at this
    have ht' : out.type = last.type := by
      rw [ht, (huni last (List.getElem?_mem hlast)).2.1]
    exact ⟨this, px_of_scanLine_eq ht' this⟩
  · intro hpos
    have := hA 0 c (List.getElem?_cons_zero ..) (c.height - 1) (by omega)
    have e : (cs.length + 1 - 1 - 0) * c.height + (c.height - 1)
        = (cs.length + 1) * c.height - 1 := by
      rw [Nat.sub_zero, Nat.add_sub_cancel, Nat.succ_mul]
      omega
    rw [e] at this
    exact ⟨this, px_of_scanLine_eq ht this⟩

/-- Witness of C2 (amended): three 2x2 `FIT_RGBF` chunks. -/
theorem C2_paste_reverse_bands_witness :
    Uniform samplePaste1.type samplePaste1.width samplePaste1.height
      [samplePaste1, samplePaste2, samplePaste3] ∧
    samplePaste1.height * ([samplePaste2, samplePaste3].length + 1) < 2 ^ 32 ∧
    ∃ out, PasteTaskCollector.finalize [samplePaste1, samplePaste2, samplePaste3] []
        = .ok (some out) ∧
      (∀ i el, [samplePaste1, samplePaste2, samplePaste3][i]? = some el →
        ∀ y, y < samplePaste1.height →
        FreeImage_GetScanLine out (([samplePaste2, samplePaste3].length + 1 - 1 - i)
            * samplePaste1.height + y) = FreeImage_GetScanLine el y) ∧
      (∀ r, r < ([samplePaste2, samplePaste3].length + 1) * samplePaste1.height →
        ∃ el, [samplePaste1, samplePaste2, samplePaste3][
            [samplePaste2, samplePaste3].length + 1 - 1 - r / samplePaste1.height]? = some el ∧
          FreeImage_GetScanLine out r = FreeImage_GetScanLine el (r % samplePaste1.height)) ∧
      (∀ last, [samplePaste1, samplePaste2, samplePaste3].getLast? = some last →
        0 < samplePaste1.height →
        FreeImage_GetScanLine out 0 = FreeImage_GetScanLine last 0 ∧
        ∀ x k, out.px x 0 k = last.px x 0 k) ∧
      (0 < samplePaste1.height →
        FreeImage_GetScanLine out
            (([samplePaste2, samplePaste3].length + 1) * samplePaste1.height - 1)
          = FreeImage_GetScanLine samplePaste1 (samplePaste1.height - 1) ∧
        ∀ x k, out.px x (([samplePaste2, samplePaste3].length + 1) * samplePaste1.height - 1) k
          = samplePaste1.px x (samplePaste1.height - 1) k) :=
  ⟨by decide, by decide,
    C2_paste_reverse_bands samplePaste1 [samplePaste2, samplePaste3] [] (by decide) (by decide)⟩

end PasteClaims2

section PasteClaims3

theorem sampleTall_WF : sampleTall.WF := by
  constructor
  · exact List.length_replicate _ _
  · intro scan hscan
    rw [List.eq_of_mem_replicate hscan]
    rfl

theorem sampleMany_uniform : Uniform FIT_RGBF 1 65536 sampleMany := by
  intro el hel
  have : el = sampleTall := by
    rcases List.mem_cons.mp hel with h | h
    · exact h
    · exact List.eq_of_mem_replicate h
  subst this
  exact ⟨sampleTall_WF, rfl, rfl, rfl⟩

/-- Every buffer that `PasteTaskCollector::finalize` returns on the 2^16 chunks
of `sampleMany`, each of 2^16 scanlines, has height 0 and no scanline. -/
theorem sampleMany_frame (out : FIBITMAP Int)
    (hrun : PasteTaskCollector.finalize sampleMany [] = .ok (some out)) :
    out.height = 0 ∧ out.bits.length = 0 := by
  obtain ⟨-, -, hh, hlen⟩ := paste_finalize_frame _ _ _ out hrun
  rw [List.length_replicate] at hh hlen
  exact ⟨hh, hlen⟩

/-- Counterexample to C2 as stated: the 2^16 well-formed chunks of
`sampleMany` share width 1, height 2^16 and layout, yet
`PasteTaskCollector::finalize` returns no buffer whose scanline 0 is scanline
0 of the last-inserted chunk (every chunk of the list is `sampleTall`): the
`unsigned int` height h * N wraps to 0. -/
theorem C2_paste_reverse_bands_counterexample :
    Uniform FIT_RGBF 1 65536 sampleMany ∧ (∀ el ∈ sampleMany, el = sampleTall) ∧
    ¬ ∃ out, PasteTaskCollector.finalize sampleMany [] = .ok (some out) ∧
      FreeImage_GetScanLine out 0 = FreeImage_GetScanLine sampleTall 0 := by
  refine ⟨sampleMany_uniform, ?_, ?_⟩
  · intro el hel
    rcases List.mem_cons.mp hel with h | h
    · exact h
    · exact List.eq_of_mem_replicate h
  · rintro ⟨out, hrun, hscan⟩
    obtain ⟨-, hlen⟩ := sampleMany_frame out hrun
    have h1 : FreeImage_GetScanLine out 0 = [] := by
      simp only [FreeImage_GetScanLine, List.getD_eq_getElem?_getD]
      rw [List.getElem?_eq_none (by omega)]
      rfl
    have h2 : FreeImage_GetScanLine sampleTall 0 = [0, 0, 0] := by
      show (List.replicate 65536 [0, 0, 0]).getD 0 [] = ([0, 0, 0] : List Int)
      rw [List.getD_eq_getElem?_getD, List.getElem?_replicate, if_pos (by omega)]
      rfl
    rw [h1, h2] at hscan
    cases hscan

variable {α : Type} [Zero α]

/-- C6 (amended): whatever the chunks are, a buffer returned by
`PasteTaskCollector::finalize` on N >= 1 primary chunks has the width w and the
layout (and bits per pixel) L of the first chunk and the height h * N modulo
2^32; and when the chunks are well formed, all share w, h and L, and h * N is
below 2^32, the call returns a buffer of width w, height h * N and layout L. -/
theorem C6_paste_output_frame (c : FIBITMAP α) (cs alphas : List (FIBITMAP α)) :
    (∀ out, PasteTaskCollector.finalize (c :: cs) alphas = .ok (some out) →
      out.width = c.width ∧ out.height = (c.height * (cs.length + 1)) % 2 ^ 32 ∧
      out.type = c.type ∧ FreeImage_GetBPP out = FreeImage_GetBPP c) ∧
    (Uniform c.type c.width c.height (c :: cs) → c.height * (cs.length + 1) < 2 ^ 32 →
      ∃ out, PasteTaskCollector.finalize (c :: cs) alphas = .ok (some out) ∧
        out.width = c.width ∧ out.height = c.height * (cs.length + 1) ∧
        out.type = c.type ∧ FreeImage_GetBPP out = FreeImage_GetBPP c) := by
  constructor
  · intro out hrun
    obtain ⟨ht, hw, hh, -⟩ := paste_finalize_frame c cs alphas out hrun
    exact ⟨hw, hh, ht, by simp [FreeImage_GetBPP, ht]⟩
  · intro huni hfit
    obtain ⟨out, hrun, -, ht, hw, hh, -⟩ :=
      paste_finalize_spec c cs alphas huni hfit
    exact ⟨out, hrun, hw, hh, ht, by simp [FreeImage_GetBPP, ht]⟩

/-- Witness of C6 (amended): three 2x2 `FIT_RGBF` chunks. -/
theorem C6_paste_output_frame_witness :
    Uniform samplePaste1.type samplePaste1.width samplePaste1.height
      [samplePaste1, samplePaste2, samplePaste3] ∧
    samplePaste1.height * ([samplePaste2, samplePaste3].length + 1) < 2 ^ 32 ∧
    ∃ out, PasteTaskCollector.finalize [samplePaste1, samplePaste2, samplePaste3] []
        = .ok (some out) ∧
      out.width = samplePaste1.width ∧
      out.height = samplePaste1.height * ([samplePaste2, samplePaste3].length + 1) ∧
      out.type = samplePaste1.type ∧ FreeImage_GetBPP out = FreeImage_GetBPP samplePaste1 :=
  ⟨by decide, by decide,
    (C6_paste_output_frame samplePaste1 [samplePaste2, samplePaste3] []).2
      (by decide) (by decide)⟩

/-- Counterexample to C6 as stated: on the 2^16 well-formed chunks of
`sampleMany`, of width 1, height 2^16 and layout `FIT_RGBF`,
`PasteTaskCollector::finalize` returns no buffer of height h * N = 2^32. -/
theorem C6_paste_output_frame_counterexample :
    sampleMany.length = 65536 ∧ Uniform FIT_RGBF 1 65536 sampleMany ∧
    ¬ ∃ out, PasteTaskCollector.finalize sampleMany [] = .ok (some out) ∧
      out.width = 1 ∧ out.height = 65536 * 65536 ∧ out.type = FIT_RGBF := by
  refine ⟨?_, sampleMany_uniform, ?_⟩
  · show (sampleTall :: List.replicate 65535 sampleTall).length = 65536
    rw [List.length_cons, List.length_replicate]
  · rintro ⟨out, hrun, -, hh, -⟩
    obtain ⟨hh', -⟩ := sampleMany_frame out hrun
    rw [hh] at hh'
    omega

end PasteClaims3

/-! ## Empty and non-empty results, mode selection, layouts of alpha-source chunks -/

section DriverClaims

theorem add_finalize_ne_none {α : Type} [Add α] (c : FIBITMAP α)
    (cs alphas : List (FIBITMAP α)) : AddTaskCollector.finalize (c :: cs) alphas ≠ .ok none := by
  simp only [AddTaskCollector.finalize, bind, Except.bind, pure, Except.pure]
  intro h
  split at h
  · cases h
  · split at h
    · cases h
    · cases h

theorem paste_finalize_ne_none {α : Type} [Zero α] (c : FIBITMAP α)
    (cs alphas : List (FIBITMAP α)) :
    PasteTaskCollector.finalize (c :: cs) alphas ≠ .ok none := by
  simp only [PasteTaskCollector.finalize, bind, Except.bind, pure, Except.pure]
  intro h
  split at h
  · cases h
  · cases h

theorem forLoop_fault_at_zero {σ : Type} (n : Nat) (body : Nat → σ → Except Fault σ) (s : σ)
    (fault : Fault) (h : body 0 s = .error fault) : forLoop (n + 1) body s = .error fault := by
  unfold forLoop
  rw [List.range_succ_eq_map, List.foldlM_cons, h]
  rfl

theorem paste_finalize_cons_eq {α : Type} [Zero α] (c : FIBITMAP α)
    (cs alphas : List (FIBITMAP α)) :
    PasteTaskCollector.finalize (c :: cs) alphas =
      ((c :: cs).foldlM (PasteTaskCollector.chunkWorker c.type c.height c.width)
        (FreeImage_AllocateT c.type c.width (u32mul c.height (cs.length + 1))
            (FreeImage_GetBPP c),
          u32sub (u32mul c.height (cs.length + 1)) c.height) >>= fun st =>
        pure (some st.1)) := rfl

/-- On the 2^16 chunks of `sampleMany` the output height wraps to 0: the first
write of `PasteTaskCollector::finalize` falls outside the allocated image. -/
theorem paste_sampleMany_fault :
    PasteTaskCollector.finalize sampleMany [] = .error .outOfBounds := by
  have hsrc : FreeImage_GetScanLine sampleTall 0 = [0, 0, 0] := by
    show (List.replicate (65535 + 1) [(0 : Int), 0, 0]).getD 0 [] = _
    rw [List.replicate_succ]
    rfl
  have hpix : forLoop 1 (PasteTaskCollector.copyPixelRGBF [(0 : Int), 0, 0]) []
      = .error .outOfBounds := by decide
  have hw : ∀ cur, PasteTaskCollector.chunkWorker FIT_RGBF 65536 1
      ((⟨FIT_RGBF, 1, 0, []⟩ : FIBITMAP Int), cur) sampleTall = .error .outOfBounds := by
    intro cur
    unfold PasteTaskCollector.chunkWorker
    rw [if_pos rfl]
    have hloop : forLoop (65535 + 1) (fun y img => do
        let srcbits := FreeImage_GetScanLine sampleTall y
        let dstbits := FreeImage_GetScanLine img (u32add y cur)
        let dstbits ← forLoop 1 (PasteTaskCollector.copyPixelRGBF srcbits) dstbits
        pure (img.setScanLine (u32add y cur) dstbits)) (⟨FIT_RGBF, 1, 0, []⟩ : FIBITMAP Int)
        = .error .outOfBounds := by
      apply forLoop_fault_at_zero
      show (forLoop 1 (PasteTaskCollector.copyPixelRGBF (FreeImage_GetScanLine sampleTall 0))
        ([] : List Int) >>= _) = _
      rw [hsrc, hpix]
      rfl
    exact (congrArg (fun r => r >>= fun finalImage => pure (finalImage, u32sub cur 65536))
      hloop).trans rfl
  have ht : sampleTall.type = FIT_RGBF := rfl
  have hh : sampleTall.height = 65536 := rfl
  have hwd : sampleTall.width = 1 := rfl
  have hmul : u32mul 65536 (65535 + 1) = 0 := by decide
  have halloc : (FreeImage_AllocateT FIT_RGBF 1 0 (FreeImage_GetBPP sampleTall) : FIBITMAP Int)
      = ⟨FIT_RGBF, 1, 0, []⟩ := rfl
  unfold sampleMany
  rw [paste_finalize_cons_eq, List.length_replicate, ht, hh, hwd, hmul, halloc,
    List.foldlM_cons, hw]
  rfl

/-- C4: for `AddTaskCollector::finalize` and `PasteTaskCollector::finalize`, an
empty primary chunk list gives the empty (null) buffer as a normal return,
whatever the alpha-chunk list holds; a non-empty primary chunk list never
gives the empty buffer, and on well-formed chunks sharing the first chunk's
layout, width and height (alpha-source chunks, if any, being `FIT_RGBAF` like
the output; output height below 2^32 for the concatenation) the call returns
a buffer. -/
theorem C4_finalize_empty_iff_no_primary :
    (∀ (α : Type) [Add α] (alphas : List (FIBITMAP α)),
      AddTaskCollector.finalize [] alphas = .ok none) ∧
    (∀ (α : Type) [Zero α] (alphas : List (FIBITMAP α)),
      PasteTaskCollector.finalize [] alphas = .ok none) ∧
    (∀ (α : Type) [Add α] (c : FIBITMAP α) (cs alphas : List (FIBITMAP α)),
      AddTaskCollector.finalize (c :: cs) alphas ≠ .ok none) ∧
    (∀ (α : Type) [Zero α] (c : FIBITMAP α) (cs alphas : List (FIBITMAP α)),
      PasteTaskCollector.finalize (c :: cs) alphas ≠ .ok none) ∧
    (∀ (α : Type) [Add α] [Zero α] (c : FIBITMAP α) (cs alphas : List (FIBITMAP α)),
      Uniform c.type c.width c.height (c :: cs) →
      (alphas = [] ∨ (c.type = FIT_RGBAF ∧ Uniform FIT_RGBAF c.width c.height alphas)) →
      ∃ out, AddTaskCollector.finalize (c :: cs) alphas = .ok (some out)) ∧
    (∀ (α : Type) [Zero α] (c : FIBITMAP α) (cs alphas : List (FIBITMAP α)),
      Uniform c.type c.width c.height (c :: cs) → c.height * (cs.length + 1) < 2 ^ 32 →
      ∃ out, PasteTaskCollector.finalize (c :: cs) alphas = .ok (some out)) := by
  refine ⟨fun _ _ _ => rfl, fun _ _ _ => rfl,
    fun _ _ c cs alphas => add_finalize_ne_none c cs alphas,
    fun _ _ c cs alphas => paste_finalize_ne_none c cs alphas, ?_, ?_⟩
  · intro α _ _ c cs alphas huni halpha
    have hc := (huni c (List.mem_cons_self _ _)).1
    have hcs : Uniform c.type c.width c.height cs :=
      fun e he => huni e (List.mem_cons_of_mem _ he)
    rcases halpha with hnil | ⟨ht, hal⟩
    · subst hnil
      exact ⟨_, add_finalize_eq c cs huni⟩
    · obtain ⟨out, hrun, -⟩ := foldlM_alphaChunksWorker alphas
        { c with bits := cs.foldl (fun acc el => addBits acc el.bits) c.bits }
        (foldl_addBits_WF cs c hc hcs) ht hal
      refine ⟨out, ?_⟩
      rw [add_finalize_cons c cs alphas huni, hrun]
      rfl
  · intro α _ c cs alphas huni hfit
    obtain ⟨out, hrun, -⟩ := paste_finalize_spec c cs alphas huni hfit
    exact ⟨out, hrun⟩

/-- Witness of C4: primary chunks `sampleRGBA1`, `sampleRGBA2`. -/
theorem C4_finalize_empty_iff_no_primary_witness :
    (Uniform sampleRGBA1.type sampleRGBA1.width sampleRGBA1.height
        [sampleRGBA1, sampleRGBA2] ∧
      (sampleRGBA1.type = FIT_RGBAF ∧
        Uniform FIT_RGBAF sampleRGBA1.width sampleRGBA1.height [sampleRGBA2]) ∧
      ∃ out, AddTaskCollector.finalize [sampleRGBA1, sampleRGBA2] [sampleRGBA2]
        = .ok (some out)) ∧
    (sampleRGBA1.height * ([sampleRGBA2].length + 1) < 2 ^ 32 ∧
      ∃ out, PasteTaskCollector.finalize [sampleRGBA1, sampleRGBA2] [sampleRGBA2]
        = .ok (some out)) :=
  ⟨⟨by decide, by decide,
      C4_finalize_empty_iff_no_primary.2.2.2.2.1 Int sampleRGBA1 [sampleRGBA2] [sampleRGBA2]
        (by decide) (Or.inr (by decide))⟩,
    by decide,
    C4_finalize_empty_iff_no_primary.2.2.2.2.2 Int sampleRGBA1 [sampleRGBA2] [sampleRGBA2]
      (by decide) (by decide)⟩

/-- Counterexample to C4 as stated: non-empty primary chunk lists for which
no buffer is returned. A second primary chunk narrower than the first one is
read past its scanline, by the additive merge and by the concatenation; an
`FIT_RGBAF` alpha-source chunk narrower than the `FIT_RGBAF` output is read
past its scanline; and on the 2^16 chunks of `sampleMany`, each of 2^16
scanlines, the output height of the concatenation wraps to 0. -/
theorem C4_nonempty_without_buffer_counterexample :
    AddTaskCollector.finalize [sampleRGBwide, sampleRGB1] [] = .error .outOfBounds ∧
    PasteTaskCollector.finalize [sampleRGBwide, sampleRGB1] [] = .error .outOfBounds ∧
    AddTaskCollector.finalize [sampleRGBAwide] [sampleRGBA11] = .error .outOfBounds ∧
    PasteTaskCollector.finalize sampleMany [] = .error .outOfBounds := by
  refine ⟨by decide, by decide, by decide, paste_sampleMany_fault⟩

/-- C5 fails on the code: in mode "paste" the driver creates an
`AddTaskCollector` as main collector, as it does in mode "add"; on the inputs
`a.exr` and `b.exr` the image handed to the writer for the requested path is
the 1x1 sum of the two chunks, where `PasteTaskCollector::finalize` gives the
1x2 stacking. (After the two calls of the writer the run ends in the
destructor of the collector.) -/
theorem C5_paste_mode_creates_add_collector :
    (main.makeCollectors "paste" : Option (TaskCollector Int × TaskCollector Int))
      = some (⟨.AddTaskCollector, [], []⟩, ⟨.AddTaskCollector, [], []⟩) ∧
    (main (sampleCodec sampleLoader) ["taskcollector", "paste", "out.exr", "a.exr", "b.exr"]
      = ⟨.error .invalidFree, some ⟨.AddTaskCollector, [sampleRGB1, sampleRGB2], []⟩,
          some ⟨.AddTaskCollector, [], []⟩,
          [("out.exr", some ⟨FIT_RGBF, 1, 1, [[11, 22, 33]]⟩), ("out.Alpha.exr", none)]⟩) ∧
    PasteTaskCollector.finalize [sampleRGB1, sampleRGB2] []
      = .ok (some ⟨FIT_RGBF, 1, 2, [[10, 20, 30], [1, 2, 3]]⟩) := by
  refine ⟨by decide, by decide, by decide⟩

/-- C7 fails on the code: with a `FIT_RGBF` output, `alphaChunksWorker` still
writes through `FIRGBAF *`. On a 1x1 output the write of pixel 0 falls outside
the scanline, where the call without alpha-source chunks returns the chunk;
on a scanline of two `FIT_RGBF` pixels the write of pixel 0 lands on the red
of pixel 1. -/
theorem C7_alpha_source_on_rgb_output :
    AddTaskCollector.finalize [sampleRGB1] [sampleRGB2] = .error .outOfBounds ∧
    AddTaskCollector.finalize [sampleRGB1] [] = .ok (some sampleRGB1) ∧
    AddTaskCollector.alphaPixel [100, 200, 300, 400, 500, 600] 0 [(1 : Int), 2, 3, 4, 5, 6]
      = .ok [1, 2, 3, 604, 5, 6] ∧
    AddTaskCollector.finalize [sampleRGBwide] [sampleRGBwide] = .error .outOfBounds := by
  refine ⟨by decide, by decide, by decide, by decide⟩

/-- C8 fails on the code: a `FIT_RGBF` alpha-source chunk is read through
`FIRGBAF *`. With a 2x1 `FIT_RGBAF` output and a 2x1 `FIT_RGBF` alpha-source
chunk the read of pixel 1 leaves the source scanline; on a longer scanline
pixel 1 receives green of pixel 1 + red of pixel 2 + blue of pixel 1 (150)
instead of red + green + blue of pixel 1 (60). Only for width 1 do the reads
hit the pixel. -/
theorem C8_rgb_alpha_source_misread :
    AddTaskCollector.finalize [sampleRGBAwide] [sampleRGBwide] = .error .outOfBounds ∧
    AddTaskCollector.alphaPixel [(1 : Int), 2, 3, 10, 20, 30, 100, 200, 300] 1
        [0, 0, 0, 0, 0, 0, 0, 0, 0, 0, 0, 0]
      = .ok [0, 0, 0, 0, 0, 0, 0, 150, 0, 0, 0, 0] ∧
    AddTaskCollector.finalize [sampleRGBA11] [sampleRGB1]
      = .ok (some ⟨FIT_RGBAF, 1, 1, [[1, 2, 3, 10]]⟩) := by
  refine ⟨by decide, by decide, by decide⟩

end DriverClaims

/-! ## Concatenation of a single chunk, alpha-source chunks of the concatenation, adds -/

section SecondClaims

/-- C11: the concatenating merge of a single chunk is that chunk: for every
well-formed chunk c (its height being an `unsigned int`),
`PasteTaskCollector::finalize` on the primary chunks [c] returns a buffer
identical to c in width, height, layout and every float of every scanline. -/
theorem C11_paste_single_chunk {α : Type} [Zero α] (c : FIBITMAP α)
    (alphas : List (FIBITMAP α)) (hwf : c.WF) (hh : c.height < 2 ^ 32) :
    PasteTaskCollector.finalize [c] alphas = .ok (some c) := by
  have huni : Uniform c.type c.width c.height [c] := by
    intro el hel
    rw [List.mem_singleton.mp hel]
    exact ⟨hwf, rfl, rfl, rfl⟩
  obtain ⟨out, hrun, hwf', ht, hw, hheight, hbands⟩ :=
    paste_finalize_spec c [] alphas huni (by simpa using hh)
  rw [hrun]
  congr 2
  obtain ⟨t', w', h', bits'⟩ := out
  obtain ⟨t, w, h, bits⟩ := c
  simp only [List.length_nil, Nat.zero_add, Nat.mul_one] at ht hw hheight hbands
  subst ht hw hheight
  congr 1
  apply List.ext_getElem?
  intro y
  have l1 : bits'.length = h' := hwf'.1
  have l2 : bits.length = h' := hwf.1
  by_cases hy : y < h'
  · have := hbands 0 _ rfl y hy
    simpa using this
  · rw [List.getElem?_eq_none (by omega), List.getElem?_eq_none (by omega)]

/-- Witness of C11: the 2x2 chunk `samplePaste1`. -/
theorem C11_paste_single_chunk_witness :
    samplePaste1.WF ∧ samplePaste1.height < 2 ^ 32 ∧
    PasteTaskCollector.finalize [samplePaste1] [samplePaste2] = .ok (some samplePaste1) :=
  ⟨by decide, by decide, C11_paste_single_chunk samplePaste1 [samplePaste2] (by decide)
    (by decide)⟩

/-- C12: `PasteTaskCollector::finalize` ignores the alpha-source chunks: for
every primary chunk list, any two alpha-chunk lists give the same result
(same emptiness, same fault or same buffer). -/
theorem C12_paste_ignores_alpha_chunks {α : Type} [Zero α]
    (chunks alphas1 alphas2 : List (FIBITMAP α)) :
    PasteTaskCollector.finalize chunks alphas1 = PasteTaskCollector.finalize chunks alphas2 := by
  cases chunks <;> rfl

/-- C13: when the loader yields no buffer for the path, `addImgFile` and
`addAlphaFile` return false and leave the collector, hence both chunk
sequences, as it was. -/
theorem C13_failed_add_leaves_collector {α : Type}
    (lib : Codec α) (tc : TaskCollector α) (pathName : String)
    (hload : GenericLoader lib pathName = .ok none) :
    tc.addImgFile lib pathName = .ok (false, tc) ∧
    tc.addAlphaFile lib pathName = .ok (false, tc) := by
  simp [TaskCollector.addImgFile, TaskCollector.addAlphaFile, hload, bind, Except.bind, pure,
    Except.pure]

/-- Witness of C13: `notes.txt` has no signature and no known extension, the
loader returns `NULL` for it. -/
theorem C13_failed_add_leaves_collector_witness :
    GenericLoader (sampleCodec sampleLoader) "notes.txt" = .ok none ∧
    (⟨.AddTaskCollector, [sampleRGB1], [sampleRGB2]⟩ : TaskCollector Int).addImgFile
        (sampleCodec sampleLoader) "notes.txt"
      = .ok (false, ⟨.AddTaskCollector, [sampleRGB1], [sampleRGB2]⟩) ∧
    (⟨.AddTaskCollector, [sampleRGB1], [sampleRGB2]⟩ : TaskCollector Int).addAlphaFile
        (sampleCodec sampleLoader) "notes.txt"
      = .ok (false, ⟨.AddTaskCollector, [sampleRGB1], [sampleRGB2]⟩) :=
  ⟨by decide,
    C13_failed_add_leaves_collector (sampleCodec sampleLoader) _ "notes.txt" (by decide)⟩

/-- C14: when the loader yields a buffer b, `addImgFile` returns true and
appends b to the primary sequence, the alpha sequence being unchanged, and
`addAlphaFile` returns true and appends b to the alpha sequence, the primary
sequence being unchanged; this for every b, whatever its width, height and
layout and whatever chunks are already held. -/
theorem C14_successful_add_appends {α : Type}
    (lib : Codec α) (tc : TaskCollector α) (pathName : String)
    (b : FIBITMAP α) (hload : GenericLoader lib pathName = .ok (some b)) :
    tc.addImgFile lib pathName
      = .ok (true, ⟨tc.cls, tc.chunks ++ [b], tc.alphaChunks⟩) ∧
    tc.addAlphaFile lib pathName
      = .ok (true, ⟨tc.cls, tc.chunks, tc.alphaChunks ++ [b]⟩) := by
  simp [TaskCollector.addImgFile, TaskCollector.addAlphaFile, hload, bind, Except.bind, pure,
    Except.pure]

/-- Witness of C14: a 1x1 `FIT_RGBF` buffer is added to a collector that holds
a 2x1 `FIT_RGBAF` chunk. -/
theorem C14_successful_add_appends_witness :
    GenericLoader (sampleCodec sampleLoader) "a.exr" = .ok (some sampleRGB1) ∧
    (⟨.AddTaskCollector, [sampleRGBAwide], []⟩ : TaskCollector Int).addImgFile
        (sampleCodec sampleLoader) "a.exr"
      = .ok (true, ⟨.AddTaskCollector, [sampleRGBAwide] ++ [sampleRGB1], []⟩) ∧
    (⟨.AddTaskCollector, [sampleRGBAwide], []⟩ : TaskCollector Int).addAlphaFile
        (sampleCodec sampleLoader) "a.exr"
      = .ok (true, ⟨.AddTaskCollector, [sampleRGBAwide], [] ++ [sampleRGB1]⟩) :=
  ⟨by decide,
    C14_successful_add_appends (sampleCodec sampleLoader) _ "a.exr" sampleRGB1 (by decide)⟩

end SecondClaims

/-! ## The loader and the input loop of the batch driver -/

section InputLoop

variable {α : Type}

/-- The only fault of `GenericLoader` is the dereference of the null pointer
that a failed `FreeImage_Load` returns. -/
theorem genericLoader_fault (lib : Codec α) (p : String) (fault : Fault)
    (h : GenericLoader lib p = .error fault) : fault = .nullDereference := by
  unfold GenericLoader at h
  simp only at h
  split at h
  · split at h
    · split at h
      · cases h
      · cases h
        rfl
    · cases h
  · cases h

theorem loaded_of_ok (lib : Codec α) (p : String) (r : Option (FIBITMAP α))
    (h : GenericLoader lib p = .ok r) : loaded lib p = r := by
  unfold loaded
  rw [h]

theorem inputStep_of_load_none (lib : Codec α) (st : TaskCollector α × TaskCollector α)
    (arg : String) (hload : GenericLoader lib arg = .ok none) :
    main.inputStep lib st arg = .ok st := by
  unfold main.inputStep TaskCollector.addImgFile TaskCollector.addAlphaFile
  rw [hload]
  split <;> rfl

theorem inputStep_of_load_fault (lib : Codec α) (st : TaskCollector α × TaskCollector α)
    (arg : String) (fault : Fault) (hload : GenericLoader lib arg = .error fault) :
    main.inputStep lib st arg = .error fault := by
  unfold main.inputStep TaskCollector.addImgFile TaskCollector.addAlphaFile
  rw [hload]
  split <;> rfl

theorem inputStep_of_not_alpha (lib : Codec α) (st : TaskCollector α × TaskCollector α)
    (arg : String) (b : FIBITMAP α) (hA : ¬ ("Alpha".toList <:+: arg.toList))
    (hload : GenericLoader lib arg = .ok (some b)) :
    main.inputStep lib st arg
      = .ok (⟨st.1.cls, st.1.chunks ++ [b], st.1.alphaChunks⟩, st.2) := by
  unfold main.inputStep TaskCollector.addImgFile
  rw [hload, if_pos hA]
  rfl

theorem inputStep_of_alpha (lib : Codec α) (st : TaskCollector α × TaskCollector α)
    (arg : String) (b : FIBITMAP α) (hA : "Alpha".toList <:+: arg.toList)
    (hload : GenericLoader lib arg = .ok (some b)) :
    main.inputStep lib st arg
      = .ok (⟨st.1.cls, st.1.chunks, st.1.alphaChunks ++ [b]⟩,
          ⟨st.2.cls, st.2.chunks ++ [b], st.2.alphaChunks⟩) := by
  unfold main.inputStep TaskCollector.addImgFile TaskCollector.addAlphaFile
  rw [hload, if_neg (not_not.mpr hA)]
  rfl

/-- The two collectors after the input loop, from any pair of collectors, when
the loader returns for every path: the classes are kept, the buffers of the
paths without "Alpha" that load are appended in order to the primary sequence
of the first collector, and the buffers of the paths with "Alpha" that load
are appended in order to the alpha sequence of the first collector and to the
primary sequence of the second. -/
theorem inputLoop_spec (lib : Codec α) (inputs : List String) :
    (∀ p ∈ inputs, ∃ r, GenericLoader lib p = .ok r) →
    ∀ st : TaskCollector α × TaskCollector α,
      ∃ st', inputs.foldlM (main.inputStep lib) st = .ok st' ∧
      st'.1.cls = st.1.cls ∧ st'.2.cls = st.2.cls ∧
      st'.1.chunks = st.1.chunks ++
        (inputs.filter (fun p => decide (¬ ("Alpha".toList <:+: p.toList)))).filterMap
          (loaded lib) ∧
      st'.1.alphaChunks = st.1.alphaChunks ++
        (inputs.filter (fun p => decide ("Alpha".toList <:+: p.toList))).filterMap
          (loaded lib) ∧
      st'.2.chunks = st.2.chunks ++
        (inputs.filter (fun p => decide ("Alpha".toList <:+: p.toList))).filterMap
          (loaded lib) ∧
      st'.2.alphaChunks = st.2.alphaChunks := by
  induction inputs with
  | nil =>
    intro _ st
    exact ⟨st, rfl, rfl, rfl, by simp, by simp, by simp, rfl⟩
  | cons p rest ih =>
    intro hret st
    obtain ⟨r, hr⟩ := hret p (List.mem_cons_self _ _)
    have hrest : ∀ q ∈ rest, ∃ r, GenericLoader lib q = .ok r :=
      fun q hq => hret q (List.mem_cons_of_mem _ hq)
    have hl := loaded_of_ok lib p r hr
    by_cases hA : "Alpha".toList <:+: p.toList
    · have f1 : (p :: rest).filter (fun p => decide (¬ ("Alpha".toList <:+: p.toList)))
          = rest.filter (fun p => decide (¬ ("Alpha".toList <:+: p.toList))) :=
        List.filter_cons_of_neg (by simpa using hA)
      have f2 : (p :: rest).filter (fun p => decide ("Alpha".toList <:+: p.toList))
          = p :: rest.filter (fun p => decide ("Alpha".toList <:+: p.toList)) :=
        List.filter_cons_of_pos (by simpa using hA)
      rw [f1, f2, List.foldlM_cons]
      cases r with
      | none =>
        rw [inputStep_of_load_none lib st p hr, List.filterMap_cons_none hl]
        exact ih hrest st
      | some b =>
        rw [inputStep_of_alpha lib st p b hA hr, List.filterMap_cons_some hl]
        obtain ⟨st', h0, h1, h2, h3, h4, h5, h6⟩ := ih hrest
          (⟨st.1.cls, st.1.chunks, st.1.alphaChunks ++ [b]⟩,
            ⟨st.2.cls, st.2.chunks ++ [b], st.2.alphaChunks⟩)
        refine ⟨st', h0, h1, h2, h3, ?_, ?_, h6⟩
        · rw [h4]
          simp
        · rw [h5]
          simp
    · have f1 : (p :: rest).filter (fun p => decide (¬ ("Alpha".toList <:+: p.toList)))
          = p :: rest.filter (fun p => decide (¬ ("Alpha".toList <:+: p.toList))) :=
        List.filter_cons_of_pos (by simpa using hA)
      have f2 : (p :: rest).filter (fun p => decide ("Alpha".toList <:+: p.toList))
          = rest.filter (fun p => decide ("Alpha".toList <:+: p.toList)) :=
        List.filter_cons_of_neg (by simpa using hA)
      rw [f1, f2, List.foldlM_cons]
      cases r with
      | none =>
        rw [inputStep_of_load_none lib st p hr, List.filterMap_cons_none hl]
        exact ih hrest st
      | some b =>
        rw [inputStep_of_not_alpha lib st p b hA hr, List.filterMap_cons_some hl]
        obtain ⟨st', h0, h1, h2, h3, h4, h5, h6⟩ := ih hrest
          (⟨st.1.cls, st.1.chunks ++ [b], st.1.alphaChunks⟩, st.2)
        refine ⟨st', h0, h1, h2, ?_, h4, h5, h6⟩
        rw [h3]
        simp

/-- The input loop ends in the fault of the loader as soon as the loader
faults on one of the paths. -/
theorem inputLoop_fault (lib : Codec α) (inputs : List String) (p : String) (fault : Fault)
    (hp : p ∈ inputs) (hload : GenericLoader lib p = .error fault) :
    ∀ st : TaskCollector α × TaskCollector α,
      inputs.foldlM (main.inputStep lib) st = .error .nullDereference := by
  induction inputs with
  | nil => cases hp
  | cons q rest ih =>
    intro st
    rw [List.foldlM_cons]
    cases hq : GenericLoader lib q with
    | error e =>
      rw [inputStep_of_load_fault lib st q e hq, genericLoader_fault lib q e hq]
      rfl
    | ok r =>
      have hp' : p ∈ rest := by
        rcases List.mem_cons.mp hp with h | h
        · rw [h, hq] at hload
          cases hload
        · exact h
      cases hs : main.inputStep lib st q with
      | error e =>
        exfalso
        cases r with
        | none =>
          rw [inputStep_of_load_none lib st q hq] at hs
          cases hs
        | some b =>
          by_cases hA : "Alpha".toList <:+: q.toList
          · rw [inputStep_of_alpha lib st q b hA hq] at hs
            cases hs
          · rw [inputStep_of_not_alpha lib st q b hA hq] at hs
            cases hs
      | ok st' => exact ih hp' st'

/-- When the input loop ends without a fault, the loader has returned for
every path. -/
theorem inputLoop_returns (lib : Codec α) (inputs : List String)
    (st st' : TaskCollector α × TaskCollector α)
    (h : inputs.foldlM (main.inputStep lib) st = .ok st') :
    ∀ p ∈ inputs, ∃ r, GenericLoader lib p = .ok r := by
  intro p hp
  cases hl : GenericLoader lib p with
  | ok r => exact ⟨r, rfl⟩
  | error e =>
    rw [inputLoop_fault lib inputs p e hp hl st] at h
    cases h

theorem inputLoop_of_load_none (lib : Codec α) (inputs : List String)
    (h : ∀ p ∈ inputs, GenericLoader lib p = .ok none) :
    ∀ st : TaskCollector α × TaskCollector α,
      inputs.foldlM (main.inputStep lib) st = .ok st := by
  induction inputs with
  | nil => intro st; rfl
  | cons q rest ih =>
    intro st
    rw [List.foldlM_cons, inputStep_of_load_none lib st q (h q (List.mem_cons_self _ _))]
    exact ih (fun p hp => h p (List.mem_cons_of_mem _ hp)) st

theorem map_ok_filterMap_loaded (lib : Codec α) (l : List String)
    (h : ∀ p ∈ l, ∃ b, GenericLoader lib p = .ok (some b)) :
    (l.filterMap (loaded lib)).map (fun b => (Except.ok (some b) : Except Fault _))
      = l.map (GenericLoader lib) := by
  induction l with
  | nil => rfl
  | cons a l ih =>
    obtain ⟨b, hb⟩ := h a (List.mem_cons_self _ _)
    rw [List.filterMap_cons_some (loaded_of_ok lib a _ hb), List.map_cons, List.map_cons, hb,
      ih (fun p hp => h p (List.mem_cons_of_mem _ hp))]

theorem makeCollectors_of_valid (mode : String) (hmode : mode = "add" ∨ mode = "paste") :
    (main.makeCollectors mode : Option (TaskCollector α × TaskCollector α))
      = some (⟨.AddTaskCollector, [], []⟩, ⟨.AddTaskCollector, [], []⟩) := by
  rcases hmode with h | h <;> subst h <;> rfl

theorem makeCollectors_of_invalid (mode : String) (h1 : mode ≠ "add") (h2 : mode ≠ "paste") :
    (main.makeCollectors mode : Option (TaskCollector α × TaskCollector α)) = none := by
  simp [main.makeCollectors, h1, h2]

/-- The destructor of a collector returns exactly when the collector holds no
chunk. -/
theorem destructor_ok_iff (tc : TaskCollector α) :
    tc.destructor = .ok () ↔ tc.chunks = [] ∧ tc.alphaChunks = [] := by
  obtain ⟨cls, chunks, alphaChunks⟩ := tc
  cases chunks with
  | cons c cs =>
    simp [TaskCollector.destructor, FreeImage_Unload, bind, Except.bind]
  | nil =>
    cases alphaChunks with
    | cons c cs =>
      simp [TaskCollector.destructor, FreeImage_Unload, bind, Except.bind, pure, Except.pure]
    | nil =>
      simp [TaskCollector.destructor, bind, Except.bind, pure, Except.pure]

theorem destructor_fault (tc : TaskCollector α) (fault : Fault)
    (h : tc.destructor = .error fault) : fault = .invalidFree := by
  obtain ⟨cls, chunks, alphaChunks⟩ := tc
  cases chunks with
  | cons c cs =>
    simp [TaskCollector.destructor, FreeImage_Unload, bind, Except.bind] at h
    exact h.symm
  | nil =>
    cases alphaChunks with
    | cons c cs =>
      simp [TaskCollector.destructor, FreeImage_Unload, bind, Except.bind, pure,
        Except.pure] at h
      exact h.symm
    | nil =>
      simp [TaskCollector.destructor, bind, Except.bind, pure, Except.pure] at h

variable [Add α] [Zero α]

/-- The run of `main` when the arguments are refused. -/
theorem main_of_refused (lib : Codec α) (argv : List String)
    (h : argv.length < 4 ∨ (argv.getD 1 "" ≠ "add" ∧ argv.getD 1 "" ≠ "paste")) :
    main lib argv = ⟨.ok (-1), none, none, []⟩ := by
  unfold main
  by_cases hlen : argv.length < 4
  · rw [if_pos hlen]
  · rcases h with h | ⟨h1, h2⟩
    · exact absurd h hlen
    · rw [if_neg hlen, makeCollectors_of_invalid _ h1 h2]

theorem accepted_of_not_refused (argv : List String)
    (h : ¬ (argv.length < 4 ∨ (argv.getD 1 "" ≠ "add" ∧ argv.getD 1 "" ≠ "paste"))) :
    4 ≤ argv.length ∧ (argv.getD 1 "" = "add" ∨ argv.getD 1 "" = "paste") := by
  rw [not_or] at h
  refine ⟨by omega, ?_⟩
  by_cases ha : argv.getD 1 "" = "add"
  · exact Or.inl ha
  · exact Or.inr (by
      by_contra hp
      exact h.2 ⟨ha, hp⟩)

/-- The run of `main` once the arguments are accepted and the input loop has
ended in the collectors `st`: the two calls of `finalizeAndSave`, then the
destructors, then the exit code 0. -/
theorem main_of_loop (lib : Codec α) (argv : List String)
    (hargc : 4 ≤ argv.length)
    (hmode : argv.getD 1 "" = "add" ∨ argv.getD 1 "" = "paste")
    (st : TaskCollector α × TaskCollector α)
    (hloop : (argv.drop 3).foldlM (main.inputStep lib)
      (⟨.AddTaskCollector, [], []⟩, ⟨.AddTaskCollector, [], []⟩) = .ok st) :
    main lib argv =
      match st.1.finalizeAndSave (argv.getD 2 "") with
      | .error fault => ⟨.error fault, some st.1, some st.2, []⟩
      | .ok first =>
        match st.2.finalizeAndSave (main.alphaName (argv.getD 2 "")) with
        | .error fault => ⟨.error fault, some st.1, some st.2, [first]⟩
        | .ok second =>
          match st.2.destructor >>= fun _ => st.1.destructor with
          | .error fault => ⟨.error fault, some st.1, some st.2, [first, second]⟩
          | .ok _ => ⟨.ok 0, some st.1, some st.2, [first, second]⟩ := by
  unfold main
  rw [if_neg (by omega), makeCollectors_of_valid _ hmode]
  simp only [hloop]

/-- The run of `main` once the arguments are accepted and the loader faults on
an input path: the run ends there, before any call of `finalizeAndSave`. -/
theorem main_of_loop_fault (lib : Codec α) (argv : List String)
    (hargc : 4 ≤ argv.length)
    (hmode : argv.getD 1 "" = "add" ∨ argv.getD 1 "" = "paste")
    (p : String) (fault : Fault) (hp : p ∈ argv.drop 3)
    (hload : GenericLoader lib p = .error fault) :
    main lib argv = ⟨.error .nullDereference, none, none, []⟩ := by
  unfold main
  rw [if_neg (by omega), makeCollectors_of_valid _ hmode]
  simp only [inputLoop_fault lib (argv.drop 3) p fault hp hload]

/-- After the input loop the record of the run holds the two collectors. -/
theorem main_collectors (lib : Codec α) (argv : List String)
    (hargc : 4 ≤ argv.length)
    (hmode : argv.getD 1 "" = "add" ∨ argv.getD 1 "" = "paste")
    (st : TaskCollector α × TaskCollector α)
    (hloop : (argv.drop 3).foldlM (main.inputStep lib)
      (⟨.AddTaskCollector, [], []⟩, ⟨.AddTaskCollector, [], []⟩) = .ok st) :
    (main lib argv).taskCollector = some st.1 ∧
    (main lib argv).alphaTaskCollector = some st.2 := by
  rw [main_of_loop lib argv hargc hmode st hloop]
  split
  · exact ⟨rfl, rfl⟩
  · split
    · exact ⟨rfl, rfl⟩
    · split
      · exact ⟨rfl, rfl⟩
      · exact ⟨rfl, rfl⟩

/-- On accepted arguments, `main` returns 0 exactly when the loader returns
`NULL` for every input path; otherwise the run ends in a fault. -/
theorem main_exit_zero_iff (lib : Codec α) (argv : List String)
    (hargc : 4 ≤ argv.length)
    (hmode : argv.getD 1 "" = "add" ∨ argv.getD 1 "" = "paste") :
    ((main lib argv).exit = .ok 0 ↔ ∀ p ∈ argv.drop 3, GenericLoader lib p = .ok none) ∧
    (main lib argv).exit ≠ .ok (-1) := by
  cases hloop : (argv.drop 3).foldlM (main.inputStep lib)
      (⟨.AddTaskCollector, [], []⟩, ⟨.AddTaskCollector, [], []⟩) with
  | error e =>
    have hm : main lib argv = ⟨.error e, none, none, []⟩ := by
      unfold main
      rw [if_neg (by omega), makeCollectors_of_valid _ hmode]
      simp only [hloop]
    rw [hm]
    refine ⟨⟨fun h => (by cases h), fun h => ?_⟩, fun h => (by cases h)⟩
    rw [inputLoop_of_load_none lib _ h] at hloop
    cases hloop
  | ok st =>
    have hret := inputLoop_returns lib _ _ _ hloop
    obtain ⟨st', h0, -, -, h3, h4, h5, h6⟩ := inputLoop_spec lib (argv.drop 3) hret
      (⟨.AddTaskCollector, [], []⟩, ⟨.AddTaskCollector, [], []⟩)
    rw [hloop] at h0
    cases h0
    rw [main_of_loop lib argv hargc hmode st hloop]
    constructor
    · constructor
      · intro h
        have hd : st.2.destructor = .ok () ∧ st.1.destructor = .ok () := by
          revert h
          split
          · intro h; cases h
          · split
            · intro h; cases h
            · split
              · intro h; cases h
              · rename_i hd
                intro _
                cases h2 : st.2.destructor with
                | error e => rw [h2] at hd; cases hd
                | ok u =>
                  rw [h2] at hd
                  cases h1 : st.1.destructor with
                  | error e =>
                    rw [h1] at hd
                    cases hd
                  | ok v => exact ⟨rfl, rfl⟩
        obtain ⟨e1, e2⟩ := (destructor_ok_iff st.1).mp hd.2
        rw [e1] at h3
        rw [e2] at h4
        simp only [List.nil_append] at h3 h4
        intro p hp
        obtain ⟨r, hr⟩ := hret p hp
        have hl := loaded_of_ok lib p r hr
        have hnone : loaded lib p = none := by
          by_cases hA : "Alpha".toList <:+: p.toList
          · have hmem : p ∈ (argv.drop 3).filter
                (fun p => decide ("Alpha".toList <:+: p.toList)) :=
              List.mem_filter.mpr ⟨hp, by simpa using hA⟩
            exact (List.filterMap_eq_nil_iff.mp h4.symm) p hmem
          · have hmem : p ∈ (argv.drop 3).filter
                (fun p => decide (¬ ("Alpha".toList <:+: p.toList))) :=
              List.mem_filter.mpr ⟨hp, by simpa using hA⟩
            exact (List.filterMap_eq_nil_iff.mp h3.symm) p hmem
        rw [hr, ← hl, hnone]
      · intro h
        rw [inputLoop_of_load_none lib _ h] at hloop
        cases hloop
        rfl
    · split
      · intro h; cases h
      · split
        · intro h; cases h
        · split
          · intro h; cases h
          · intro h; cases h

end InputLoop

/-! ## Claims on the batch driver -/

section DriverClaims2

variable {α : Type} [Add α] [Zero α]

/-- C15: for an argument list with a valid mode whose inputs `argv[3..]` all
load, the input loop ends, and after it the primary sequence of the main
collector holds, in command-line order, the buffers of the input paths that do
not contain "Alpha", its alpha sequence holds the buffers of the input paths
that contain "Alpha", and the second (alpha-only) collector has that same
"Alpha" sub-list as primary sequence and an empty alpha sequence; these are
the collectors of the run of `main`. -/
theorem C15_input_classification (lib : Codec α)
    (argv : List String) (hargc : 4 ≤ argv.length)
    (hmode : argv.getD 1 "" = "add" ∨ argv.getD 1 "" = "paste")
    (hload : ∀ p ∈ argv.drop 3, ∃ b, GenericLoader lib p = .ok (some b)) :
    ∃ start tc atc, main.makeCollectors (argv.getD 1 "") = some start ∧
      (argv.drop 3).foldlM (main.inputStep lib) start = .ok (tc, atc) ∧
      tc.chunks.map (fun b => (Except.ok (some b) : Except Fault (Option (FIBITMAP α))))
        = ((argv.drop 3).filter (fun p => decide (¬ ("Alpha".toList <:+: p.toList)))).map
            (GenericLoader lib) ∧
      tc.alphaChunks.map (fun b => (Except.ok (some b) : Except Fault (Option (FIBITMAP α))))
        = ((argv.drop 3).filter (fun p => decide ("Alpha".toList <:+: p.toList))).map
            (GenericLoader lib) ∧
      atc.chunks.map (fun b => (Except.ok (some b) : Except Fault (Option (FIBITMAP α))))
        = ((argv.drop 3).filter (fun p => decide ("Alpha".toList <:+: p.toList))).map
            (GenericLoader lib) ∧
      atc.alphaChunks = [] ∧
      (main lib argv).taskCollector = some tc ∧
      (main lib argv).alphaTaskCollector = some atc := by
  have hret : ∀ p ∈ argv.drop 3, ∃ r, GenericLoader lib p = .ok r := by
    intro p hp
    obtain ⟨b, hb⟩ := hload p hp
    exact ⟨_, hb⟩
  obtain ⟨st, h0, -, -, h3, h4, h5, h6⟩ := inputLoop_spec lib (argv.drop 3) hret
    (⟨.AddTaskCollector, [], []⟩, ⟨.AddTaskCollector, [], []⟩)
  have sub1 : ∀ q : String → Bool, ∀ p ∈ (argv.drop 3).filter q,
      ∃ b, GenericLoader lib p = .ok (some b) :=
    fun q p hp => hload p (List.mem_of_mem_filter hp)
  have hcol := main_collectors lib argv hargc hmode st h0
  refine ⟨_, st.1, st.2, makeCollectors_of_valid _ hmode, h0, ?_, ?_, ?_, ?_, hcol.1, hcol.2⟩
  · rw [h3, List.nil_append, map_ok_filterMap_loaded lib _ (sub1 _)]
  · rw [h4, List.nil_append, map_ok_filterMap_loaded lib _ (sub1 _)]
  · rw [h5, List.nil_append, map_ok_filterMap_loaded lib _ (sub1 _)]
  · rw [h6]

/-- Witness of C15: the inputs `t0.exr`, `t0.Alpha.exr`, `t1.exr` in mode "add". -/
theorem C15_input_classification_witness :
    4 ≤ ["taskcollector", "add", "out.exr", "t0.exr", "t0.Alpha.exr", "t1.exr"].length ∧
    (∀ p ∈ ["taskcollector", "add", "out.exr", "t0.exr", "t0.Alpha.exr", "t1.exr"].drop 3,
      ∃ b, GenericLoader (sampleCodec sampleLoaderRGBA) p = .ok (some b)) ∧
    ∃ start tc atc,
      main.makeCollectors
        (["taskcollector", "add", "out.exr", "t0.exr", "t0.Alpha.exr", "t1.exr"].getD 1 "")
        = some start ∧
      (["taskcollector", "add", "out.exr", "t0.exr", "t0.Alpha.exr", "t1.exr"].drop 3).foldlM
        (main.inputStep (sampleCodec sampleLoaderRGBA)) start = .ok (tc, atc) ∧
      tc.chunks.map (fun b => (Except.ok (some b) : Except Fault (Option (FIBITMAP Int))))
        = ((["taskcollector", "add", "out.exr", "t0.exr", "t0.Alpha.exr", "t1.exr"].drop
            3).filter (fun p => decide (¬ ("Alpha".toList <:+: p.toList)))).map
            (GenericLoader (sampleCodec sampleLoaderRGBA)) ∧
      tc.alphaChunks.map (fun b => (Except.ok (some b) : Except Fault (Option (FIBITMAP Int))))
        = ((["taskcollector", "add", "out.exr", "t0.exr", "t0.Alpha.exr", "t1.exr"].drop
            3).filter (fun p => decide ("Alpha".toList <:+: p.toList))).map
            (GenericLoader (sampleCodec sampleLoaderRGBA)) ∧
      atc.chunks.map (fun b => (Except.ok (some b) : Except Fault (Option (FIBITMAP Int))))
        = ((["taskcollector", "add", "out.exr", "t0.exr", "t0.Alpha.exr", "t1.exr"].drop
            3).filter (fun p => decide ("Alpha".toList <:+: p.toList))).map
            (GenericLoader (sampleCodec sampleLoaderRGBA)) ∧
      atc.alphaChunks = [] ∧
      (main (sampleCodec sampleLoaderRGBA)
        ["taskcollector", "add", "out.exr", "t0.exr", "t0.Alpha.exr", "t1.exr"]).taskCollector
        = some tc ∧
      (main (sampleCodec sampleLoaderRGBA)
        ["taskcollector", "add", "out.exr", "t0.exr", "t0.Alpha.exr",
          "t1.exr"]).alphaTaskCollector = some atc :=
  have hload : ∀ p ∈ ["taskcollector", "add", "out.exr", "t0.exr", "t0.Alpha.exr",
      "t1.exr"].drop 3, ∃ b, GenericLoader (sampleCodec sampleLoaderRGBA) p = .ok (some b) := by
    intro p hp
    simp only [List.drop_succ_cons, List.drop_zero, List.mem_cons, List.mem_singleton,
      List.not_mem_nil, or_false] at hp
    rcases hp with h | h | h <;> subst h <;> exact ⟨sampleRGBA11, by decide⟩
  ⟨by decide, hload,
    C15_input_classification (sampleCodec sampleLoaderRGBA)
      ["taskcollector", "add", "out.exr", "t0.exr", "t0.Alpha.exr", "t1.exr"]
      (by decide) (by decide) hload⟩

/-- C17 fails on the code: a load failure is skipped only when `GenericLoader`
returns `NULL` (no signature and no known extension, or a format without
reading support). When the format is known and `FreeImage_Load` fails, line 32
dereferences the null pointer it returns: for every argument list with a valid
mode, one such input path ends the run in the input loop, with no call of
`finalizeAndSave`. With the files `t0.exr` and `t0.Alpha.exr` on disk and no
file `missing.exr`, the run on `t0.exr missing.exr t0.Alpha.exr` ends there and
hands nothing to the writer, where the run without `missing.exr` hands both
outputs to the writer, as does the run with `notes.txt` in its place. -/
theorem C17_failed_load_aborts_batch :
    (∀ (α : Type) [Add α] [Zero α] (lib : Codec α) (argv : List String) (p : String)
        (fault : Fault),
      4 ≤ argv.length → (argv.getD 1 "" = "add" ∨ argv.getD 1 "" = "paste") →
      p ∈ argv.drop 3 → GenericLoader lib p = .error fault →
      main lib argv = ⟨.error .nullDereference, none, none, []⟩) ∧
    (∀ (α : Type) [Add α] [Zero α] (lib : Codec α) (prog mode out p : String)
        (pre post : List String),
      (mode = "add" ∨ mode = "paste") → GenericLoader lib p = .ok none →
      (∀ st, (pre ++ p :: post).foldlM (main.inputStep lib) st
        = (pre ++ post).foldlM (main.inputStep lib) st) ∧
      (pre ++ post ≠ [] →
        main lib (prog :: mode :: out :: (pre ++ p :: post))
          = main lib (prog :: mode :: out :: (pre ++ post)))) ∧
    GenericLoader (sampleCodec sampleLoaderRGBA) "missing.exr" = .error .nullDereference ∧
    GenericLoader (sampleCodec sampleLoaderRGBA) "notes.txt" = .ok none ∧
    main (sampleCodec sampleLoaderRGBA)
        ["taskcollector", "add", "out.exr", "t0.exr", "missing.exr", "t0.Alpha.exr"]
      = ⟨.error .nullDereference, none, none, []⟩ ∧
    (main (sampleCodec sampleLoaderRGBA)
        ["taskcollector", "add", "out.exr", "t0.exr", "t0.Alpha.exr"]).written
      = [("out.exr", some ⟨FIT_RGBAF, 1, 1, [[1, 2, 3, 10]]⟩),
          ("out.Alpha.exr", some sampleRGBA11)] ∧
    (main (sampleCodec sampleLoaderRGBA)
        ["taskcollector", "add", "out.exr", "t0.exr", "notes.txt", "t0.Alpha.exr"]).written
      = [("out.exr", some ⟨FIT_RGBAF, 1, 1, [[1, 2, 3, 10]]⟩),
          ("out.Alpha.exr", some sampleRGBA11)] := by
  refine ⟨?_, ?_, by decide, by decide, by decide, by decide, by decide⟩
  · intro α _ _ lib argv p fault hargc hmode hp hload
    exact main_of_loop_fault lib argv hargc hmode p fault hp hload
  · intro α _ _ lib prog mode out p pre post hmode hload
    have hfold : ∀ st, (pre ++ p :: post).foldlM (main.inputStep lib) st
        = (pre ++ post).foldlM (main.inputStep lib) st := by
      intro st
      rw [List.foldlM_append, List.foldlM_append]
      congr 1
      funext st'
      rw [List.foldlM_cons, inputStep_of_load_none lib st' p hload]
      rfl
    refine ⟨hfold, fun hne => ?_⟩
    have l2 : ¬ (prog :: mode :: out :: (pre ++ post)).length < 4 := by
      have : 0 < (pre ++ post).length := List.length_pos.mpr hne
      simp only [List.length_cons]
      omega
    have l1 : ¬ (prog :: mode :: out :: (pre ++ p :: post)).length < 4 := by
      simp only [List.length_cons, List.length_append]
      omega
    unfold main
    rw [if_neg l1, if_neg l2]
    simp only [List.drop_succ_cons, List.drop_zero, hfold]
    rfl

/-- Witness of C17: in mode "add", `missing.exr` between `t0.exr` and
`t0.Alpha.exr` ends the run; `notes.txt` in its place is skipped. -/
theorem C17_failed_load_aborts_batch_witness :
    (4 ≤ ["taskcollector", "add", "out.exr", "t0.exr", "missing.exr", "t0.Alpha.exr"].length ∧
      "missing.exr"
        ∈ ["taskcollector", "add", "out.exr", "t0.exr", "missing.exr", "t0.Alpha.exr"].drop 3 ∧
      main (sampleCodec sampleLoaderRGBA)
          ["taskcollector", "add", "out.exr", "t0.exr", "missing.exr", "t0.Alpha.exr"]
        = ⟨.error .nullDereference, none, none, []⟩) ∧
    (["t0.exr"] ++ ["t0.Alpha.exr"] ≠ [] ∧
      main (sampleCodec sampleLoaderRGBA)
          ("taskcollector" :: "add" :: "out.exr" :: (["t0.exr"] ++ "notes.txt" ::
            ["t0.Alpha.exr"]))
        = main (sampleCodec sampleLoaderRGBA)
          ("taskcollector" :: "add" :: "out.exr" :: (["t0.exr"] ++ ["t0.Alpha.exr"]))) :=
  ⟨⟨by decide, by decide,
      C17_failed_load_aborts_batch.1 Int (sampleCodec sampleLoaderRGBA)
        ["taskcollector", "add", "out.exr", "t0.exr", "missing.exr", "t0.Alpha.exr"]
        "missing.exr" .nullDereference (by decide) (by decide) (by decide) (by decide)⟩,
    by decide,
    (C17_failed_load_aborts_batch.2.1 Int (sampleCodec sampleLoaderRGBA) "taskcollector" "add"
      "out.exr" "notes.txt" ["t0.exr"] ["t0.Alpha.exr"] (Or.inl rfl) (by decide)).2
      (by decide)⟩

/-- C18 fails on the code in its second half. `main` returns -1, with no
collector created and no call of the writer, exactly when fewer than four
arguments are given or the mode is neither "add" nor "paste". In every other
case the run reaches `return 0` only when both `finalize` calls return, and
the destructors of the two collectors then call `FreeImage_Unload` on every
chunk held: `main` returns 0 exactly when the loader returned `NULL` for every
input path, so that no chunk is held. On the input `a.exr`, which loads, both
outputs are handed to the writer and the run ends in the destructor; on the
inputs `a.exr` and `a.Alpha.exr` it ends in the first `finalize`; on the input
`missing.exr` it ends in the loader. -/
theorem C18_exit_code_zero_only_without_chunks :
    (∀ (α : Type) [Add α] [Zero α] (lib : Codec α) (argv : List String),
      (argv.length < 4 ∨ (argv.getD 1 "" ≠ "add" ∧ argv.getD 1 "" ≠ "paste")) →
      main lib argv = ⟨.ok (-1), none, none, []⟩) ∧
    (∀ (α : Type) [Add α] [Zero α] (lib : Codec α) (argv : List String),
      (main lib argv).exit = .ok (-1) ↔
        (argv.length < 4 ∨ (argv.getD 1 "" ≠ "add" ∧ argv.getD 1 "" ≠ "paste"))) ∧
    (∀ (α : Type) [Add α] [Zero α] (lib : Codec α) (argv : List String),
      ¬ (argv.length < 4 ∨ (argv.getD 1 "" ≠ "add" ∧ argv.getD 1 "" ≠ "paste")) →
      ((main lib argv).exit = .ok 0 ↔ ∀ p ∈ argv.drop 3, GenericLoader lib p = .ok none)) ∧
    main (sampleCodec sampleLoader) ["taskcollector", "add", "out.exr", "a.exr"]
      = ⟨.error .invalidFree, some ⟨.AddTaskCollector, [sampleRGB1], []⟩,
          some ⟨.AddTaskCollector, [], []⟩,
          [("out.exr", some sampleRGB1), ("out.Alpha.exr", none)]⟩ ∧
    main (sampleCodec sampleLoader) ["taskcollector", "add", "out.exr", "a.exr", "a.Alpha.exr"]
      = ⟨.error .outOfBounds, some ⟨.AddTaskCollector, [sampleRGB1], [sampleRGB2]⟩,
          some ⟨.AddTaskCollector, [sampleRGB2], []⟩, []⟩ ∧
    main (sampleCodec sampleLoader) ["taskcollector", "add", "out.exr", "missing.exr"]
      = ⟨.error .nullDereference, none, none, []⟩ ∧
    main (sampleCodec sampleLoader) ["taskcollector", "add", "out.exr", "notes.txt"]
      = ⟨.ok 0, some ⟨.AddTaskCollector, [], []⟩, some ⟨.AddTaskCollector, [], []⟩,
          [("out.exr", none), ("out.Alpha.exr", none)]⟩ := by
  refine ⟨?_, ?_, ?_, by decide, by decide, by decide, by decide⟩
  · intro α _ _ lib argv h
    exact main_of_refused lib argv h
  · intro α _ _ lib argv
    constructor
    · intro h
      by_contra hn
      obtain ⟨hargc, hmode⟩ := accepted_of_not_refused argv hn
      exact (main_exit_zero_iff lib argv hargc hmode).2 h
    · intro h
      rw [main_of_refused lib argv h]
  · intro α _ _ lib argv hn
    obtain ⟨hargc, hmode⟩ := accepted_of_not_refused argv hn
    exact (main_exit_zero_iff lib argv hargc hmode).1

/-- Witness of C18: too few arguments, an unknown mode, and an accepted run
whose only input is refused by the loader. -/
theorem C18_exit_code_zero_only_without_chunks_witness :
    main (sampleCodec sampleLoader) ["taskcollector", "add", "out.exr"]
      = ⟨.ok (-1), none, none, []⟩ ∧
    main (sampleCodec sampleLoader) ["taskcollector", "mul", "out.exr", "a.exr"]
      = ⟨.ok (-1), none, none, []⟩ ∧
    (¬ (["taskcollector", "add", "out.exr", "notes.txt"].length < 4 ∨
        (["taskcollector", "add", "out.exr", "notes.txt"].getD 1 "" ≠ "add" ∧
          ["taskcollector", "add", "out.exr", "notes.txt"].getD 1 "" ≠ "paste")) ∧
      ((main (sampleCodec sampleLoader) ["taskcollector", "add", "out.exr", "notes.txt"]).exit
          = .ok 0 ↔
        ∀ p ∈ ["taskcollector", "add", "out.exr", "notes.txt"].drop 3,
          GenericLoader (sampleCodec sampleLoader) p = .ok none)) :=
  ⟨C18_exit_code_zero_only_without_chunks.1 Int (sampleCodec sampleLoader)
      ["taskcollector", "add", "out.exr"] (Or.inl (by decide)),
    C18_exit_code_zero_only_without_chunks.1 Int (sampleCodec sampleLoader)
      ["taskcollector", "mul", "out.exr", "a.exr"] (Or.inr (by decide)),
    by decide,
    C18_exit_code_zero_only_without_chunks.2.2.1 Int (sampleCodec sampleLoader)
      ["taskcollector", "add", "out.exr", "notes.txt"] (by decide)⟩

end DriverClaims2

/-! ## The derived alpha path -/

section AlphaName

theorem find_last_of_none_iff (c : Char) (l : List Char) : find_last_of l c = none ↔ c ∉ l := by
  induction l with
  | nil => simp [find_last_of]
  | cons a rest ih =>
    unfold find_last_of
    cases h : find_last_of rest c with
    | some i =>
      have : ¬ (c ∉ rest) := fun hn => by
        rw [ih.mpr hn] at h
        cases h
      simp only [List.mem_cons, not_or]
      constructor
      · intro h0; cases h0
      · intro h0; exact absurd h0.2 this
    | none =>
      have hn := ih.mp h
      by_cases e : a = c
      · simp [e]
      · simp only [if_neg e, List.mem_cons, not_or, true_iff]
        exact ⟨fun e' => e e'.symm, hn⟩

/-- The index returned by `find_last_of` splits the string at an occurrence
of the character that is followed by no other. -/
theorem find_last_of_some (c : Char) (l : List Char) :
    ∀ i, find_last_of l c = some i → ∃ post, l = l.take i ++ c :: post ∧ c ∉ post := by
  induction l with
  | nil => intro i h; simp [find_last_of] at h
  | cons a rest ih =>
    intro i h
    unfold find_last_of at h
    cases h1 : find_last_of rest c with
    | some j =>
      rw [h1] at h
      simp only [Option.some.injEq] at h
      subst h
      obtain ⟨post, hsplit, hpost⟩ := ih j h1
      refine ⟨post, ?_, hpost⟩
      rw [List.take_succ_cons, List.cons_append, ← hsplit]
    | none =>
      rw [h1] at h
      by_cases e : a = c
      · rw [if_pos e] at h
        simp only [Option.some.injEq] at h
        subst h
        exact ⟨rest, by simp [e], (find_last_of_none_iff c rest).mp h1⟩
      · rw [if_neg e] at h
        cases h

theorem find_last_of_append_cons (c : Char) (pre post : List Char) (hpost : c ∉ post) :
    find_last_of (pre ++ c :: post) c = some pre.length := by
  induction pre with
  | nil =>
    simp only [List.nil_append, List.length_nil]
    unfold find_last_of
    rw [(find_last_of_none_iff c post).mpr hpost, if_pos rfl]
  | cons a pre ih =>
    rw [List.cons_append]
    unfold find_last_of
    rw [ih]
    rfl

/-- C16 (amended): for every requested output path p with an extension,
p = stem + "." + ext with ext free of '.', the second output is written to
stem + ".Alpha.exr": the ".Alpha" suffix comes before the extension and the
extension is always exr. -/
theorem C16_alpha_path_with_extension (stem ext : String) (hext : '.' ∉ ext.toList) :
    main.alphaName (stem ++ "." ++ ext) = stem ++ ".Alpha.exr" := by
  have hl : (stem ++ "." ++ ext).toList = stem.toList ++ '.' :: ext.toList := by
    simp [String.toList, String.data_append]
  unfold main.alphaName
  rw [hl, find_last_of_append_cons '.' _ _ hext]
  simp only [List.take_left']
  rfl

/-- Witness of C16 (amended): the path `out.png`. -/
theorem C16_alpha_path_with_extension_witness :
    '.' ∉ "png".toList ∧ main.alphaName ("out" ++ "." ++ "png") = "out" ++ ".Alpha.exr" :=
  ⟨by decide, C16_alpha_path_with_extension "out" "png" (by decide)⟩

/-- Counterexample to C16 as stated: for `out.png` (stem `out`, extension
`png`) the second output goes to `out.Alpha.exr`, not to `out.Alpha.png`; for
`out`, which has no extension, it goes to `out.exr`, not to `out.Alpha.exr`. -/
theorem C16_alpha_path_counterexample :
    '.' ∉ "png".toList ∧
    main.alphaName ("out" ++ "." ++ "png") = "out.Alpha.exr" ∧
    main.alphaName ("out" ++ "." ++ "png") ≠ "out" ++ ".Alpha." ++ "png" ∧
    '.' ∉ "out".toList ∧
    main.alphaName "out" = "out.exr" ∧
    main.alphaName "out" ≠ "out" ++ ".Alpha.exr" := by
  refine ⟨by decide, by decide, by decide, by decide, by decide, by decide⟩

/-- C20: the two outputs never collide: for every requested output path p,
the derived alpha path computed by `main` (p + ".exr" when p contains no '.',
otherwise the prefix of p before its last '.' followed by ".Alpha.exr") is
different from p. -/
theorem C20_alpha_path_differs (p : String) :
    main.alphaName p ≠ p ∧
    ('.' ∉ p.toList → main.alphaName p = p ++ ".exr") ∧
    (∀ it, find_last_of p.toList '.' = some it →
      main.alphaName p = String.mk (p.toList.take it) ++ ".Alpha.exr") := by
  refine ⟨?_, ?_, ?_⟩
  · unfold main.alphaName
    cases h : find_last_of p.toList '.' with
    | none =>
      intro e
      have := congrArg String.length e
      rw [String.length_append] at this
      have l4 : ".exr".length = 4 := by decide
      omega
    | some it =>
      intro e
      obtain ⟨post, hsplit, hpost⟩ := find_last_of_some '.' p.toList it h
      have hd : ".Alpha.exr".toList = '.' :: "Alpha.exr".toList := by decide
      have e1 : p.toList.take it ++ ".Alpha.exr".toList = p.toList := by
        have := congrArg String.toList e
        simpa [String.toList, String.data_append] using this
      have e2 : p.toList.take it ++ ".Alpha.exr".toList = p.toList.take it ++ '.' :: post :=
        e1.trans hsplit
      have e3 := List.append_cancel_left e2
      rw [hd] at e3
      have e4 : "Alpha.exr".toList = post := List.tail_eq_of_cons_eq e3
      apply hpost
      rw [← e4]
      decide
  · intro h
    unfold main.alphaName
    rw [(find_last_of_none_iff '.' p.toList).mpr h]
  · intro it h
    unfold main.alphaName
    rw [h]

/-- Witness of C20: a path without '.' and a path whose last '.' is at index 3. -/
theorem C20_alpha_path_differs_witness :
    ('.' ∉ "out".toList ∧ main.alphaName "out" = "out" ++ ".exr") ∧
    (find_last_of "out.exr".toList '.' = some 3 ∧
      main.alphaName "out.exr" = String.mk ("out.exr".toList.take 3) ++ ".Alpha.exr") :=
  ⟨⟨by decide, (C20_alpha_path_differs "out").2.1 (by decide)⟩,
    ⟨by decide, (C20_alpha_path_differs "out.exr").2.2 3 (by decide)⟩⟩

end AlphaName

/-! ## The band offsets of `PasteTaskCollector::finalize` -/

section BandOffsets

variable {α : Type}

theorem chunkWorker_cur (t : FREE_IMAGE_TYPE) (h w : Nat) (st : FIBITMAP α × Nat)
    (el : FIBITMAP α) (st' : FIBITMAP α × Nat)
    (hrun : PasteTaskCollector.chunkWorker t h w st el = .ok st') :
    st'.2 = u32sub st.2 h := by
  unfold PasteTaskCollector.chunkWorker at hrun
  cases t with
  | FIT_RGBF =>
    rw [if_pos rfl] at hrun
    cases h1 : forLoop h (fun y img => do
        let srcbits := FreeImage_GetScanLine el y
        let dstbits := FreeImage_GetScanLine img (u32add y st.2)
        let dstbits ← forLoop w (PasteTaskCollector.copyPixelRGBF srcbits) dstbits
        pure (img.setScanLine (u32add y st.2) dstbits)) st.1 with
    | error e => rw [h1] at hrun; cases hrun
    | ok img' =>
      rw [h1] at hrun
      cases hrun
      rfl
  | FIT_RGBAF =>
    rw [if_neg (by decide), if_pos rfl] at hrun
    cases h1 : forLoop h (fun y img => do
        let srcbits := FreeImage_GetScanLine el y
        let dstbits := FreeImage_GetScanLine img (u32add y st.2)
        let dstbits ← forLoop w (PasteTaskCollector.copyPixelRGBAF srcbits) dstbits
        pure (img.setScanLine (u32add y st.2) dstbits)) st.1 with
    | error e => rw [h1] at hrun; cases hrun
    | ok img' =>
      rw [h1] at hrun
      cases hrun
      rfl

/-- After a run of `chunkWorker` over a list of chunks, `currentHeight` has
been decremented once per chunk. -/
theorem foldlM_chunkWorker_cur (t : FREE_IMAGE_TYPE) (h w : Nat) (l : List (FIBITMAP α)) :
    ∀ st st', l.foldlM (PasteTaskCollector.chunkWorker t h w) st = .ok st' →
      st'.2 = (fun cur => u32sub cur h)^[l.length] st.2 := by
  induction l with
  | nil =>
    intro st st' hrun
    cases hrun
    rfl
  | cons el l ih =>
    intro st st' hrun
    rw [List.foldlM_cons] at hrun
    cases h1 : PasteTaskCollector.chunkWorker t h w st el with
    | error e => rw [h1] at hrun; cases hrun
    | ok s1 =>
      rw [h1] at hrun
      rw [ih s1 st' hrun, chunkWorker_cur t h w st el s1 h1, List.length_cons,
        Function.iterate_succ_apply]

theorem iterate_u32sub (h : Nat) : ∀ (k cur : Nat), k * h ≤ cur → cur < 2 ^ 32 →
    (fun c => u32sub c h)^[k] cur = cur - k * h := by
  intro k
  induction k with
  | zero => intro cur _ _; simp
  | succ k ih =>
    intro cur hk hlt
    rw [Nat.succ_mul] at hk
    rw [Function.iterate_succ_apply, u32sub_of_le (by omega) hlt, ih (cur - h) (by omega)
      (by omega), Nat.succ_mul]
    omega

theorem band_inj {h y y' a b : Nat} (hy : y < h) (hy' : y' < h)
    (e : y + a * h = y' + b * h) : a = b ∧ y = y' := by
  have hpos : 0 < h := by omega
  have d1 : (y + a * h) / h = a := by
    rw [Nat.add_mul_div_right _ _ hpos, Nat.div_eq_of_lt hy, Nat.zero_add]
  have d2 : (y' + b * h) / h = b := by
    rw [Nat.add_mul_div_right _ _ hpos, Nat.div_eq_of_lt hy', Nat.zero_add]
  have hab : a = b := by rw [← d1, e, d2]
  subst hab
  exact ⟨rfl, by omega⟩

/-- Folding `chunkWorker` over the first chunks of a list, from the offset of
the topmost band still free: no fault as long as the bands written lie inside
the image. -/
theorem foldlM_chunkWorker_prefix (t : FREE_IMAGE_TYPE) (h w : Nat) (cs : List (FIBITMAP α)) :
    ∀ (img : FIBITMAP α) (cur : Nat), Uniform t w h cs → img.WF → img.type = t →
      img.width = w → img.height < 2 ^ 32 →
      (cs ≠ [] → cur + h ≤ img.height ∧ h * cs.length ≤ cur + h) →
      ∃ st', cs.foldlM (PasteTaskCollector.chunkWorker t h w) (img, cur) = .ok st' ∧
        st'.1.WF ∧ st'.1.type = t ∧ st'.1.width = w ∧ st'.1.height = img.height := by
  induction cs with
  | nil =>
    intro img cur _ himg hit hiw _ _
    exact ⟨(img, cur), rfl, himg, hit, hiw, rfl⟩
  | cons el rest ih =>
    intro img cur huni himg hit hiw h32 hroom
    obtain ⟨hel, het, hew, heh⟩ := huni el (List.mem_cons_self _ _)
    obtain ⟨hfit, hlen⟩ := hroom (by simp)
    rw [List.length_cons, Nat.mul_succ] at hlen
    obtain ⟨img1, hrun1, hwf1, ht1, hw1, hh1, -, -⟩ :=
      chunkWorker_spec t h w img el cur himg hit hiw hel het hew heh hfit (by omega)
    obtain ⟨st', hrun, hwf, ht', hw', hh'⟩ :=
      ih img1 (u32sub cur h) (fun e he => huni e (List.mem_cons_of_mem _ he)) hwf1 ht1 hw1
        (by omega) (by
          intro hne
          have hpos : 0 < rest.length := List.length_pos.mpr hne
          have hge : h ≤ h * rest.length := Nat.le_mul_of_pos_right _ hpos
          rw [u32sub_of_le (by omega) (by omega), hh1]
          omega)
    refine ⟨st', ?_, hwf, ht', hw', hh'.trans hh1⟩
    rw [List.foldlM_cons, hrun1]
    exact hrun

end BandOffsets

section BandClaims

variable {α : Type} [Zero α]

theorem paste_initial_offset (h m : Nat) (hfit : h * (m + 1) < 2 ^ 32) :
    u32mul h (m + 1) = h * (m + 1) ∧ u32sub (u32mul h (m + 1)) h = m * h := by
  have e := u32mul_of_lt hfit
  rw [e, u32sub_of_le (Nat.le_mul_of_pos_right _ (by omega)) hfit, Nat.mul_succ,
    Nat.mul_comm h m]
  exact ⟨rfl, by omega⟩

/-- The run of `finalize` is the fold of `chunkWorker` from the allocated
image and the first offset; the offset left by the fold is dropped. -/
theorem paste_finalize_fold (c : FIBITMAP α) (cs alphas : List (FIBITMAP α)) (out : FIBITMAP α)
    (hrun : PasteTaskCollector.finalize (c :: cs) alphas = .ok (some out)) :
    ∃ cur, (c :: cs).foldlM (PasteTaskCollector.chunkWorker c.type c.height c.width)
        ((FreeImage_AllocateT c.type c.width (u32mul c.height (cs.length + 1))
          (FreeImage_GetBPP c) : FIBITMAP α),
          u32sub (u32mul c.height (cs.length + 1)) c.height) = .ok (out, cur) := by
  simp only [PasteTaskCollector.finalize, FreeImage_GetWidth, FreeImage_GetHeight,
    FreeImage_GetImageType, List.length_cons] at hrun
  cases h1 : (c :: cs).foldlM (PasteTaskCollector.chunkWorker c.type c.height c.width)
      ((FreeImage_AllocateT c.type c.width (u32mul c.height (cs.length + 1))
        (FreeImage_GetBPP c) : FIBITMAP α),
        u32sub (u32mul c.height (cs.length + 1)) c.height) with
  | error e => rw [h1] at hrun; cases hrun
  | ok st =>
    rw [h1] at hrun
    cases hrun
    exact ⟨st.2, rfl⟩

/-- C19: band offsets of `PasteTaskCollector::finalize` for N >= 1 primary
chunks, h being the height of the first chunk and h * N below 2^32. First
part: in the state in which chunk k (0-based) is processed, `currentHeight`
is (N-1-k)*h, every destination index y + currentHeight with y < h is computed
without wrap and is below h * N, the decrement before a further chunk does not
wrap, and the decrement after the last chunk starts from 0 (so it wraps to
2^32 - h when h > 0). Second and third parts: the bands of distinct chunks are
disjoint and every output scanline lies in one band. Fourth part: for
well-formed chunks sharing layout, width and height these states are reached
without fault, the wrapped offset left after the last chunk is dropped by
`finalize`, and every scanline of the returned buffer is a scanline of a chunk. -/
theorem C19_paste_band_offsets (c : FIBITMAP α) (cs alphas : List (FIBITMAP α))
    (hfit : c.height * (cs.length + 1) < 2 ^ 32) :
    (∀ k st, k < cs.length + 1 →
      ((c :: cs).take k).foldlM (PasteTaskCollector.chunkWorker c.type c.height c.width)
        ((FreeImage_AllocateT c.type c.width (u32mul c.height (cs.length + 1))
          (FreeImage_GetBPP c) : FIBITMAP α),
          u32sub (u32mul c.height (cs.length + 1)) c.height) = .ok st →
      st.2 = (cs.length + 1 - 1 - k) * c.height ∧
      (∀ y, y < c.height →
        u32add y st.2 = y + st.2 ∧ y + st.2 < c.height * (cs.length + 1)) ∧
      (k + 1 < cs.length + 1 →
        c.height ≤ st.2 ∧ u32sub st.2 c.height = (cs.length + 1 - 1 - (k + 1)) * c.height) ∧
      (k + 1 = cs.length + 1 →
        st.2 = 0 ∧ (0 < c.height → u32sub st.2 c.height = 2 ^ 32 - c.height))) ∧
    (∀ k k' y y', k < cs.length + 1 → k' < cs.length + 1 → y < c.height → y' < c.height →
      y + (cs.length + 1 - 1 - k) * c.height = y' + (cs.length + 1 - 1 - k') * c.height →
      k = k' ∧ y = y') ∧
    (∀ r, r < c.height * (cs.length + 1) →
      ∃ k y, k < cs.length + 1 ∧ y < c.height ∧
        r = y + (cs.length + 1 - 1 - k) * c.height) ∧
    (Uniform c.type c.width c.height (c :: cs) →
      (∀ k, k < cs.length + 1 → ∃ st,
        ((c :: cs).take k).foldlM (PasteTaskCollector.chunkWorker c.type c.height c.width)
          ((FreeImage_AllocateT c.type c.width (u32mul c.height (cs.length + 1))
            (FreeImage_GetBPP c) : FIBITMAP α),
            u32sub (u32mul c.height (cs.length + 1)) c.height) = .ok st) ∧
      ∃ out,
        (c :: cs).foldlM (PasteTaskCollector.chunkWorker c.type c.height c.width)
          ((FreeImage_AllocateT c.type c.width (u32mul c.height (cs.length + 1))
            (FreeImage_GetBPP c) : FIBITMAP α),
            u32sub (u32mul c.height (cs.length + 1)) c.height)
          = .ok (out, u32sub 0 c.height) ∧
        PasteTaskCollector.finalize (c :: cs) alphas = .ok (some out) ∧
        ∀ k y, k < cs.length + 1 → y < c.height →
          ∃ el, (c :: cs)[k]? = some el ∧
            FreeImage_GetScanLine out (y + (cs.length + 1 - 1 - k) * c.height)
              = FreeImage_GetScanLine el y) := by
  obtain ⟨hmul, hcur0⟩ := paste_initial_offset c.height cs.length hfit
  have hsplit : c.height * (cs.length + 1) = cs.length * c.height + c.height := by
    rw [Nat.mul_succ, Nat.mul_comm]
  simp only [Nat.add_sub_cancel]
  have hcur0' := hcur0
  rw [hmul] at hcur0'
  rw [hmul, hcur0']
  refine ⟨?_, ?_, ?_, ?_⟩
  · intro k st hk hrun
    have hcur := foldlM_chunkWorker_cur _ _ _ _ _ _ hrun
    have hklen : ((c :: cs).take k).length = k := by
      rw [List.length_take, List.length_cons]; omega
    have hkm : k * c.height ≤ cs.length * c.height := Nat.mul_le_mul_right _ (by omega)
    rw [hklen, iterate_u32sub _ _ _ hkm (by omega), ← Nat.sub_mul] at hcur
    have hle : (cs.length - k) * c.height ≤ cs.length * c.height :=
      Nat.mul_le_mul_right _ (by omega)
    refine ⟨hcur, ?_, ?_, ?_⟩
    · intro y hy
      rw [hcur, u32add_of_lt (by omega)]
      exact ⟨rfl, by omega⟩
    · intro hk1
      have e : cs.length - k = (cs.length - (k + 1)) + 1 := by omega
      have e2 : (cs.length - k) * c.height
          = (cs.length - (k + 1)) * c.height + c.height := by
        rw [e, Nat.succ_mul]
      rw [hcur]
      refine ⟨by omega, ?_⟩
      rw [u32sub_of_le (by omega) (by omega)]
      omega
    · intro hk1
      have e : cs.length - k = 0 := by omega
      rw [hcur, e, Nat.zero_mul]
      refine ⟨rfl, fun hpos => ?_⟩
      unfold u32sub
      rw [Nat.mod_eq_of_lt (by omega : c.height < 2 ^ 32)]
      simp only [Nat.zero_mod, Nat.zero_add]
      exact Nat.mod_eq_of_lt (by omega)
  · intro k k' y y' hk hk' hy hy' e
    obtain ⟨e1, e2⟩ := band_inj hy hy' e
    exact ⟨by omega, e2⟩
  · intro r hr
    have hpos : 0 < c.height := by
      rcases Nat.eq_zero_or_pos c.height with h0 | hp
      · rw [h0] at hr; simp at hr
      · exact hp
    have hdiv : r / c.height < cs.length + 1 := Nat.div_lt_of_lt_mul hr
    have hmod : r % c.height < c.height := Nat.mod_lt _ hpos
    have hdm : c.height * (r / c.height) + r % c.height = r := Nat.div_add_mod r c.height
    generalize r / c.height = q at hdiv hdm
    refine ⟨cs.length - q, r % c.height, by omega, hmod, ?_⟩
    rw [show cs.length - (cs.length - q) = q by omega, Nat.mul_comm q]
    omega
  · intro huni
    constructor
    · intro k hk
      have hklen : ((c :: cs).take k).length ≤ cs.length + 1 := by
        rw [List.length_take, List.length_cons]; omega
      obtain ⟨st, hst, -⟩ := foldlM_chunkWorker_prefix c.type c.height c.width
        ((c :: cs).take k)
        (FreeImage_AllocateT c.type c.width (c.height * (cs.length + 1)) (FreeImage_GetBPP c))
        (cs.length * c.height) (fun e he => huni e (List.mem_of_mem_take he))
        (allocateT_WF _ _ _ _) rfl rfl (by simpa [FreeImage_AllocateT] using hfit)
        (fun _ => by
          have := Nat.mul_le_mul_left c.height hklen
          simp only [FreeImage_AllocateT]
          omega)
      exact ⟨st, hst⟩
    · obtain ⟨out, hrun, -, -, -, -, hbands⟩ := paste_finalize_spec c cs alphas huni hfit
      obtain ⟨cur, hfold⟩ := paste_finalize_fold c cs alphas out hrun
      rw [hmul, hcur0'] at hfold
      have hcur := foldlM_chunkWorker_cur _ _ _ _ _ _ hfold
      simp only [List.length_cons] at hcur
      rw [Function.iterate_succ_apply', iterate_u32sub _ _ _ (Nat.le_refl _) (by omega),
        Nat.sub_self] at hcur
      subst hcur
      refine ⟨out, hfold, hrun, ?_⟩
      intro k y hk hy
      obtain ⟨el, hel⟩ := exists_getElem?_of_lt (c :: cs) k (by rw [List.length_cons]; exact hk)
      refine ⟨el, hel, ?_⟩
      rw [Nat.add_comm]
      exact getScanLine_of_bits_eq (hbands k el hel y hy)

/-- Witness of C19: three 2x2 `FIT_RGBF` chunks. -/
theorem C19_paste_band_offsets_witness :
    samplePaste1.height * ([samplePaste2, samplePaste3].length + 1) < 2 ^ 32 ∧
    Uniform samplePaste1.type samplePaste1.width samplePaste1.height
      [samplePaste1, samplePaste2, samplePaste3] ∧
    ∀ k, k < [samplePaste2, samplePaste3].length + 1 → ∃ st,
      ([samplePaste1, samplePaste2, samplePaste3].take k).foldlM
        (PasteTaskCollector.chunkWorker samplePaste1.type samplePaste1.height
          samplePaste1.width)
        ((FreeImage_AllocateT samplePaste1.type samplePaste1.width
            (u32mul samplePaste1.height ([samplePaste2, samplePaste3].length + 1))
            (FreeImage_GetBPP samplePaste1) : FIBITMAP Int),
          u32sub (u32mul samplePaste1.height ([samplePaste2, samplePaste3].length + 1))
            samplePaste1.height) = .ok st :=
  ⟨by decide, by decide,
    ((C19_paste_band_offsets samplePaste1 [samplePaste2, samplePaste3] []
      (by decide)).2.2.2 (by decide)).1⟩

end BandClaims

end GnrTaskCollector
